import Mathlib

/-!
Verification of the basica-vscode language-server source analysis engine.

The Rust source operates on document text line by line (`source.lines()`),
almost always on the ASCII byte level (`as_bytes`, byte indexing).  We embed
a document as a list of lines, each line a list of byte values (`Nat`), and
translate each Rust function into a Lean function over that representation.
Loops whose index does not structurally decrease (the `search_start` loops)
are written with an explicit fuel argument initialised to a bound that the
source loop can never exceed; every other function is a direct structural
recursion.
-/

namespace Basica

/-- A source line: its bytes (ASCII). -/
abbrev Line := List Nat

/-- A document, as the list of its lines (`source.lines()`). -/
abbrev Doc := List Line

/-- Bytes of a Lean string literal, for writing concrete lines. -/
def bytes (s : String) : Line := s.toList.map Char.toNat

/-- Rust `u8::is_ascii_digit`. -/
def isDigit (b : Nat) : Bool := 48 ≤ b && b ≤ 57

/-- Rust `u8::is_ascii_alphabetic`. -/
def isAlpha (b : Nat) : Bool := (65 ≤ b && b ≤ 90) || (97 ≤ b && b ≤ 122)

/-- Rust `u8::is_ascii_alphanumeric`. -/
def isAlnum (b : Nat) : Bool := isDigit b || isAlpha b

/-- Word characters used by `get_word_at_position`: alphanumeric, `_`, `$`. -/
def isWordChar (b : Nat) : Bool := isAlnum b || b == 95 || b == 36

/-- ASCII whitespace as recognised by Rust `char::is_whitespace`
(space, tab, newline, vertical tab, form feed, carriage return). -/
def isWs (b : Nat) : Bool :=
  b == 32 || b == 9 || b == 10 || b == 11 || b == 12 || b == 13

/-- ASCII uppercase of one byte (Rust `to_uppercase` restricted to ASCII). -/
def upperByte (b : Nat) : Nat := if 97 ≤ b && b ≤ 122 then b - 32 else b

/-- Rust `str::to_uppercase` (ASCII). -/
def upper (l : Line) : Line := l.map upperByte

/-- Rust `str::trim_start`. -/
def trimStart (l : Line) : Line := l.dropWhile isWs

/-- Rust `str::trim_end`. -/
def trimEnd (l : Line) : Line := (l.reverse.dropWhile isWs).reverse

/-- Rust `str::trim`. -/
def trim (l : Line) : Line := trimEnd (trimStart l)

/-- Rust `str::starts_with` for a byte pattern. -/
def startsWith (pat l : Line) : Bool := l.take pat.length == pat

/-- Rust `str::strip_prefix`: the remainder after `pat`, when `l` begins with it. -/
def stripPre (pat l : Line) : Option Line :=
  if startsWith pat l then some (l.drop pat.length) else none

/-- First index at which `pat` occurs in `l` (Rust `str::find` with a string
pattern; the empty pattern matches at index 0). -/
def findSub (pat l : Line) : Option Nat :=
  match l with
  | [] => if pat.length == 0 then some 0 else none
  | _ :: t => if startsWith pat l then some 0 else (findSub pat t).map (· + 1)

/-- Rust `str::contains` with a string pattern. -/
def containsSub (pat l : Line) : Bool := (findSub pat l).isSome

/-- First index whose byte satisfies `p` (Rust `str::find` with a predicate). -/
def findIdx (p : Nat → Bool) (l : Line) : Option Nat :=
  match l with
  | [] => none
  | b :: t => if p b then some 0 else (findIdx p t).map (· + 1)

/-- Rust `str::split` on a single byte; keeps empty parts. -/
def splitByte (sep : Nat) (l : Line) : List Line :=
  match l with
  | [] => [[]]
  | b :: t =>
    if b == sep then [] :: splitByte sep t
    else match splitByte sep t with
      | [] => [[b]]
      | p :: ps => (b :: p) :: ps

/-- Rust `str::split` with a nonempty string pattern (fueled scan). -/
def splitSubAux (pat : Line) (fuel : Nat) (l : Line) : List Line :=
  match fuel with
  | 0 => [l]
  | fuel + 1 =>
    match findSub pat l with
    | none => [l]
    | some i => l.take i :: splitSubAux pat fuel (l.drop (i + pat.length))

/-- Rust `str::split` with a string pattern. -/
def splitSub (pat : Line) (l : Line) : List Line :=
  splitSubAux pat (l.length + 1) l

/-- The first whitespace-delimited token (`split_whitespace().next()`),
or `none` when the line is blank. -/
def firstWord (l : Line) : Option Line :=
  let t := trimStart l
  if t.isEmpty then none else some (t.takeWhile (fun b => !isWs b))

/-- Rust `str::parse::<u32>()`: optional sign, then one or more ASCII digits,
value below `2 ^ 32`. -/
def parseU32 (l : Line) : Option Nat :=
  if l.head? == some 45 then none      -- leading '-' never fits in u32
  else
    let ds := if l.head? == some 43 then l.tail else l   -- optional leading '+'
    if ds.isEmpty || !(ds.all isDigit) then none
    else
      let v := ds.foldl (fun acc b => acc * 10 + (b - 48)) 0
      if v < 2 ^ 32 then some v else none

/-- Rust `str::trim_end_matches('$')`. -/
def trimEndDollars (l : Line) : Line := (l.reverse.dropWhile (· == 36)).reverse

end Basica

namespace Basica

/-! ## LSP data model (the fields the diagnostics claims depend on) -/

/-- An LSP range: start/end row and column. -/
structure Rng where
  startLine : Nat
  startChar : Nat
  endLine : Nat
  endChar : Nat
deriving DecidableEq, Repr

/-- Rust `Range::default()`. -/
def Rng.default : Rng := ⟨0, 0, 0, 0⟩

/-- Diagnostic severity. -/
inductive Severity where
  | err
  | warn
  | hint
deriving DecidableEq, Repr

/-- A diagnostic as produced by `diagnostics.rs` (`source` is always the
constant string "basica" and is omitted; `unnecessary` models the
`DiagnosticTag::UNNECESSARY` tag). -/
structure Diagnostic where
  range : Rng
  severity : Severity
  message : Line
  unnecessary : Bool
deriving DecidableEq, Repr

/-! ## diagnostics.rs -/

/-- Rust `diagnostics.rs::skip_line_number`. -/
def skip_line_number (l : Line) : Line :=
  let trimmed := trimStart l
  match firstWord l with
  | some w => if (parseU32 w).isSome then trimStart (trimmed.drop w.length) else l
  | none => l

/-- Rust `diagnostics.rs::is_builtin_var`. -/
def is_builtin_var (w : Line) : Bool :=
  ([ "TIMER", "DATE$", "TIME$", "INKEY$", "ERR", "ERL"].map bytes).any (· == w)

/-- Rust `diagnostics.rs::is_keyword`. -/
def is_keyword (w : Line) : Bool :=
  (["REM", "LET", "DIM", "PRINT", "LPRINT", "INPUT", "LINE", "IF", "THEN",
    "ELSE", "ELSEIF", "END", "ENDIF", "FOR", "TO", "STEP", "NEXT", "WHILE",
    "WEND", "DO", "LOOP", "UNTIL", "EXIT", "SELECT", "CASE", "GOTO", "GOSUB",
    "RETURN", "ON", "READ", "DATA", "RESTORE", "DEF", "FN", "AS", "OUTPUT",
    "APPEND", "RANDOM", "BINARY", "OPEN", "CLOSE", "GET", "PUT", "WRITE",
    "FIELD", "LSET", "RSET", "SCREEN", "COLOR", "CLS", "LOCATE", "WIDTH",
    "CIRCLE", "PAINT", "PSET", "PRESET", "DRAW", "PLAY", "SOUND", "BEEP",
    "SWAP", "RANDOMIZE", "CLEAR", "STOP", "POKE", "PEEK", "OUT", "INP",
    "WAIT", "AND", "OR", "XOR", "NOT", "MOD", "IMP", "EQV", "KILL", "NAME",
    "MKDIR", "RMDIR", "CHDIR", "FILES", "CALL", "CHAIN", "COMMON", "SHARED",
    "STATIC", "SUB", "USING"].map bytes).any (· == w)

/-- Rust `diagnostics.rs::is_function`. -/
def is_function (w : Line) : Bool :=
  (["CHR$", "ASC", "LEN", "LEFT$", "RIGHT$", "MID$", "STR$", "VAL",
    "STRING$", "SPACE$", "INSTR", "UCASE$", "LCASE$", "LTRIM$", "RTRIM$",
    "HEX$", "OCT$", "ABS", "SGN", "INT", "FIX", "CINT", "SQR", "SIN", "COS",
    "TAN", "ATN", "LOG", "EXP", "RND", "PEEK", "TIMER", "DATE$", "TIME$",
    "INKEY$", "EOF", "CSRLIN", "POS", "POINT", "TAB", "SPC", "LOF", "LOC",
    "FRE", "VARPTR", "VARPTR$", "SADD"].map bytes).any (· == w)

/-- Rust `diagnostics.rs::extract_var_with_pos` (the returned position is always 0
in the source). -/
def extract_var_with_pos (s : Line) : Option (Line × Nat) :=
  match trim s with
  | [] => none
  | b :: t =>
    if !isAlpha b then none
    else
      let core := t.takeWhile (fun c => isAlnum c || c == 95)
      let rest := t.drop core.length
      match rest with
      | 36 :: _ => some (b :: core ++ [36], 0)
      | _ => some (b :: core, 0)

/-- A declaration or usage site: (row, start column, end column). -/
abbrev Site := Nat × Nat × Nat

/-- The per-variable site map (`HashMap<String, Vec<...>>`), as an association
list in first-insertion order; `pushSite` models `entry().or_default().push()`. -/
abbrev VarMap := List (Line × List Site)

def pushSite (m : VarMap) (k : Line) (s : Site) : VarMap :=
  match m with
  | [] => [(k, [s])]
  | (k', ss) :: t => if k' == k then (k, ss ++ [s]) :: t else (k', ss) :: pushSite t k s

def mapGet (m : VarMap) (k : Line) : Option (List Site) :=
  (m.find? (fun e => e.1 == k)).map (fun e => e.2)

def containsKey (m : VarMap) (k : Line) : Bool := (mapGet m k).isSome

/-- Rust `diagnostics.rs::find_variable_usages` (fueled scan over the uppercased
line; fuel is initialised to the line length, which the position-advancing
loop never exceeds). -/
def fvuAux (ln : Nat) (defs : VarMap) : Nat → Nat → Line → VarMap → VarMap
  | 0, _, _, usages => usages
  | _ + 1, _, [], usages => usages
  | fuel + 1, pos, b :: t, usages =>
    if !isAlpha b then fvuAux ln defs fuel (pos + 1) t usages
    else
      let w := b :: t.takeWhile isWordChar
      let t' := t.dropWhile isWordChar
      let usages' :=
        if !is_keyword w && !is_function w && w.length > 0 then
          let isDefSite := match mapGet defs w with
            | some locs => locs.any (fun s => s.1 == ln && s.2.1 == pos)
            | none => false
          if isDefSite then usages else pushSite usages w (ln, pos, pos + w.length)
        else usages
      fvuAux ln defs fuel (pos + w.length) t' usages'

def find_variable_usages (l : Line) (ln : Nat) (defs : VarMap) (usages : VarMap) : VarMap :=
  fvuAux ln defs (l.length + 1) 0 l usages

/-- One sub-statement (`part`) of `analyze_variables`: records declaration
sites, mirroring the source's branch cascade. -/
def avPart (ln ofs : Nat) (up : Line) (part0 : Line) (defs : VarMap) : VarMap :=
  let part := trim part0
  match stripPre (bytes "LET ") part with
  | some rest =>
    match extract_var_with_pos rest with
    | some (var, pos) =>
      pushSite defs var (ln, ofs + pos, ofs + pos + ((findIdx (· == 61) rest).getD rest.length))
    | none => defs
  | none =>
  match stripPre (bytes "DIM ") part with
  | some rest =>
    (splitByte 44 rest).foldl (fun defs dimPart =>
      match extract_var_with_pos (trim dimPart) with
      | some (var, _) =>
        let start := (findSub dimPart up).getD 0
        pushSite defs var (ln, start, start + var.length)
      | none => defs) defs
  | none =>
  match stripPre (bytes "FOR ") part with
  | some rest =>
    match extract_var_with_pos rest with
    | some (var, _) =>
      let start := (findSub var up).getD 0
      pushSite defs var (ln, start, start + var.length)
    | none => defs
  | none =>
  match stripPre (bytes "INPUT ") part with
  | some rest =>
    let varsPart := match findIdx (· == 59) rest with
      | some semi => rest.drop (semi + 1)
      | none => rest
    (splitByte 44 varsPart).foldl (fun defs v =>
      match extract_var_with_pos (trim v) with
      | some (var, _) =>
        let start := (findSub var up).getD 0
        pushSite defs var (ln, start, start + var.length)
      | none => defs) defs
  | none =>
  match stripPre (bytes "READ ") part with
  | some rest =>
    (splitByte 44 rest).foldl (fun defs v =>
      match extract_var_with_pos (trim v) with
      | some (var, _) =>
        let start := (findSub var up).getD 0
        pushSite defs var (ln, start, start + var.length)
      | none => defs) defs
  | none =>
    if !startsWith (bytes "IF ") part && !startsWith (bytes "PRINT") part
        && !startsWith (bytes "GOTO") part && !startsWith (bytes "GOSUB") part then
      match findIdx (· == 61) part with
      | some eqPos =>
        let beforeEq := trim (part.take eqPos)
        if !(beforeEq.contains 32) && !beforeEq.isEmpty then
          match extract_var_with_pos beforeEq with
          | some (var, _) =>
            let start := (findSub var up).getD 0
            pushSite defs var (ln, start, start + var.length)
          | none => defs
        else defs
      | none => defs
    else defs

/-- Rust `diagnostics.rs::analyze_variables`. -/
def analyze_variables (src : Doc) : VarMap × VarMap :=
  (src.enum).foldl (fun (m : VarMap × VarMap) il =>
    let (ln, l) := il
    let up := upper l
    let content := skip_line_number up
    let ofs := up.length - content.length
    (splitByte 58 content).foldl (fun (m : VarMap × VarMap) part =>
      let defs := avPart ln ofs up part m.1
      let usages := find_variable_usages up ln defs m.2
      (defs, usages)) m) ([], [])

/-- Decimal digits of a number, as bytes (for `format!` messages). -/
def natBytes (n : Nat) : Line := (Nat.toDigits 10 n).map Char.toNat

/-- Rust `diagnostics.rs::find_jump_targets`: comma-list handling after one
keyword occurrence (parses targets and stops at the first non-number). -/
def jtParts : List Line → List Nat
  | [] => []
  | p :: ps =>
    let numStr := (firstWord p).getD []
    match parseU32 numStr with
    | some t => t :: jtParts ps
    | none => []

/-- Rust `diagnostics.rs::find_jump_targets`: fueled `search_start` loop for one
keyword on one (uppercased) line. -/
def jtScanAux (kw upperL : Line) : Nat → Nat → List Nat
  | 0, _ => []
  | fuel + 1, searchStart =>
    match findSub kw (upperL.drop searchStart) with
    | none => []
    | some kwPos =>
      let absPos := searchStart + kwPos + kw.length
      let after := upperL.drop absPos
      jtParts (splitByte 44 after) ++ jtScanAux kw upperL fuel absPos

def jumpKeywords : List Line := ["GOTO ", "GOSUB ", "THEN ", "RESTORE "].map bytes

/-- Rust `diagnostics.rs::find_jump_targets` (the result is consumed only through
membership, so a list models the `HashSet`). -/
def find_jump_targets (src : Doc) : List Nat :=
  src.flatMap (fun l =>
    let up := upper l
    jumpKeywords.flatMap (fun kw => jtScanAux kw up (up.length + 1) 0))

/-- The set of defined BASIC line numbers (first loop of
`check_undefined_lines`). -/
def definedLines (src : Doc) : List Nat :=
  src.filterMap (fun l => (firstWord l).bind parseU32)

/-- Rust `diagnostics.rs::check_undefined_lines`: comma-list handling after one
keyword occurrence (note the source computes `char_start` from the part's
leading whitespace only, without the part's offset in the line). -/
def culParts (defined : List Nat) (ln absPos : Nat) : List Line → List Diagnostic
  | [] => []
  | p :: ps =>
    let numStr := (firstWord p).getD []
    match parseU32 numStr with
    | some t =>
      (if defined.contains t then []
       else
         let charStart := absPos + (p.length - (trimStart p).length)
         [⟨⟨ln, charStart, ln, charStart + numStr.length⟩, .err,
           bytes "Line " ++ natBytes t ++ bytes " is not defined", false⟩])
      ++ culParts defined ln absPos ps
    | none => []

/-- Rust `diagnostics.rs::check_undefined_lines`: fueled `search_start` loop for
one keyword on one line (`after` is taken from the original line). -/
def culScanAux (defined : List Nat) (kw : Line) (ln : Nat) (upperL origL : Line) :
    Nat → Nat → List Diagnostic
  | 0, _ => []
  | fuel + 1, searchStart =>
    match findSub kw (upperL.drop searchStart) with
    | none => []
    | some kwPos =>
      let absPos := searchStart + kwPos + kw.length
      let after := origL.drop absPos
      culParts defined ln absPos (splitByte 44 after)
        ++ culScanAux defined kw ln upperL origL fuel absPos

/-- Rust `diagnostics.rs::check_undefined_lines`. -/
def check_undefined_lines (src : Doc) : List Diagnostic :=
  let defined := definedLines src
  (src.enum).flatMap (fun il =>
    let (ln, l) := il
    let up := upper l
    jumpKeywords.flatMap (fun kw => culScanAux defined kw ln up l (up.length + 1) 0))

/-- The terminator test of `check_unreachable_code`: content is exactly
`END`/`STOP`/`RETURN`, or starts with `GOTO ` on a line containing neither
`IF ` nor `ON `. -/
def makesUnreachable (l : Line) : Bool :=
  let up := upper l
  let content := trim (skip_line_number up)
  content == bytes "END" || content == bytes "STOP" || content == bytes "RETURN"
    || (startsWith (bytes "GOTO ") content
        && !containsSub (bytes "IF ") up && !containsSub (bytes "ON ") up)

/-- Is row content blank or a comment (skipped by the unreachable scan)? -/
def isSkippedRow (l : Line) : Bool :=
  let content := trim (skip_line_number (upper l))
  content.isEmpty || startsWith (bytes "REM") content || startsWith [39] content

/-- Does this row's leading BASIC line number make it a jump target? -/
def isTargetRow (targets : List Nat) (l : Line) : Bool :=
  match (firstWord l).bind parseU32 with
  | some bl => targets.contains bl
  | none => false

/-- The hints emitted while processing one row of `check_unreachable_code`:
a jump-target row closes an open region, reporting it when it spans at
least one row. -/
def cucEmit (targets : List Nat) (ln : Nat) (l : Line) : Option Nat → List Diagnostic
  | some s =>
    if isTargetRow targets l && decide (ln > s + 1) then
      [⟨⟨s + 1, 0, ln - 1, 1000⟩, .hint, bytes "Unreachable code", true⟩]
    else []
  | none => []

/-- The region state after one row of `check_unreachable_code`: a target row
clears it; blank/comment rows keep it; otherwise a terminator row opens a
region at this row when none is open. -/
def cucNextState (targets : List Nat) (ln : Nat) (l : Line) (state : Option Nat) :
    Option Nat :=
  let state1 : Option Nat := if isTargetRow targets l then none else state
  if isSkippedRow l then state1
  else if state1.isSome then state1
  else if makesUnreachable l then some ln else state1

/-- Rust `diagnostics.rs::check_unreachable_code`: the scan, one row at a time. -/
def cucAux (targets : List Nat) : Nat → List Line → Option Nat → List Diagnostic
  | _, [], _ => []
  | ln, l :: rest, state =>
    cucEmit targets ln l state
      ++ cucAux targets (ln + 1) rest (cucNextState targets ln l state)

/-- Rust `diagnostics.rs::check_unreachable_code`. -/
def check_unreachable_code (src : Doc) : List Diagnostic :=
  cucAux (find_jump_targets src) 0 src none

/-- Rust `diagnostics.rs::check_warnings`. -/
def check_warnings (src : Doc) : List Diagnostic :=
  let (defs, usages) := analyze_variables src
  let undefinedW := usages.flatMap (fun vu =>
    let (var, locs) := vu
    if !containsKey defs var && !is_builtin_var var then
      locs.map (fun s =>
        ⟨⟨s.1, s.2.1, s.1, s.2.2⟩, .warn,
          bytes "Variable '" ++ var ++ bytes "' may not be defined", false⟩)
    else [])
  let unusedH := defs.flatMap (fun vd =>
    let (var, locs) := vd
    if !containsKey usages var then
      match locs.head? with
      | some s =>
        [⟨⟨s.1, s.2.1, s.1, s.2.2⟩, .hint,
          bytes "Variable '" ++ var ++ bytes "' is defined but never used", true⟩]
      | none => []
    else [])
  undefinedW ++ unusedH ++ check_unreachable_code src ++ check_undefined_lines src

/-- Rust `diagnostics.rs::parse_error_message`. -/
def parse_error_message (msg : Line) : Nat × Line :=
  let fallback : Nat × Line :=
    match findSub (bytes "at line ") msg with
    | some pos =>
      let after := msg.drop (pos + 8)
      match findIdx (fun c => !isDigit c) after with
      | some e =>
        match parseU32 (after.take e) with
        | some n => (n, msg)
        | none => (0, msg)
      | none =>
        match parseU32 (trim after) with
        | some n => (n, msg)
        | none => (0, msg)
    | none => (0, msg)
  match stripPre (bytes "Line ") msg with
  | some rest =>
    match findIdx (· == 58) rest with
    | some colonPos =>
      match parseU32 (trim (rest.take colonPos)) with
      | some n => (n, trim (rest.drop (colonPos + 1)))
      | none => fallback
    | none => fallback
  | none => fallback

/-- Rust `diagnostics.rs::find_source_line_for_basic_line`. -/
def find_source_line_for_basic_line (src : Doc) (basicLine : Nat) : Nat :=
  go 0 src
where
  go (idx : Nat) : List Line → Nat
    | [] => 0
    | l :: rest =>
      match (firstWord l).bind parseU32 with
      | some n => if n == basicLine then idx else go (idx + 1) rest
      | none => go (idx + 1) rest

/-- Rust `diagnostics.rs::check`.  The external grammar engine (the `basica`
crate's lexer and parser) is outside this repository, so its verdict is a
parameter: `Except.ok` for a successful parse, `Except.error msg` for a
reported failure with message `msg`. -/
def check (parseResult : Except Line Unit) (src : Doc) : List Diagnostic :=
  match parseResult with
  | .ok _ => check_warnings src
  | .error msg =>
    let (line, message) := parse_error_message msg
    let range : Rng :=
      if line > 0 then
        let sl := find_source_line_for_basic_line src line
        ⟨sl, 0, sl, 1000⟩
      else Rng.default
    [⟨range, .err, message, false⟩]

end Basica

namespace Basica

/-! ## rename.rs -/

/-- A cursor position (`lsp_types::Position`). -/
structure Pos where
  line : Nat
  character : Nat
deriving DecidableEq, Repr

/-- A text edit (the per-line entries of the returned `WorkspaceEdit`;
the edit set is keyed by the single document URI, so a list suffices). -/
structure TextEdit where
  range : Rng
  newText : Line
deriving DecidableEq, Repr

/-- Rust `rename.rs::get_word_at_position` (also the identical copies in
`definition.rs`, `references.rs` and `hover.rs`): expand left/right from the
clamped cursor column over word characters. -/
def get_word_at_position (l : Line) (charPos : Nat) : Option (Nat × Nat × Line) :=
  let cp := min charPos l.length
  let start := cp - ((l.take cp).reverse.takeWhile isWordChar).length
  let e := cp + ((l.drop cp).takeWhile isWordChar).length
  if start < e then some (start, e, (l.drop start).take (e - start)) else none

/-- Rust `rename.rs::is_keyword` (its own table: the diagnostics table without
`SUB` and `USING`). -/
def rename_is_keyword (w : Line) : Bool :=
  (["REM", "LET", "DIM", "PRINT", "LPRINT", "INPUT", "LINE", "IF", "THEN",
    "ELSE", "ELSEIF", "END", "ENDIF", "FOR", "TO", "STEP", "NEXT", "WHILE",
    "WEND", "DO", "LOOP", "UNTIL", "EXIT", "SELECT", "CASE", "GOTO", "GOSUB",
    "RETURN", "ON", "READ", "DATA", "RESTORE", "DEF", "FN", "OPEN", "CLOSE",
    "GET", "PUT", "WRITE", "FIELD", "LSET", "RSET", "AS", "OUTPUT", "APPEND",
    "RANDOM", "BINARY", "SCREEN", "COLOR", "CLS", "LOCATE", "WIDTH",
    "CIRCLE", "PAINT", "PSET", "PRESET", "DRAW", "PLAY", "SOUND", "BEEP",
    "SWAP", "RANDOMIZE", "CLEAR", "STOP", "POKE", "PEEK", "OUT", "INP",
    "WAIT", "AND", "OR", "XOR", "NOT", "MOD", "IMP", "EQV", "KILL", "NAME",
    "MKDIR", "RMDIR", "CHDIR", "FILES", "CALL", "CHAIN", "COMMON", "SHARED",
    "STATIC"].map bytes).any (· == w)

/-- Rust `rename.rs::prepare_rename`. -/
def prepare_rename (src : Doc) (p : Pos) : Option Rng :=
  match src.get? p.line with
  | none => none
  | some l =>
    match get_word_at_position l p.character with
    | none => none
    | some (s, e, w) =>
      if (parseU32 w).isSome then none
      else if rename_is_keyword (upper w) then none
      else some ⟨p.line, s, p.line, e⟩

/-- The replacement text for one matched occurrence (`rename.rs` lines
91-99): occurrences carrying `$` get the new name with `$` appended unless
already present; occurrences without `$` get the new name with trailing `$`
stripped. -/
def renameReplacement (nn : Line) (hadDollar : Bool) : Line :=
  if hadDollar then (if nn.getLast? == some 36 then nn else nn ++ [36])
  else trimEndDollars nn

/-- The `search_start` occurrence loop of `rename.rs::rename_symbol` on one
(uppercased) line.  `none` models the byte-slice panic the source hits when
`search_start` exceeds the line length, which happens exactly when
`base_name` is empty (the cursor token was a bare `$`). -/
def renameScanAux (base nn : Line) (li : Nat) (up : Line) :
    Nat → Nat → Option (List TextEdit)
  | 0, _ => some []
  | fuel + 1, searchStart =>
    if searchStart > up.length then none
    else
      match findSub base (up.drop searchStart) with
      | none => some []
      | some pos =>
        let absPos := searchStart + pos
        let beforeOk := absPos == 0 ||
          (match up.get? (absPos - 1) with
           | some prev => !isAlnum prev && prev != 95 && prev != 36
           | none => false)
        let afterPos := absPos + base.length
        let afterOk := decide (afterPos ≥ up.length) ||
          (match up.get? afterPos with
           | some nxt => !isAlnum nxt && nxt != 95
           | none => true)
        let es : List TextEdit :=
          if beforeOk && afterOk then
            let endPos :=
              if afterPos < up.length && up.get? afterPos == some 36 then afterPos + 1
              else afterPos
            let hadDollar := endPos > afterPos
            [⟨⟨li, absPos, li, endPos⟩, renameReplacement nn hadDollar⟩]
          else []
        match renameScanAux base nn li up fuel (absPos + 1) with
        | none => none
        | some rest => some (es ++ rest)

/-- Occurrence edits for one line. -/
def renameLineEdits (base nn : Line) (li : Nat) (l : Line) : Option (List TextEdit) :=
  let up := upper l
  renameScanAux base nn li up (up.length + 2) 0

/-- Rust `rename.rs::rename_symbol`.  `Except.error ()` is the source's panic
(see `renameScanAux`); `.ok none` is the "not renameable / no occurrence"
result; `.ok (some edits)` the returned `WorkspaceEdit`. -/
def rename_symbol (src : Doc) (p : Pos) (newName : Line) :
    Except Unit (Option (List TextEdit)) :=
  match src.get? p.line with
  | none => .ok none
  | some l =>
    match get_word_at_position l p.character with
    | none => .ok none
    | some (_, _, word) =>
      if (parseU32 word).isSome || rename_is_keyword (upper word) then .ok none
      else
        let varUpper := upper word
        let isStringVar := varUpper.getLast? == some 36
        let baseName := if isStringVar then varUpper.take (varUpper.length - 1) else varUpper
        let edits := (src.enum).foldl (fun acc il =>
          match acc, renameLineEdits baseName newName il.1 il.2 with
          | some es, some es' => some (es ++ es')
          | _, _ => none) (some [])
        match edits with
        | none => .error ()
        | some es => if es.isEmpty then .ok none else .ok (some es)

/-! ## definition.rs (the jump-target map used by goto-definition) -/

/-- Insert-or-overwrite for the `HashMap<u32, u32>` of `build_line_map`. -/
def mapInsert (m : List (Nat × Nat)) (k v : Nat) : List (Nat × Nat) :=
  match m with
  | [] => [(k, v)]
  | (k', v') :: t => if k' == k then (k, v) :: t else (k', v') :: mapInsert t k v

def mapLookup (m : List (Nat × Nat)) (k : Nat) : Option Nat :=
  (m.find? (fun e => e.1 == k)).map (fun e => e.2)

/-- Rust `definition.rs::build_line_map`: scans every row's leading integer;
`HashMap::insert` overwrites, so a later duplicate replaces an earlier one. -/
def build_line_map (src : Doc) : List (Nat × Nat) :=
  (src.enum).foldl (fun m il =>
    match (firstWord il.2).bind parseU32 with
    | some n => mapInsert m n il.1
    | none => m) []

end Basica

namespace Basica

/-! ## folding.rs -/

/-- Rust `folding.rs::contains_keyword`: `match_indices` with
alphanumeric-boundary checks.  `matchIdxs` lists the non-overlapping match
positions of a pattern (fueled, like the other scans). -/
def matchIdxsAux (pat : Line) (l : Line) : Nat → Nat → List Nat
  | 0, _ => []
  | fuel + 1, from_ =>
    if from_ > l.length then []
    else
      match findSub pat (l.drop from_) with
      | none => []
      | some i =>
        (from_ + i) :: matchIdxsAux pat l fuel (from_ + i + max pat.length 1)

def matchIdxs (pat l : Line) : List Nat := matchIdxsAux pat l (l.length + 2) 0

def contains_keyword (l kw : Line) : Bool :=
  (matchIdxs kw l).any (fun i =>
    (i == 0 || (match l.get? (i - 1) with
      | some b => !isAlnum b
      | none => false)) &&
    (decide (i + kw.length ≥ l.length) || (match l.get? (i + kw.length) with
      | some b => !isAlnum b
      | none => true)))

/-- Folding region tags: which construct produced a region (the source emits
only the LSP kind, `erase` below; the tag names the originating tracker). -/
inductive FoldTag where
  | sub
  | forL
  | whileL
  | doL
  | selectL
  | ifL
  | comment
  | data
deriving DecidableEq, Repr

structure TaggedRange where
  startLine : Nat
  endLine : Nat
  tag : FoldTag
deriving DecidableEq, Repr

/-- The LSP folding-range kinds the source uses. -/
inductive FoldKind where
  | region
  | comment
deriving DecidableEq, Repr

structure FoldingRange where
  startLine : Nat
  endLine : Nat
  kind : FoldKind
deriving DecidableEq, Repr

def eraseTag (r : TaggedRange) : FoldingRange :=
  ⟨r.startLine, r.endLine, if r.tag == .comment then .comment else .region⟩

/-- Rust `folding.rs::find_gosub_targets` (also duplicated in `symbols.rs`):
every `GOSUB`-split part contributes its first token when numeric, plus the
comma list after the first `GOSUB` when preceded by `ON `. -/
def find_gosub_targets (src : Doc) : List Nat :=
  src.flatMap (fun l =>
    let up := upper l
    let part1 := (splitSub (bytes "GOSUB") up).filterMap
      (fun part => (firstWord part).bind parseU32)
    let part2 := match findSub (bytes "GOSUB") up with
      | some gp =>
        if containsSub (bytes "ON ") (up.take gp) then
          (splitByte 44 (up.drop (gp + 5))).filterMap (fun s => parseU32 (trim s))
        else []
      | none => []
    part1 ++ part2)

/-- The subroutine-start test of `get_folding_ranges` (lines 30-48): the
row's first token parses as a line number contained in the GOSUB-target set. -/
def isGosubStartRow (targets : List Nat) (trimmed : Line) : Bool :=
  match (firstWord trimmed).bind parseU32 with
  | some n => targets.contains n
  | none => false

/-- Comment-block continuation row test (lines 177-186). -/
def isCommentContRow (l : Line) : Bool :=
  let content := skip_line_number (trim (upper l))
  startsWith (bytes "REM") content || startsWith [39] content

/-- DATA-block continuation row test (lines 202-209). -/
def isDataContRow (l : Line) : Bool :=
  startsWith (bytes "DATA") (skip_line_number (trim (upper l)))

/-- Length of the initial run satisfying `p`. -/
def countWhile (p : Line → Bool) : List Line → Nat
  | [] => 0
  | l :: rest => if p l then countWhile p rest + 1 else 0

/-- The mutable state of `get_folding_ranges`: the five construct stacks and
the current subroutine start. -/
structure FoldState where
  forS : List Nat
  whileS : List Nat
  doS : List Nat
  selectS : List Nat
  ifS : List Nat
  subStart : Option Nat
deriving DecidableEq, Repr

def FoldState.init : FoldState := ⟨[], [], [], [], [], none⟩

/-- One stack step (push if `pushC`, then pop-and-emit if `popC`), shared by
the five construct trackers of `get_folding_ranges`. -/
def stackStep (pushC popC : Bool) (ln : Nat) (stk : List Nat) :
    List Nat × List (Nat × Nat) :=
  let stk1 := if pushC then ln :: stk else stk
  if popC then
    match stk1 with
    | s :: st => (st, if ln > s then [(s, ln)] else [])
    | [] => ([], [])
  else (stk1, [])

/-- Push condition for the `FOR` tracker. -/
def forPush (t : Line) : Bool :=
  contains_keyword t (bytes "FOR") && contains_keyword t (bytes "TO")
    && !contains_keyword t (bytes "NEXT")

def forPop (t : Line) : Bool := contains_keyword t (bytes "NEXT")

def whilePush (t : Line) : Bool :=
  contains_keyword t (bytes "WHILE") && !contains_keyword t (bytes "WEND")

def whilePop (t : Line) : Bool := contains_keyword t (bytes "WEND")

def doPush (t : Line) : Bool :=
  contains_keyword t (bytes "DO") && !contains_keyword t (bytes "LOOP")

def doPop (t : Line) : Bool := contains_keyword t (bytes "LOOP")

def selectPush (t : Line) : Bool :=
  contains_keyword t (bytes "SELECT") && contains_keyword t (bytes "CASE")

def selectPop (t : Line) : Bool :=
  contains_keyword t (bytes "END") && contains_keyword t (bytes "SELECT")

/-- Push condition for the multi-line `IF` tracker: an `IF` whose `THEN` is
followed by nothing, or only by a line number. -/
def ifPush (t : Line) : Bool :=
  contains_keyword t (bytes "IF") &&
    (match findSub (bytes "THEN") t with
     | some tp =>
       let afterThen := trim (t.drop (tp + 4))
       afterThen.isEmpty || (parseU32 afterThen).isSome
     | none => false)

def ifPop (t : Line) : Bool :=
  contains_keyword t (bytes "END") && contains_keyword t (bytes "IF")

/-- The subroutine-tracker step of `get_folding_ranges` (lines 29-65):
target rows close the previous subroutine and open a new one; `RETURN` rows
(without `GOSUB`) close the current one. -/
def subStep (targets : List Nat) (ln : Nat) (t : Line) (sub : Option Nat) :
    Option Nat × List (Nat × Nat) :=
  let isTarget := isGosubStartRow targets t
  let p1 : Option Nat × List (Nat × Nat) :=
    if isTarget then
      (some ln,
        match sub with
        | some s => if ln > s + 1 then [(s, ln - 1)] else []
        | none => [])
    else (sub, [])
  let isRet := containsSub (bytes "RETURN") t && !containsSub (bytes "GOSUB") t
  if isRet then
    (none,
      p1.2 ++ match p1.1 with
      | some s => if ln > s then [(s, ln)] else []
      | none => [])
  else p1

/-- Rust `folding.rs::get_folding_ranges`, instrumented with the construct
tag of each emitted region; the source's output is `eraseTag` of this (see
`get_folding_ranges`).  Emission order per row follows the source: the two
subroutine sites, then FOR, WHILE, DO, SELECT, IF, the comment block, the
DATA block. -/
def gfrAux (targets : List Nat) : Nat → List Line → FoldState → List TaggedRange
  | _, [], _ => []
  | ln, l :: rest, st =>
    let t := trim (upper l)
    if t.isEmpty then gfrAux targets (ln + 1) rest st
    else
      let (sub', subOut) := subStep targets ln t st.subStart
      let (forS', forOut) := stackStep (forPush t) (forPop t) ln st.forS
      let (whileS', whileOut) := stackStep (whilePush t) (whilePop t) ln st.whileS
      let (doS', doOut) := stackStep (doPush t) (doPop t) ln st.doS
      let (selS', selOut) := stackStep (selectPush t) (selectPop t) ln st.selectS
      let (ifS', ifOut) := stackStep (ifPush t) (ifPop t) ln st.ifS
      let commentOut : List (Nat × Nat) :=
        if startsWith (bytes "REM") t || startsWith [39] t then
          let e := ln + countWhile isCommentContRow rest
          if e > ln then [(ln, e)] else []
        else []
      let dataOut : List (Nat × Nat) :=
        if contains_keyword t (bytes "DATA") then
          let e := ln + countWhile isDataContRow rest
          if e > ln then [(ln, e)] else []
        else []
      let tag (tg : FoldTag) (rs : List (Nat × Nat)) : List TaggedRange :=
        rs.map (fun r => ⟨r.1, r.2, tg⟩)
      tag .sub subOut ++ tag .forL forOut ++ tag .whileL whileOut
        ++ tag .doL doOut ++ tag .selectL selOut ++ tag .ifL ifOut
        ++ tag .comment commentOut ++ tag .data dataOut
        ++ gfrAux targets (ln + 1) rest
            ⟨forS', whileS', doS', selS', ifS', sub'⟩

def get_folding_ranges_tagged (src : Doc) : List TaggedRange :=
  gfrAux (find_gosub_targets src) 0 src FoldState.init

/-- Rust `folding.rs::get_folding_ranges`. -/
def get_folding_ranges (src : Doc) : List FoldingRange :=
  (get_folding_ranges_tagged src).map eraseTag

end Basica

namespace Basica

/-! ## symbols.rs -/

/-- The `SymbolKind`s used by `get_document_symbols`. -/
inductive SymKind where
  | function
  | string
  | array
  | key
deriving DecidableEq, Repr

structure DocSymbol where
  name : Line
  detail : Option Line
  kind : SymKind
  row : Nat
  rowLen : Nat
deriving DecidableEq, Repr

/-- Everything before the first occurrence of byte `c` (Rust
`split(c).next()` on a nonempty split). -/
def beforeByte (c : Nat) (l : Line) : Line := l.takeWhile (· != c)

/-- Rust `symbols.rs::get_document_symbols` (one flat list; the source never
sets children). -/
def get_document_symbols (src : Doc) : List DocSymbol :=
  let subroutineLines := find_gosub_targets src
  (src.enum).filterMap (fun il =>
    let (i, l) := il
    let trimmed := trimStart l
    match firstWord l with
    | none => none
    | some fw =>
      match parseU32 fw with
      | none => none
      | some lineNum =>
        let rest := trimStart (trimmed.drop fw.length)
        if subroutineLines.contains lineNum then
          some ⟨natBytes lineNum ++ bytes " (SUB)", some (bytes "Subroutine"),
            .function, i, l.length⟩
        else if startsWith (bytes "REM") (upper rest) then
          let comment := trim (rest.drop 3)
          let preview := if comment.length > 30 then comment.take 30 ++ bytes "..." else comment
          some ⟨natBytes lineNum ++ bytes " REM " ++ preview, some (bytes "Comment"),
            .string, i, l.length⟩
        else if startsWith (bytes "DATA") (upper rest) then
          some ⟨natBytes lineNum ++ bytes " DATA", some (bytes "Data"), .array, i, l.length⟩
        else if startsWith (bytes "DEF FN") (upper rest) then
          let fnPart := rest.drop 6
          let fnName := trim (beforeByte 61 (beforeByte 40 fnPart))
          some ⟨natBytes lineNum ++ bytes " DEF FN" ++ fnName, some (bytes "User function"),
            .function, i, l.length⟩
        else
          let keyword0 := upper (((firstWord rest).getD []))
          let keyword := beforeByte 61 (beforeByte 40 keyword0)
          let show_ := (["FOR", "WHILE", "DO", "SELECT", "IF", "GOSUB", "ON"].map bytes).any
            (· == keyword)
          if show_ then
            let preview := if rest.length > 40 then rest.take 40 ++ bytes "..." else rest
            some ⟨natBytes lineNum ++ bytes " " ++ preview, none, .key, i, l.length⟩
          else none)

/-! ## signature.rs -/

/-- The reverse scan of `get_signature_help` (lines 13-28): the index, from
the end of the text before the cursor, of the nearest unclosed `(`. -/
def findOpenParen : Nat → List Nat → Nat → Option Nat
  | _, [], _ => none
  | i, c :: rest, depth =>
    if c == 41 then findOpenParen (i + 1) rest (depth + 1)
    else if c == 40 then
      (if depth == 0 then some i else findOpenParen (i + 1) rest (depth - 1))
    else findOpenParen (i + 1) rest depth

/-- Last index whose byte satisfies `p` (Rust `str::rfind`). -/
def rfindIdx (p : Nat → Bool) (l : Line) : Option Nat :=
  (findIdx p l.reverse).map (fun i => l.length - i - 1)

/-- Rust `signature.rs::count_parameters`: commas at parenthesis depth zero
(the depth is a Rust `i32`, so it can go negative). -/
def count_parameters (s : Line) : Nat :=
  (s.foldl (fun (acc : Nat × Int) c =>
    if c == 40 then (acc.1, acc.2 + 1)
    else if c == 41 then (acc.1, acc.2 - 1)
    else if c == 44 && acc.2 == 0 then (acc.1 + 1, acc.2)
    else acc) (0, 0)).1

/-- A signature-help result: label, (parameter label, parameter doc) pairs,
function doc, active parameter (used for both `active_parameter` fields). -/
structure SignatureHelp where
  label : Line
  params : List (Line × Line)
  doc : Line
  activeParameter : Nat
deriving DecidableEq, Repr

/-- The static signature table of `signature.rs::get_function_signature`:
(name, label, parameter strings, documentation). -/
def sigTable : List (Line × Line × List Line × Line) :=
  [ (bytes "CHR$", bytes "CHR$(code)", [bytes "code - ASCII code (0-255)"],
      bytes "Returns character for ASCII code"),
    (bytes "ASC", bytes "ASC(string$)", [bytes "string$ - String to get first character from"],
      bytes "Returns ASCII code of first character"),
    (bytes "LEN", bytes "LEN(string$)", [bytes "string$ - String to measure"],
      bytes "Returns length of string"),
    (bytes "LEFT$", bytes "LEFT$(string$, count)",
      [bytes "string$ - Source string", bytes "count - Number of characters"],
      bytes "Returns leftmost characters"),
    (bytes "RIGHT$", bytes "RIGHT$(string$, count)",
      [bytes "string$ - Source string", bytes "count - Number of characters"],
      bytes "Returns rightmost characters"),
    (bytes "MID$", bytes "MID$(string$, start[, length])",
      [bytes "string$ - Source string", bytes "start - Starting position (1-based)",
       bytes "length - Number of characters (optional)"],
      bytes "Returns substring"),
    (bytes "STR$", bytes "STR$(number)", [bytes "number - Number to convert"],
      bytes "Converts number to string"),
    (bytes "VAL", bytes "VAL(string$)", [bytes "string$ - String to parse"],
      bytes "Converts string to number"),
    (bytes "STRING$", bytes "STRING$(count, char)",
      [bytes "count - Number of repetitions", bytes "char - Character or ASCII code"],
      bytes "Returns repeated character"),
    (bytes "SPACE$", bytes "SPACE$(count)", [bytes "count - Number of spaces"],
      bytes "Returns string of spaces"),
    (bytes "INSTR", bytes "INSTR([start,] string$, search$)",
      [bytes "start - Starting position (optional)", bytes "string$ - String to search in",
       bytes "search$ - String to find"],
      bytes "Returns position of substring"),
    (bytes "UCASE$", bytes "UCASE$(string$)", [bytes "string$ - String to convert"],
      bytes "Converts to uppercase"),
    (bytes "LCASE$", bytes "LCASE$(string$)", [bytes "string$ - String to convert"],
      bytes "Converts to lowercase"),
    (bytes "LTRIM$", bytes "LTRIM$(string$)", [bytes "string$ - String to trim"],
      bytes "Removes leading spaces"),
    (bytes "RTRIM$", bytes "RTRIM$(string$)", [bytes "string$ - String to trim"],
      bytes "Removes trailing spaces"),
    (bytes "HEX$", bytes "HEX$(number)", [bytes "number - Number to convert"],
      bytes "Converts to hexadecimal string"),
    (bytes "OCT$", bytes "OCT$(number)", [bytes "number - Number to convert"],
      bytes "Converts to octal string"),
    (bytes "ABS", bytes "ABS(number)", [bytes "number - Number to get absolute value of"],
      bytes "Returns absolute value"),
    (bytes "SGN", bytes "SGN(number)", [bytes "number - Number to check"],
      bytes "Returns sign (-1, 0, or 1)"),
    (bytes "INT", bytes "INT(number)", [bytes "number - Number to floor"],
      bytes "Returns largest integer <= number"),
    (bytes "FIX", bytes "FIX(number)", [bytes "number - Number to truncate"],
      bytes "Truncates toward zero"),
    (bytes "CINT", bytes "CINT(number)", [bytes "number - Number to round"],
      bytes "Rounds to nearest integer"),
    (bytes "SQR", bytes "SQR(number)", [bytes "number - Non-negative number"],
      bytes "Returns square root"),
    (bytes "SIN", bytes "SIN(angle)", [bytes "angle - Angle in radians"],
      bytes "Returns sine"),
    (bytes "COS", bytes "COS(angle)", [bytes "angle - Angle in radians"],
      bytes "Returns cosine"),
    (bytes "TAN", bytes "TAN(angle)", [bytes "angle - Angle in radians"],
      bytes "Returns tangent"),
    (bytes "ATN", bytes "ATN(number)", [bytes "number - Value"],
      bytes "Returns arctangent in radians"),
    (bytes "LOG", bytes "LOG(number)", [bytes "number - Positive number"],
      bytes "Returns natural logarithm"),
    (bytes "EXP", bytes "EXP(number)", [bytes "number - Exponent"],
      bytes "Returns e raised to power"),
    (bytes "RND", bytes "RND[(seed)]", [bytes "seed - Optional seed value"],
      bytes "Returns random number 0-1"),
    (bytes "POINT", bytes "POINT(x, y)", [bytes "x - X coordinate", bytes "y - Y coordinate"],
      bytes "Returns color at pixel"),
    (bytes "CSRLIN", bytes "CSRLIN", [], bytes "Returns cursor row"),
    (bytes "POS", bytes "POS(dummy)", [bytes "dummy - Ignored value"],
      bytes "Returns cursor column"),
    (bytes "TAB", bytes "TAB(column)", [bytes "column - Column to move to"],
      bytes "Moves to column in PRINT"),
    (bytes "SPC", bytes "SPC(count)", [bytes "count - Number of spaces"],
      bytes "Outputs spaces in PRINT"),
    (bytes "EOF", bytes "EOF(filenum)", [bytes "filenum - File number"],
      bytes "Returns true if at end of file"),
    (bytes "PEEK", bytes "PEEK(address)", [bytes "address - Memory address"],
      bytes "Returns byte at address"),
    (bytes "TIMER", bytes "TIMER", [], bytes "Returns seconds since midnight")]

/-- Rust `signature.rs::get_function_signature`. -/
def get_function_signature (name : Line) (activeParam : Nat) : Option SignatureHelp :=
  match sigTable.find? (fun e => e.1 == name) with
  | none => none
  | some (_, label, params, doc) =>
    some ⟨label, params.map (fun p => (p.take ((findSub (bytes " - ") p).getD p.length), p)),
      doc, activeParam⟩

/-- Rust `signature.rs::get_signature_help`. -/
def get_signature_help (src : Doc) (p : Pos) : Option SignatureHelp :=
  match src.get? p.line with
  | none => none
  | some l =>
    let beforeCursor := l.take (min p.character l.length)
    match (findOpenParen 0 beforeCursor.reverse 0).map
        (fun i => beforeCursor.length - i - 1) with
    | none => none
    | some funcEnd =>
      let beforeParen := beforeCursor.take funcEnd
      let funcStart :=
        match rfindIdx (fun c => !isAlnum c && c != 36 && c != 95) beforeParen with
        | some i => i + 1
        | none => 0
      let funcName := upper (trim (beforeParen.drop funcStart))
      if funcName.isEmpty then none
      else
        let afterOpen := beforeCursor.drop (funcEnd + 1)
        get_function_signature funcName (count_parameters afterOpen)

end Basica

namespace Basica

/-! ## Derived definitions used by the claim statements -/

/-- A jump reference as scanned by `check_undefined_lines`: source row,
column span, and target line number. -/
structure JumpRef where
  row : Nat
  charStart : Nat
  charEnd : Nat
  target : Nat
deriving DecidableEq, Repr

/-- The comma-list scan of `check_undefined_lines`, collecting every
reference (the defined-ness test removed). -/
def culPartsRefs (ln absPos : Nat) : List Line → List JumpRef
  | [] => []
  | p :: ps =>
    let numStr := (firstWord p).getD []
    match parseU32 numStr with
    | some t =>
      let charStart := absPos + (p.length - (trimStart p).length)
      ⟨ln, charStart, charStart + numStr.length, t⟩ :: culPartsRefs ln absPos ps
    | none => []

/-- The keyword loop of `check_undefined_lines`, collecting every reference. -/
def culScanRefsAux (kw : Line) (ln : Nat) (upperL origL : Line) :
    Nat → Nat → List JumpRef
  | 0, _ => []
  | fuel + 1, searchStart =>
    match findSub kw (upperL.drop searchStart) with
    | none => []
    | some kwPos =>
      let absPos := searchStart + kwPos + kw.length
      let after := origL.drop absPos
      culPartsRefs ln absPos (splitByte 44 after)
        ++ culScanRefsAux kw ln upperL origL fuel absPos

/-- All jump references of a document, in the scan order of
`check_undefined_lines`. -/
def jumpRefs (src : Doc) : List JumpRef :=
  (src.enum).flatMap (fun il =>
    let (ln, l) := il
    let up := upper l
    jumpKeywords.flatMap (fun kw => culScanRefsAux kw ln up l (up.length + 1) 0))

/-- The Error diagnostic `check_undefined_lines` emits for an undefined
reference. -/
def mkUndefinedDiag (r : JumpRef) : Diagnostic :=
  ⟨⟨r.row, r.charStart, r.row, r.charEnd⟩, .err,
    bytes "Line " ++ natBytes r.target ++ bytes " is not defined", false⟩

/-- The rows whose leading token is the BASIC line number `n` (the claim's
"rows carrying N"). -/
def leadingNumberRows (src : Doc) (n : Nat) : List Nat :=
  ((src.enum).filter (fun il => ((firstWord il.2).bind parseU32) == some n)).map
    (fun il => il.1)

/-- Apply one line's `TextEdit`s, given as (start, end, text) in increasing
start order with original coordinates (the standard LSP client semantics). -/
def applyLineEditsAux (l : Line) (cur : Nat) : List (Nat × Nat × Line) → Line
  | [] => l.drop cur
  | (s, e, t) :: rest => (l.drop cur).take (s - cur) ++ t ++ applyLineEditsAux l e rest

/-- Apply a rename `WorkspaceEdit` to a document. -/
def applyDocEdits (src : Doc) (edits : List TextEdit) : Doc :=
  (src.enum).map (fun il =>
    applyLineEditsAux il.2 0
      (((edits.filter (fun e => e.range.startLine == il.1))).map
        (fun e => (e.range.startChar, e.range.endChar, e.newText))))

/-- Standalone single-construct stack scanner: the projection of
`get_folding_ranges`'s interleaved fold onto one push/pop tracker. -/
def stackScanAux (pushC popC : Line → Bool) : Nat → List Line → List Nat →
    List (Nat × Nat)
  | _, [], _ => []
  | ln, l :: rest, stk =>
    let t := trim (upper l)
    if t.isEmpty then stackScanAux pushC popC (ln + 1) rest stk
    else
      let (stk', out) := stackStep (pushC t) (popC t) ln stk
      out ++ stackScanAux pushC popC (ln + 1) rest stk'

/-- Standalone subroutine-region scanner: the projection of
`get_folding_ranges`'s fold onto the subroutine tracker. -/
def subScanAux (targets : List Nat) : Nat → List Line → Option Nat →
    List (Nat × Nat)
  | _, [], _ => []
  | ln, l :: rest, sub =>
    let t := trim (upper l)
    if t.isEmpty then subScanAux targets (ln + 1) rest sub
    else
      let (sub', out) := subStep targets ln t sub
      out ++ subScanAux targets (ln + 1) rest sub'

/-- Two row regions are disjoint or one contains the other (never partially
overlapping). -/
def nestedOrDisjoint (a b : Nat × Nat) : Prop :=
  b.1 > a.2 ∨ a.1 > b.2 ∨ (a.1 ≤ b.1 ∧ b.2 ≤ a.2) ∨ (b.1 ≤ a.1 ∧ a.2 ≤ b.2)

/-- `nestedOrDisjoint` on tagged regions, for same-tag pairs. -/
def sameTagOk (a b : TaggedRange) : Prop :=
  a.tag = b.tag → nestedOrDisjoint (a.startLine, a.endLine) (b.startLine, b.endLine)

end Basica


namespace Basica

/-- The suffix-stripped uppercase base name rename operates on
(`rename.rs` lines 52-58). -/
def renameBase (w : Line) : Line :=
  if (upper w).getLast? == some 36 then (upper w).take ((upper w).length - 1)
  else upper w

end Basica


namespace Basica

/-- Comment-block start test of `get_folding_ranges` (line 174). -/
def commentStartRow (t : Line) : Bool :=
  startsWith (bytes "REM") t || startsWith [39] t

/-- DATA-block start test of `get_folding_ranges` (line 200). -/
def dataStartRow (t : Line) : Bool :=
  contains_keyword t (bytes "DATA")

/-- Standalone run-block scanner: the projection of `get_folding_ranges`
onto one of the two lookahead trackers (comment blocks, DATA blocks). -/
def runScanAux (startC : Line → Bool) (contC : Line → Bool) :
    Nat → List Line → List (Nat × Nat)
  | _, [] => []
  | ln, l :: rest =>
    let t := trim (upper l)
    (if startC t then
      (let e := ln + countWhile contC rest
       if e > ln then [(ln, e)] else [])
     else [])
      ++ runScanAux startC contC (ln + 1) rest

end Basica


namespace Basica

/-- Tag a list of row regions with the construct that produced them. -/
def tagRegions (tg : FoldTag) (rs : List (Nat × Nat)) : List TaggedRange :=
  rs.map (fun r => ⟨r.1, r.2, tg⟩)

/-- The standalone scanner of each construct tracker, run from the initial
state over the whole document. -/
def scanOf (src : Doc) : FoldTag → List (Nat × Nat)
  | .sub => subScanAux (find_gosub_targets src) 0 src none
  | .forL => stackScanAux forPush forPop 0 src []
  | .whileL => stackScanAux whilePush whilePop 0 src []
  | .doL => stackScanAux doPush doPop 0 src []
  | .selectL => stackScanAux selectPush selectPop 0 src []
  | .ifL => stackScanAux ifPush ifPop 0 src []
  | .comment => runScanAux commentStartRow isCommentContRow 0 src
  | .data => runScanAux dataStartRow isDataContRow 0 src

/-- Lower bound on region starts emitted by the subroutine tracker from a
given state. -/
def lbOf (sub : Option Nat) (ln : Nat) : Nat :=
  match sub with
  | some s => s
  | none => ln

end Basica


namespace Basica

/-- The boundary test before an occurrence (`rename.rs` lines 76-81). -/
def beforeOkAt (up : Line) (q : Nat) : Bool :=
  q == 0 || (match up.get? (q - 1) with
    | some prev => !isAlnum prev && prev != 95 && prev != 36
    | none => false)

/-- The boundary test after an occurrence (`rename.rs` lines 83-88). -/
def afterOkAt (up : Line) (ap : Nat) : Bool :=
  decide (ap ≥ up.length) || (match up.get? ap with
    | some nxt => !isAlnum nxt && nxt != 95
    | none => true)

/-- A word-boundary occurrence of `base` at column `q` of an uppercased
line, exactly the test of `rename_symbol`'s occurrence loop. -/
def isOcc (base up : Line) (q : Nat) : Bool :=
  startsWith base (up.drop q) && beforeOkAt up q && afterOkAt up (q + base.length)

/-- Whether the occurrence at `q` is followed by a `$` the edit consumes. -/
def occDollar (base up : Line) (q : Nat) : Bool :=
  decide (q + base.length < up.length) && up.get? (q + base.length) == some 36

/-- End column of the edit for the occurrence at `q`. -/
def occEnd (base up : Line) (q : Nat) : Nat :=
  if occDollar base up q then q + base.length + 1 else q + base.length

/-- The edit the occurrence loop emits for the occurrence at `q`. -/
def mkRenameEdit (base nn : Line) (li : Nat) (up : Line) (q : Nat) : TextEdit :=
  ⟨⟨li, q, li, occEnd base up q⟩, renameReplacement nn (occDollar base up q)⟩

/-- All word-boundary occurrence columns of `base` in the line, in order. -/
def occList (base up : Line) : List Nat :=
  (List.range (up.length + 1)).filter (isOcc base up)

/-- The edit list the occurrence loop produces for one line. -/
def occEdits (base nn : Line) (li : Nat) (up : Line) : List TextEdit :=
  (occList base up).map (mkRenameEdit base nn li up)

/-- The whole-document edit list of a successful rename. -/
def docOccEdits (base nn : Line) (src : Doc) : List TextEdit :=
  (src.enum).flatMap (fun il => occEdits base nn il.1 (upper il.2))

/-- The edit triples of one line, as `applyDocEdits` consumes them. -/
def occTriples (base nn : Line) (up : Line) : List (Nat × Nat × Line) :=
  (occList base up).map
    (fun q => (q, occEnd base up q, renameReplacement nn (occDollar base up q)))

/-- Spliced-line coordinates of the insertion starts of an edit list. -/
def newStartsAbs : Nat → Nat → List (Nat × Nat × Line) → List Nat
  | _, _, [] => []
  | d0, cur, (s, e, t) :: rest =>
    (d0 + (s - cur)) :: newStartsAbs (d0 + (s - cur) + t.length) e rest

/-- The reverse edits: replace each spliced insertion by the original span
text it displaced. -/
def revEdits (l : Line) (li : Nat) : Nat → Nat → List (Nat × Nat × Line) → List TextEdit
  | _, _, [] => []
  | d0, cur, (s, e, t) :: rest =>
    ⟨⟨li, d0 + (s - cur), li, d0 + (s - cur) + t.length⟩, (l.drop s).take (e - s)⟩ ::
      revEdits l li (d0 + (s - cur) + t.length) e rest

/-- The reverse edits as splice triples. -/
def revTriples (l : Line) : Nat → Nat → List (Nat × Nat × Line) → List (Nat × Nat × Line)
  | _, _, [] => []
  | d0, cur, (s, e, t) :: rest =>
    (d0 + (s - cur), d0 + (s - cur) + t.length, (l.drop s).take (e - s)) ::
      revTriples l (d0 + (s - cur) + t.length) e rest

/-- Invariant of a rename edit-triple list over an uppercased line: ordered
word-boundary occurrences of `base` with the prescribed spans, strict gaps
and insertion texts (`ti` maps the dollar flag to the inserted text). -/
def SpanInv (base : Line) (ti : Bool → Line) (l : Line) :
    Nat → List (Nat × Nat × Line) → Prop
  | _, [] => True
  | cur1, (s, e, t) :: rest =>
      cur1 ≤ s ∧ isOcc base l s = true ∧ e = occEnd base l s
      ∧ t = ti (occDollar base l s)
      ∧ SpanInv base ti l (e + 1) rest

end Basica


namespace Basica

/-- The true column coordinates of the comma-separated jump references: the
position accumulator advances past each part and its comma, where the source
keeps `abs_pos` fixed for every part (the spec reading of "that reference's
column span"). -/
def culPartsTrue (ln : Nat) : Nat → List Line → List JumpRef
  | _, [] => []
  | pos, p :: ps =>
    let numStr := (firstWord p).getD []
    match parseU32 numStr with
    | some t =>
      let charStart := pos + (p.length - (trimStart p).length)
      ⟨ln, charStart, charStart + numStr.length, t⟩
        :: culPartsTrue ln (pos + p.length + 1) ps
    | none => []

/-- Combined width of the first `j` comma parts together with their commas. -/
def partsD : List Line → Nat → Nat
  | _, 0 => 0
  | [], _ + 1 => 0
  | p :: ps, j + 1 => p.length + 1 + partsD ps j

end Basica

namespace Basica

/-- A returned `Location`'s row/column span (single-document URI). -/
structure Loc where
  row : Nat
  startChar : Nat
  endChar : Nat
deriving DecidableEq, Repr

/-- Rust `references.rs::find_line_references`: one comma part of the list
after a jump keyword (`num_str` is the first word of the fully trimmed part;
the loop stops after the first non-numeric part). -/
def flrParts (targetStr : Line) (ln absPos : Nat) : List Line → List Loc
  | [] => []
  | p :: ps =>
    let numStr := (firstWord (trim p)).getD []
    (if numStr == targetStr then
       [⟨ln, absPos + (p.length - (trimStart p).length),
         absPos + (p.length - (trimStart p).length) + numStr.length⟩]
     else [])
    ++ (if (parseU32 numStr).isSome then flrParts targetStr ln absPos ps else [])

/-- Rust `references.rs::find_line_references`: the fueled `search_start` loop
for one jump keyword on one line. -/
def flrScanAux (targetStr kw : Line) (ln : Nat) (upperL origL : Line) :
    Nat → Nat → List Loc
  | 0, _ => []
  | fuel + 1, searchStart =>
    match findSub kw (upperL.drop searchStart) with
    | none => []
    | some kwPos =>
      let absPos := searchStart + kwPos + kw.length
      flrParts targetStr ln absPos (splitByte 44 (origL.drop absPos))
        ++ flrScanAux targetStr kw ln upperL origL fuel absPos

/-- Rust `references.rs::find_line_references`. -/
def find_line_references (src : Doc) (target : Nat) : List Loc :=
  let targetStr := natBytes target
  (src.enum).flatMap (fun il =>
    let li := il.1
    let l := il.2
    let up := upper l
    (match firstWord l with
     | some fw => if fw == targetStr then [⟨li, 0, fw.length⟩] else []
     | none => [])
    ++ jumpKeywords.flatMap (fun kw => flrScanAux targetStr kw li up l (up.length + 1) 0))

/-- Rust `references.rs::find_variable_references`: the fueled occurrence loop
on one uppercased line (same word-boundary and `$`-suffix tests as rename). -/
def fvrScanAux (varName : Line) (ln : Nat) (up : Line) : Nat → Nat → List Loc
  | 0, _ => []
  | fuel + 1, searchStart =>
    match findSub varName (up.drop searchStart) with
    | none => []
    | some pos =>
      let absPos := searchStart + pos
      (if beforeOkAt up absPos && afterOkAt up (absPos + varName.length)
       then [⟨ln, absPos, occEnd varName up absPos⟩] else [])
        ++ fvrScanAux varName ln up fuel (absPos + 1)

/-- Rust `references.rs::find_variable_references`. -/
def find_variable_references (src : Doc) (varName : Line) : List Loc :=
  (src.enum).flatMap (fun il =>
    fvrScanAux varName il.1 (upper il.2) ((upper il.2).length + 2) 0)

/-- Rust `references.rs::find_references`. -/
def find_references (src : Doc) (p : Pos) : List Loc :=
  match src.get? p.line with
  | none => []
  | some l =>
    match get_word_at_position l p.character with
    | none => []
    | some (_, _, word) =>
      match parseU32 word with
      | some t => find_line_references src t
      | none => find_variable_references src (upper word)

/-- Rust `definition.rs::find_var_in_list`: scan the comma-separated list,
returning the in-list offset of the part whose name (up to `(`, trimmed)
matches. -/
def find_var_in_list_aux (varName : Line) : Nat → List Line → Option Nat
  | _, [] => none
  | pos, part :: rest =>
    let trimmed := trimStart part
    let varPart := trim ((splitByte 40 trimmed).headD trimmed)
    if varPart == varName then some (pos + (part.length - trimmed.length))
    else find_var_in_list_aux varName (pos + part.length + 1) rest

def find_var_in_list (list varName : Line) : Option Nat :=
  find_var_in_list_aux varName 0 (splitByte 44 list)

/-- Rust `definition.rs::find_assignment`: the implicit-`LET` fueled scan. -/
def faScanAux (varName l : Line) : Nat → Nat → Option Nat
  | 0, _ => none
  | fuel + 1, searchStart =>
    match findSub varName (l.drop searchStart) with
    | none => none
    | some pos =>
      let absPos := searchStart + pos
      let prevWord := if absPos == 0 then false
        else match l.get? (absPos - 1) with
          | some prev => isAlnum prev || prev == 95 || prev == 36
          | none => false
      if prevWord then faScanAux varName l fuel (absPos + 1)
      else
        let after := trimStart (l.drop (absPos + varName.length))
        let nxt := (after.head?).getD 32
        if nxt == 61 || nxt == 40 then
          if nxt == 61 && startsWith (bytes "==") after then
            faScanAux varName l fuel (absPos + 1)
          else some absPos
        else faScanAux varName l fuel (absPos + 1)

/-- Rust `definition.rs::find_assignment` (`LET VAR =` first, then the
implicit-assignment scan). -/
def find_assignment (l varName : Line) : Option Nat :=
  let implicit := faScanAux varName l (l.length + 2) 0
  match findSub (bytes "LET ") l with
  | some letPos =>
    let afterLet := l.drop (letPos + 4)
    let trimmed := trimStart afterLet
    let varPart0 := (splitByte 40 trimmed).headD trimmed
    let varPart := trim ((splitByte 61 varPart0).headD varPart0)
    if varPart == varName then some (letPos + 4 + (afterLet.length - trimmed.length))
    else implicit
  | none => implicit

/-- Rust `definition.rs::find_variable_definition`: one line's checks (DIM,
assignment, FOR, INPUT/READ), positions mapped back through the
skip-line-number offset. -/
def fvd_line (varName l : Line) : Option Nat :=
  let contentU := skip_line_number (upper l)
  let offset := l.length - (skip_line_number l).length
  match (match findSub (bytes "DIM ") contentU with
         | some dimPos =>
           (find_var_in_list (contentU.drop (dimPos + 4)) varName).map
             (fun varPos => offset + dimPos + 4 + varPos)
         | none => none) with
  | some r => some r
  | none =>
  match (find_assignment contentU varName).map (fun pos => offset + pos) with
  | some r => some r
  | none =>
  match (match findSub (bytes "FOR ") contentU with
         | some forPos =>
           let afterFor := contentU.drop (forPos + 4)
           let trimmed := trimStart afterFor
           if startsWith varName trimmed && decide (varName.length < trimmed.length)
           then
             let nextChar := (trimmed.get? varName.length).getD 32
             if nextChar == 32 || nextChar == 61 || nextChar == 40 then
               some (offset + forPos + 4 + (afterFor.length - trimmed.length))
             else none
           else none
         | none => none) with
  | some r => some r
  | none =>
  match (match findSub (bytes "INPUT ") contentU with
         | some kwPos =>
           let afterKw := contentU.drop (kwPos + 6)
           let varsPart := match findSub [59] afterKw with
             | some semiPos => afterKw.drop (semiPos + 1)
             | none => afterKw
           (find_var_in_list varsPart varName).map
             (fun varPos => offset + (contentU.length - varsPart.length) + varPos)
         | none => none) with
  | some r => some r
  | none =>
  match findSub (bytes "READ ") contentU with
  | some kwPos =>
    let varsPart := contentU.drop (kwPos + 5)
    (find_var_in_list varsPart varName).map
      (fun varPos => offset + (contentU.length - varsPart.length) + varPos)
  | none => none

/-- Rust `definition.rs::find_variable_definition`. -/
def find_variable_definition (src : Doc) (varName : Line) : Option (Nat × Nat) :=
  (src.enum).findSome? (fun il =>
    (fvd_line varName il.2).map (fun c => (il.1, c)))

/-- Rust `definition.rs::find_definition`.  The keyword test comes from the
external `basica::lexer` crate (outside `src/`), so it is a parameter, like
the grammar verdict of `check`. -/
def find_definition (kwP : Line → Bool) (src : Doc) (p : Pos) : Option Loc :=
  match src.get? p.line with
  | none => none
  | some l =>
    match get_word_at_position l p.character with
    | none => none
    | some (_, _, word) =>
      match parseU32 word with
      | some target =>
        let lu := upper l
        if containsSub (bytes "GOTO") lu || containsSub (bytes "GOSUB") lu
            || containsSub (bytes "RESTORE") lu || containsSub (bytes "THEN") lu
        then
          match mapLookup (build_line_map src) target with
          | some sourceLine => some ⟨sourceLine, 0, 0⟩
          | none => none
        else none
      | none =>
        let varUpper := upper word
        if kwP varUpper then none
        else
          match find_variable_definition src varUpper with
          | some dl => some ⟨dl.1, dl.2, dl.2 + word.length⟩
          | none => none

/-- The keys of `hover.rs::get_documentation`'s match, in source order. -/
def hover_doc_keys : List Line :=
  (["IF", "THEN", "ELSE", "FOR", "TO", "STEP", "NEXT", "WHILE", "WEND", "DO",
    "LOOP", "UNTIL", "EXIT", "GOTO", "GOSUB", "RETURN", "ON", "SELECT",
    "CASE", "END", "STOP", "PRINT", "LPRINT", "INPUT", "LINE", "READ",
    "DATA", "RESTORE", "LET", "DIM", "SWAP", "CHR", "ASC", "LEN", "LEFT",
    "RIGHT", "MID", "STR", "VAL", "STRING", "SPACE", "INSTR", "UCASE",
    "LCASE", "LTRIM", "RTRIM", "HEX", "OCT", "ABS", "SGN", "INT", "FIX",
    "CINT", "SQR", "SIN", "COS", "TAN", "ATN", "LOG", "EXP", "RND",
    "RANDOMIZE", "INKEY", "TAB", "SPC", "TIMER", "DATE", "TIME", "EOF",
    "PEEK", "POKE", "POINT", "SCREEN", "COLOR", "CLS", "LOCATE", "CIRCLE",
    "PAINT", "PSET", "PRESET", "GET", "PUT", "DRAW", "PLAY", "SOUND",
    "BEEP", "WIDTH", "OPEN", "CLOSE", "KILL", "NAME", "FILES", "MKDIR",
    "RMDIR", "CHDIR", "AND", "OR", "XOR", "NOT", "MOD", "ERROR", "RESUME",
    "REM", "DEF", "FN", "CLEAR", "CHAIN"]).map bytes

/-- Rust `hover.rs::get_documentation`: lookup after stripping the `$`
suffix.  The Markdown text (which no claim concerns) is abstracted to the
matched key; only presence/absence is modelled. -/
def get_documentation (k : Line) : Option Line :=
  let key := trimEndDollars k
  if hover_doc_keys.contains key then some key else none

/-- Rust `hover.rs::get_hover` (its word extraction is byte-identical to
`rename.rs::get_word_at_position`). -/
def get_hover (src : Doc) (p : Pos) : Option Line :=
  match src.get? p.line with
  | none => none
  | some l =>
    match get_word_at_position l p.character with
    | none => none
    | some (_, _, w) => get_documentation (upper w)

/-- Rust `completion.rs::extract_var_name`: tail scan after the leading
letter. -/
def evnTail : Line → Nat
  | [] => 0
  | c :: rest =>
    if isAlnum c || c == 95 then 1 + evnTail rest
    else if c == 36 then 1 else 0

def extract_var_name (s0 : Line) : Option Line :=
  let s := trim s0
  match s with
  | [] => none
  | c :: rest =>
    if !isAlpha c then none
    else some (s.take (1 + evnTail rest))

/-- `HashSet::insert` modelled as append-if-new (the claims do not depend on
the hash order). -/
def insertSet (xs : List Line) (v : Line) : List Line :=
  if xs.contains v then xs else xs ++ [v]

/-- Rust `completion.rs::extract_variables`: one colon-separated statement. -/
def evPart (vars : List Line) (part0 : Line) : List Line :=
  let part := trim part0
  let vars := match stripPre (bytes "LET ") part with
    | some rest =>
      match extract_var_name rest with
      | some v => insertSet vars v
      | none => vars
    | none =>
      match findSub [61] part with
      | some eqPos =>
        let beforeEq := trim (part.take eqPos)
        if !(startsWith (bytes "IF ") part) && !(beforeEq.contains 32) then
          match extract_var_name beforeEq with
          | some v => insertSet vars v
          | none => vars
        else vars
      | none => vars
  let vars := match stripPre (bytes "DIM ") part with
    | some rest =>
      (splitByte 44 rest).foldl (fun vs dp =>
        match extract_var_name (trim dp) with
        | some v => insertSet vs v
        | none => vs) vars
    | none => vars
  let vars := match stripPre (bytes "FOR ") part with
    | some rest =>
      match extract_var_name rest with
      | some v => insertSet vars v
      | none => vars
    | none => vars
  let vars := match stripPre (bytes "INPUT ") part with
    | some rest =>
      let varsPart := match findSub [59] rest with
        | some semi => rest.drop (semi + 1)
        | none => rest
      (splitByte 44 varsPart).foldl (fun vs ip =>
        match extract_var_name (trim ip) with
        | some v => insertSet vs v
        | none => vs) vars
    | none => vars
  match stripPre (bytes "READ ") part with
  | some rest =>
    (splitByte 44 rest).foldl (fun vs rp =>
      match extract_var_name (trim rp) with
      | some v => insertSet vs v
      | none => vs) vars
  | none => vars

/-- Rust `completion.rs::extract_variables`. -/
def extract_variables (src : Doc) : List Line :=
  src.foldl (fun vars l =>
    (splitByte 58 (skip_line_number (upper l))).foldl evPart vars) []

/-- The `label`s of `completion.rs::KEYWORDS`, in source order. -/
def completion_keyword_labels : List Line :=
  (["IF", "THEN", "ELSE", "FOR", "TO", "STEP", "NEXT", "WHILE", "WEND",
    "DO", "LOOP", "UNTIL", "EXIT", "GOTO", "GOSUB", "RETURN", "ON",
    "SELECT", "CASE", "END", "STOP", "LET", "DIM", "PRINT", "LPRINT",
    "INPUT", "LINE", "READ", "DATA", "RESTORE", "REM", "OPEN", "CLOSE",
    "KILL", "NAME", "MKDIR", "RMDIR", "CHDIR", "FILES", "SCREEN", "COLOR",
    "CLS", "LOCATE", "WIDTH", "CIRCLE", "LINE", "PAINT", "PSET", "PRESET",
    "DRAW", "GET", "PUT", "PLAY", "SOUND", "BEEP", "DEF", "SWAP",
    "RANDOMIZE", "CLEAR", "POKE", "AND", "OR", "XOR", "NOT", "MOD"]).map bytes

/-- The `label`s of `completion.rs::FUNCTIONS`, in source order. -/
def completion_function_labels : List Line :=
  (["CHR$", "ASC", "LEN", "LEFT$", "RIGHT$", "MID$", "STR$", "VAL",
    "STRING$", "SPACE$", "INSTR", "UCASE$", "LCASE$", "LTRIM$", "RTRIM$",
    "HEX$", "OCT$", "ABS", "SGN", "INT", "FIX", "CINT", "SQR", "SIN",
    "COS", "TAN", "ATN", "LOG", "EXP", "RND", "PEEK", "TIMER", "DATE$",
    "TIME$", "INKEY$", "EOF", "CSRLIN", "POS", "POINT", "TAB", "SPC",
    "FN"]).map bytes

/-- Rust `completion.rs::get_completions` (the position argument is unused in
the source; items are modelled by their labels). -/
def get_completions (src : Doc) (_p : Pos) : List Line :=
  completion_keyword_labels ++ completion_function_labels ++ extract_variables src

end Basica

namespace Basica

def respan (tf : Nat → Line) : Nat → Nat → List (Nat × Nat × Line) → List (Nat × Nat × Line)
  | _, _, [] => []
  | d0, cur, (s, _e, t) :: rest =>
    (d0 + (s - cur), d0 + (s - cur) + t.length, tf s)
      :: respan tf (d0 + (s - cur) + t.length) _e rest

def retext (tf : Nat → Line) : List (Nat × Nat × Line) → List (Nat × Nat × Line)
  | [] => []
  | (s, e, _t) :: rest => (s, e, tf s) :: retext tf rest

def spliceUpto (l : Line) : Nat → List (Nat × Nat × Line) → Nat → Line
  | cur, [], s => (l.drop cur).take (s - cur)
  | cur, (s1, e1, t1) :: r, s =>
    (l.drop cur).take (s1 - cur) ++ t1 ++ spliceUpto l e1 r s

end Basica

-- THEOREMS

namespace Basica

/-! ## Shared lemmas about the lexical primitives -/

theorem trimEnd_prefix (l : Line) : trimEnd l <+: l := by
  have h := List.dropWhile_suffix (l := l.reverse) (p := isWs)
  have := List.reverse_prefix.mpr h
  simpa [trimEnd] using this

theorem trimEnd_cons_of_not_ws {b : Nat} {t : Line} (h : isWs b = false) :
    trimEnd (b :: t) = b :: trimEnd t := by
  unfold trimEnd
  rw [List.reverse_cons, List.dropWhile_append]
  rcases h' : (t.reverse).dropWhile isWs with _ | ⟨c, cs⟩
  · simp [h]
  · simp

theorem takeWhile_notWs_trimEnd (t : Line) :
    (trimEnd t).takeWhile (fun b => !isWs b) = t.takeWhile (fun b => !isWs b) := by
  induction t with
  | nil => simp [trimEnd]
  | cons c t ih =>
    by_cases hc : isWs c
    · rcases h' : trimEnd (c :: t) with _ | ⟨d, ds⟩
      · simp [List.takeWhile_cons, hc]
      · have hp := trimEnd_prefix (c :: t)
        rw [h'] at hp
        have hd : d = c := (List.cons_prefix_cons.mp hp).1
        subst hd
        simp [List.takeWhile_cons, hc]
    · rw [trimEnd_cons_of_not_ws (by simpa using hc)]
      simp [List.takeWhile_cons, hc, ih]

theorem dropWhile_eq_cons_head_false {p : Nat → Bool} {l t : Line} {b : Nat}
    (h : l.dropWhile p = b :: t) : p b = false := by
  induction l with
  | nil => simp at h
  | cons c cs ih =>
    rw [List.dropWhile_cons] at h
    by_cases hc : p c
    · simp [hc] at h
      exact ih h
    · simp [hc] at h
      rw [← h.1]
      simpa using hc

theorem firstWord_trim (l : Line) : firstWord (trim l) = firstWord l := by
  rcases h : trimStart l with _ | ⟨b, t⟩
  · have h' : List.dropWhile isWs l = [] := by simpa [trimStart] using h
    simp [firstWord, trim, trimEnd, trimStart, h']
  · have hb : isWs b = false := dropWhile_eq_cons_head_false h
    have h' : List.dropWhile isWs l = b :: t := by simpa [trimStart] using h
    simp [firstWord, trim, trimStart, h, trimEnd_cons_of_not_ws hb, h', hb,
      List.dropWhile_cons, List.takeWhile_cons, takeWhile_notWs_trimEnd]

theorem isWs_upperByte (b : Nat) : isWs (upperByte b) = isWs b := by
  unfold upperByte
  split
  next h =>
    rw [Bool.and_eq_true] at h
    have h1 : 97 ≤ b := by simpa using h.1
    have h2 : b ≤ 122 := by simpa using h.2
    rw [Bool.eq_iff_iff]
    simp [isWs]
    omega
  next h => rfl

theorem firstWord_upper (l : Line) : firstWord (upper l) = (firstWord l).map upper := by
  simp only [upper, firstWord, trimStart, List.dropWhile_map, List.takeWhile_map]
  have h1 : (isWs ∘ upperByte) = isWs := funext isWs_upperByte
  have h2 : ((fun b => !isWs b) ∘ upperByte) = (fun b => !isWs b) :=
    funext (fun b => by simp [isWs_upperByte])
  rw [h1, h2]
  rcases hd : List.dropWhile isWs l with _ | ⟨b, t⟩ <;> simp [hd, upper]

end Basica


namespace Basica

theorem parseU32_some {w : Line} {n : Nat} (h : parseU32 w = some n) :
    ∃ ds : Line, (w = ds ∨ w = 43 :: ds) ∧ ds ≠ [] ∧ (∀ b ∈ ds, isDigit b = true) := by
  unfold parseU32 at h
  rcases w with _ | ⟨c, t⟩
  · simp at h
  · by_cases hc45 : c = 45
    · subst hc45; simp at h
    · by_cases hc43 : c = 43
      · subst hc43
        simp only [List.head?_cons] at h
        rw [if_neg (by simp)] at h
        rw [show (if ((some 43 : Option Nat) == some 43) = true then (43 :: t : Line).tail
            else (43 :: t : Line)) = t by simp] at h
        split at h
        · simp at h
        next hcond =>
          simp at hcond
          exact ⟨t, Or.inr rfl, hcond.1, hcond.2⟩
      · simp only [List.head?_cons] at h
        rw [if_neg (by simp [hc45])] at h
        rw [show (if ((some c : Option Nat) == some 43) = true then (c :: t : Line).tail
            else (c :: t : Line)) = c :: t by simp [hc43]] at h
        split at h
        · simp at h
        next hcond =>
          simp at hcond
          refine ⟨c :: t, Or.inl rfl, by simp, ?_⟩
          intro b hb
          rw [List.mem_cons] at hb
          rcases hb with hb | hb
        
          · subst hb; exact hcond.1
          · exact hcond.2 b hb

theorem upperByte_of_le_90 {b : Nat} (h : b ≤ 90) : upperByte b = b := by
  unfold upperByte
  rw [if_neg]
  simp
  omega

theorem digit_or_plus_le_90 {b : Nat} (h : isDigit b = true ∨ b = 43) : b ≤ 90 := by
  rcases h with h | h
  · unfold isDigit at h
    rw [Bool.and_eq_true] at h
    have := h.2
    simp at this
    omega
  · omega

theorem upper_eq_self_of_parse {w : Line} {n : Nat} (h : parseU32 w = some n) :
    upper w = w := by
  obtain ⟨ds, hw, _, hd⟩ := parseU32_some h
  have hb : ∀ b ∈ w, upperByte b = b := by
    intro b hb
    rcases hw with hw | hw
    · subst hw
      exact upperByte_of_le_90 (digit_or_plus_le_90 (Or.inl (hd b hb)))
    · subst hw
      rw [List.mem_cons] at hb
      rcases hb with hb | hb
      · subst hb; rfl
      · exact upperByte_of_le_90 (digit_or_plus_le_90 (Or.inl (hd b hb)))
  calc upper w = w.map id := List.map_congr_left hb
  _ = w := List.map_id w

end Basica

namespace Basica

theorem findSub_startsWith {pat l : Line} {i : Nat} (h : findSub pat l = some i) :
    startsWith pat (l.drop i) = true := by
  induction l generalizing i with
  | nil =>
    unfold findSub at h
    split at h
    · rename_i hp
      simp at h
      subst h
      simp [startsWith, List.length_eq_zero.mp (by simpa using hp)]
    · simp at h
  | cons b t ih =>
    unfold findSub at h
    split at h
    · rename_i hs
      simp at h
      subst h
      simpa using hs
    · rcases h' : findSub pat t with _ | j
      · rw [h'] at h; simp at h
      · rw [h'] at h
        simp at h
        subst h
        simpa using ih h'

theorem takeWhile_take_of_le {q : Nat → Bool} {l : Line} {k : Nat}
    (h : (l.takeWhile q).length ≤ k) :
    (l.take k).takeWhile q = l.takeWhile q := by
  induction l generalizing k with
  | nil => simp
  | cons b t ih =>
    by_cases hb : q b
    · rw [List.takeWhile_cons_of_pos hb] at h ⊢
      rcases k with _ | k
      · simp at h
      · rw [List.take_succ_cons, List.takeWhile_cons_of_pos hb]
        simp only [List.length_cons, Nat.succ_le_succ_iff] at h
        rw [ih h]
    · rw [List.takeWhile_cons_of_neg (by simpa using hb)]
      rcases k with _ | k
      · simp
      · rw [List.take_succ_cons, List.takeWhile_cons_of_neg (by simpa using hb)]

theorem firstWord_cons_ws {b : Nat} {t : Line} (h : isWs b = true) :
    firstWord (b :: t) = firstWord t := by
  unfold firstWord trimStart
  rw [List.dropWhile_cons_of_pos h]

theorem firstWord_cons_not_ws {b : Nat} {t : Line} (h : isWs b = false) :
    firstWord (b :: t) = some (b :: t.takeWhile (fun c => !isWs c)) := by
  unfold firstWord trimStart
  rw [List.dropWhile_cons_of_neg (by simp [h])]
  simp [List.takeWhile_cons, h]

theorem firstWord_take {l w : Line} (h : firstWord l = some w) :
    ∀ {k : Nat}, (l.takeWhile isWs).length + w.length ≤ k →
    firstWord (l.take k) = some w := by
  induction l with
  | nil => simp [firstWord, trimStart] at h
  | cons b t ih =>
    intro k hk
    by_cases hb : isWs b
    · rw [firstWord_cons_ws hb] at h
      rw [List.takeWhile_cons_of_pos hb, List.length_cons] at hk
      rcases k with _ | k
      · omega
      · rw [List.take_succ_cons, firstWord_cons_ws hb]
        exact ih h (by omega)
    · have hb' : isWs b = false := by simpa using hb
      rw [firstWord_cons_not_ws hb'] at h
      rw [List.takeWhile_cons_of_neg (by simpa using hb), List.length_nil] at hk
      rcases k with _ | k
      · have := congrArg (fun o => (Option.getD o []).length) h
        simp at this
        omega
      · rw [List.take_succ_cons, firstWord_cons_not_ws hb']
        have hlen : (t.takeWhile (fun c => !isWs c)).length ≤ k := by
          have := congrArg (fun o => (Option.getD o []).length) h
          simp at this
          omega
        rw [takeWhile_take_of_le hlen]
        exact h

end Basica

namespace Basica

theorem parseU32_mem_bytes {w : Line} {n : Nat} (h : parseU32 w = some n) :
    ∀ b ∈ w, isDigit b = true ∨ b = 43 := by
  obtain ⟨ds, hw, _, hd⟩ := parseU32_some h
  intro b hb
  rcases hw with hw | hw
  · subst hw; exact Or.inl (hd b hb)
  · subst hw
    rw [List.mem_cons] at hb
    rcases hb with hb | hb
    · exact Or.inr hb
    · exact Or.inl (hd b hb)

theorem dropWhile_eq_drop_length (p : Nat → Bool) (l : Line) :
    l.dropWhile p = l.drop ((l.takeWhile p).length) := by
  induction l with
  | nil => simp
  | cons b t ih =>
    by_cases hb : p b
    · rw [List.dropWhile_cons_of_pos hb, List.takeWhile_cons_of_pos hb]
      simpa using ih
    · rw [List.dropWhile_cons_of_neg hb, List.takeWhile_cons_of_neg hb]
      simp

theorem get?_takeWhile_of_lt {p : Nat → Bool} {l : Line} {j : Nat}
    (h : j < (l.takeWhile p).length) :
    ∃ b, l.get? j = some b ∧ p b = true ∧ (l.takeWhile p).get? j = some b := by
  induction l generalizing j with
  | nil => simp at h
  | cons c t ih =>
    by_cases hc : p c
    · rw [List.takeWhile_cons_of_pos hc] at h ⊢
      rcases j with _ | j
      · exact ⟨c, rfl, hc, rfl⟩
      · simp only [List.length_cons, Nat.succ_lt_succ_iff] at h
        obtain ⟨b, h1, h2, h3⟩ := ih h
        exact ⟨b, h1, h2, h3⟩
    · rw [List.takeWhile_cons_of_neg hc] at h
      simp at h

theorem startsWith_head {pat l : Line} (hp : pat ≠ []) (h : startsWith pat l = true) :
    l.head? = pat.head? := by
  unfold startsWith at h
  rw [beq_iff_eq] at h
  rcases pat with _ | ⟨p, ps⟩
  · simp at hp
  · rcases l with _ | ⟨c, cs⟩
    · simp at h
    · rw [List.length_cons, List.take_succ_cons] at h
      have := congrArg List.head? h
      simpa using this

/-- The first byte of a jump pattern occurrence cannot fall inside the
leading whitespace or the numeric first token. -/
theorem findSub_idx_past_token {ul w : Line} {n idx : Nat} (pat : Line)
    (hph : pat.head? = some 71) (hfw : firstWord ul = some w)
    (hn : parseU32 w = some n) (hfind : findSub pat ul = some idx) :
    (ul.takeWhile isWs).length + w.length ≤ idx := by
  by_contra hlt
  push_neg at hlt
  have hp : pat ≠ [] := by intro h; rw [h] at hph; simp at hph
  have hsw := findSub_startsWith hfind
  have hg : ul.get? idx = some 71 := by
    have := startsWith_head hp hsw
    rw [hph] at this
    rcases hd : (ul.drop idx).head? with _ | b
    · rw [hd] at this; simp at this
    · rw [hd] at this
      have hb : b = 71 := by simpa using this
      subst hb
      rw [List.get?_eq_getElem?, ← List.head?_drop, hd]
  set wsLen := (ul.takeWhile isWs).length with hws
  by_cases hcase : idx < wsLen
  · obtain ⟨b, h1, h2, _⟩ := get?_takeWhile_of_lt (p := isWs) (l := ul) hcase
    rw [hg] at h1
    have : (71 : Nat) = b := by simpa using h1
    subst this
    simp [isWs] at h2
  · push_neg at hcase
    have hj : idx - wsLen < w.length := by omega
    have hdrop : ul.drop wsLen = ul.dropWhile isWs := (dropWhile_eq_drop_length isWs ul).symm
    have hwdef : w = (ul.dropWhile isWs).takeWhile (fun c => !isWs c) := by
      simp only [firstWord, trimStart] at hfw
      split at hfw
      · simp at hfw
      · simpa using hfw.symm
    have hget : (ul.dropWhile isWs).get? (idx - wsLen) = some 71 := by
      rw [← hdrop, List.get?_drop]
      rw [show wsLen + (idx - wsLen) = idx by omega]
      exact hg
    have hlt' : idx - wsLen < ((ul.dropWhile isWs).takeWhile (fun c => !isWs c)).length := by
      rw [← hwdef]; exact hj
    obtain ⟨b, h1, _, h3⟩ := get?_takeWhile_of_lt hlt'
    rw [hget] at h1
    have hb : (71 : Nat) = b := by simpa using h1
    subst hb
    have hmem : (71 : Nat) ∈ w := by
      rw [hwdef]
      exact List.get?_mem h3
    rcases parseU32_mem_bytes hn 71 hmem with h71 | h71
    · simp [isDigit] at h71
    · simp at h71

end Basica

namespace Basica

theorem splitSub_of_none {pat l : Line} (h : findSub pat l = none) :
    splitSub pat l = [l] := by
  unfold splitSub splitSubAux
  rw [h]

theorem splitSub_of_some {pat l : Line} {i : Nat} (h : findSub pat l = some i) :
    ∃ ps, splitSub pat l = l.take i :: ps := by
  unfold splitSub splitSubAux
  rw [h]
  exact ⟨_, rfl⟩

theorem gosub_head_part {ul w : Line} {n : Nat} (hfw : firstWord ul = some w)
    (hn : parseU32 w = some n) :
    ∃ p0 ps, splitSub (bytes "GOSUB") ul = p0 :: ps ∧ (firstWord p0).bind parseU32 = some n := by
  rcases hfind : findSub (bytes "GOSUB") ul with _ | idx
  · exact ⟨ul, [], splitSub_of_none hfind, by rw [hfw]; exact hn⟩
  · obtain ⟨ps, hps⟩ := splitSub_of_some hfind
    have hidx : (ul.takeWhile isWs).length + w.length ≤ idx :=
      findSub_idx_past_token (bytes "GOSUB") (by decide) hfw hn hfind
    have hfw' : firstWord (ul.take idx) = some w := firstWord_take hfw hidx
    exact ⟨ul.take idx, ps, hps, by rw [hfw']; exact hn⟩

theorem mem_gosub_targets {src : Doc} {l w : Line} {n : Nat}
    (hl : l ∈ src) (hfw : firstWord l = some w) (hn : parseU32 w = some n) :
    n ∈ find_gosub_targets src := by
  have hup : firstWord (upper l) = some w := by
    rw [firstWord_upper, hfw]
    simp [upper_eq_self_of_parse hn]
  obtain ⟨p0, ps, hsplit, hbind⟩ := gosub_head_part hup hn
  unfold find_gosub_targets
  rw [List.mem_flatMap]
  refine ⟨l, hl, ?_⟩
  rw [List.mem_append]
  left
  rw [List.mem_filterMap]
  exact ⟨p0, by rw [hsplit]; exact List.mem_cons_self _ _, hbind⟩

end Basica

namespace Basica

theorem mem_enum_of_get? {src : Doc} {i : Nat} {l : Line} (h : src.get? i = some l) :
    (i, l) ∈ src.enum := by
  rw [List.mem_enum_iff_getElem?]
  rw [← List.get?_eq_getElem?]
  exact h

theorem contains_of_mem {xs : List Nat} {n : Nat} (h : n ∈ xs) : xs.contains n = true := by
  simpa [List.contains] using h

/-- C10: for every document row whose first whitespace-delimited token parses
as a non-negative integer N, the GOSUB-target set computed for folding and
for the outline contains N (even with no GOSUB in the document), so the row
is classified as a subroutine start by folding's subroutine tracking and
receives a Subroutine-kind outline symbol. -/
theorem C10_every_numbered_row_is_gosub_target (src : Doc) (i : Nat) (l w : Line) (n : Nat)
    (hget : src.get? i = some l) (hfw : firstWord l = some w)
    (hn : parseU32 w = some n) :
    n ∈ find_gosub_targets src
    ∧ isGosubStartRow (find_gosub_targets src) (trim (upper l)) = true
    ∧ ∃ sym ∈ get_document_symbols src,
        sym.row = i ∧ sym.kind = .function ∧ sym.detail = some (bytes "Subroutine") := by
  have hl : l ∈ src := List.get?_mem hget
  have hmem : n ∈ find_gosub_targets src := mem_gosub_targets hl hfw hn
  refine ⟨hmem, ?_, ?_⟩
  · unfold isGosubStartRow
    rw [firstWord_trim, firstWord_upper, hfw]
    simp [upper_eq_self_of_parse hn, hn, contains_of_mem hmem]
    exact hmem
  · refine ⟨⟨natBytes n ++ bytes " (SUB)", some (bytes "Subroutine"), .function, i, l.length⟩,
      ?_, rfl, rfl, rfl⟩
    unfold get_document_symbols
    rw [List.mem_filterMap]
    refine ⟨(i, l), mem_enum_of_get? hget, ?_⟩
    simp only [hfw, hn, contains_of_mem hmem]
    simp

/-- Witness for C10 at the one-row document `10 PRINT 1`. -/
theorem C10_witness :
    10 ∈ find_gosub_targets [bytes "10 PRINT 1"]
    ∧ isGosubStartRow (find_gosub_targets [bytes "10 PRINT 1"])
        (trim (upper (bytes "10 PRINT 1"))) = true
    ∧ ∃ sym ∈ get_document_symbols [bytes "10 PRINT 1"],
        sym.row = 0 ∧ sym.kind = .function ∧ sym.detail = some (bytes "Subroutine") :=
  C10_every_numbered_row_is_gosub_target [bytes "10 PRINT 1"] 0 (bytes "10 PRINT 1")
    (bytes "10") 10 (by decide) (by decide) (by decide)

end Basica

namespace Basica

theorem mapLookup_mapInsert (m : List (Nat × Nat)) (k v n : Nat) :
    mapLookup (mapInsert m k v) n = if n = k then some v else mapLookup m n := by
  induction m with
  | nil =>
    simp only [mapInsert, mapLookup]
    by_cases h : n = k
    · subst h
      rw [List.find?_cons_of_pos _ (by simp)]
      simp
    · rw [List.find?_cons_of_neg _ (by simp; omega)]
      simp [h]
  | cons e t ih =>
    obtain ⟨k', v'⟩ := e
    simp only [mapInsert]
    by_cases hk : k' = k
    · subst hk
      rw [if_pos (by simp)]
      by_cases h : n = k'
      · subst h
        unfold mapLookup
        rw [List.find?_cons_of_pos _ (by simp), List.find?_cons_of_pos _ (by simp)]
        simp
      · unfold mapLookup
        rw [List.find?_cons_of_neg _ (by simp; omega),
          List.find?_cons_of_neg _ (by simp; omega)]
        simp [h]
    · rw [if_neg (by simpa using hk)]
      by_cases h : n = k'
      · subst h
        have hnk : ¬ n = k := fun hh => hk (by omega)
        rw [if_neg hnk]
        unfold mapLookup
        rw [List.find?_cons_of_pos _ (by simp), List.find?_cons_of_pos _ (by simp)]
      · unfold mapLookup
        rw [List.find?_cons_of_neg _ (by simp; omega),
          List.find?_cons_of_neg _ (by simp; omega)]
        exact ih

end Basica

namespace Basica

theorem getLast?_cons_or {α : Type} (a : α) (l : List α) :
    (a :: l).getLast? = l.getLast?.or (some a) := by
  induction l generalizing a with
  | nil => simp
  | cons b t ih =>
    rw [List.getLast?_cons_cons, ih b]
    rcases h : t.getLast? with _ | x <;> simp [ih, h]

/-- The per-element step of `build_line_map`. -/
def blmStep (m : List (Nat × Nat)) (il : Nat × Line) : List (Nat × Nat) :=
  match (firstWord il.2).bind parseU32 with
  | some n => mapInsert m n il.1
  | none => m

theorem blm_foldl_lookup (es : List (Nat × Line)) (m : List (Nat × Nat)) (n : Nat) :
    mapLookup (es.foldl blmStep m) n =
      (((es.filter (fun il => ((firstWord il.2).bind parseU32) == some n)).map
        (fun il => il.1)).getLast?).or (mapLookup m n) := by
  induction es generalizing m with
  | nil => simp
  | cons e t ih =>
    obtain ⟨i, l⟩ := e
    rw [List.foldl_cons, ih]
    rcases hp : (firstWord l).bind parseU32 with _ | k
    · simp [blmStep, hp]
    · by_cases hk : k = n
      · subst hk
        simp only [List.filter_cons, hp, beq_iff_eq, Option.some.injEq]
        rw [if_pos (by simp)]
        simp only [List.map_cons]
        rw [getLast?_cons_or]
        rcases hL : ((t.filter (fun il => ((firstWord il.2).bind parseU32) == some k)).map
            (fun il => il.1)).getLast? with _ | x
        · simp [hL, blmStep, hp, mapLookup_mapInsert]
        · simp [hL]
      · simp only [List.filter_cons, hp, Option.some.injEq]
        rw [if_neg (by simpa using hk)]
        simp [blmStep, hp, mapLookup_mapInsert, Ne.symm hk]

end Basica

namespace Basica

theorem fsl_go_eq (n : Nat) (rest : List Line) (k : Nat) :
    find_source_line_for_basic_line.go n k rest =
      match (((rest.enumFrom k).filter
          (fun il => ((firstWord il.2).bind parseU32) == some n)).map (fun il => il.1)).head? with
      | some r => r
      | none => 0 := by
  induction rest generalizing k with
  | nil => simp [find_source_line_for_basic_line.go]
  | cons l t ih =>
    rw [List.enumFrom_cons]
    rcases hp : (firstWord l).bind parseU32 with _ | m
    · rw [List.filter_cons]
      simp only [hp]
      rw [if_neg (by simp)]
      have hstep : find_source_line_for_basic_line.go n k (l :: t)
          = find_source_line_for_basic_line.go n (k + 1) t := by
        conv_lhs => rw [find_source_line_for_basic_line.go]
        rw [hp]
      rw [hstep]
      exact ih (k + 1)
    · by_cases hm : m = n
      · subst hm
        rw [List.filter_cons]
        simp only [hp]
        rw [if_pos (by simp)]
        simp only [List.map_cons, List.head?_cons]
        conv_lhs => rw [find_source_line_for_basic_line.go]
        rw [hp]
        simp
      · rw [List.filter_cons]
        simp only [hp]
        rw [if_neg (by simp [hm])]
        have hstep : find_source_line_for_basic_line.go n k (l :: t)
            = find_source_line_for_basic_line.go n (k + 1) t := by
          conv_lhs => rw [find_source_line_for_basic_line.go]
          rw [hp]
          simp [hm]
        rw [hstep]
        exact ih (k + 1)

end Basica

namespace Basica

/-- C2 counterexample: with two rows both numbered 10, the goto-definition
line map resolves 10 to row 1 (the last), not row 0 (the first), though row
0 is the first row carrying 10. -/
theorem C2_counterexample :
    leadingNumberRows [bytes "10 PRINT 1", bytes "10 END"] 10 = [0, 1]
    ∧ mapLookup (build_line_map [bytes "10 PRINT 1", bytes "10 END"]) 10 = some 1
    ∧ ¬ mapLookup (build_line_map [bytes "10 PRINT 1", bytes "10 END"]) 10 = some 0 := by
  decide

/-- C2 amended: the Jump-Target Map of goto-definition maps N to the LAST
row whose leading number is N, while the syntax-error locator
`find_source_line_for_basic_line` resolves to the first such row. -/
theorem C2_amended_last_occurrence_wins (src : Doc) (n : Nat) (h : leadingNumberRows src n ≠ []) :
    mapLookup (build_line_map src) n = (leadingNumberRows src n).getLast?
    ∧ some (find_source_line_for_basic_line src n) = (leadingNumberRows src n).head? := by
  constructor
  · have heq : build_line_map src = (src.enum).foldl blmStep [] := rfl
    rw [heq, blm_foldl_lookup]
    rcases hL : (leadingNumberRows src n).getLast? with _ | x
    · exact absurd (List.getLast?_eq_none_iff.mp (by simpa [leadingNumberRows] using hL)) h
    · have : (((src.enum).filter (fun il => ((firstWord il.2).bind parseU32) == some n)).map
          (fun il => il.1)).getLast? = some x := by simpa [leadingNumberRows] using hL
      simp [this]
  · have heq : find_source_line_for_basic_line src n
        = find_source_line_for_basic_line.go n 0 src := rfl
    rw [heq, fsl_go_eq]
    have henum : src.enumFrom 0 = src.enum := rfl
    rw [henum]
    rcases hH : (leadingNumberRows src n).head? with _ | x
    · exact absurd (List.head?_eq_none_iff.mp (by simpa [leadingNumberRows] using hH)) h
    · have : (((src.enum).filter (fun il => ((firstWord il.2).bind parseU32) == some n)).map
          (fun il => il.1)).head? = some x := by simpa [leadingNumberRows] using hH
      simp [this]

/-- Witness for the amended C2 on a duplicate-numbered document. -/
theorem C2_witness :
    mapLookup (build_line_map [bytes "10 PRINT 1", bytes "10 END"]) 10
      = (leadingNumberRows [bytes "10 PRINT 1", bytes "10 END"] 10).getLast?
    ∧ some (find_source_line_for_basic_line [bytes "10 PRINT 1", bytes "10 END"] 10)
      = (leadingNumberRows [bytes "10 PRINT 1", bytes "10 END"] 10).head? :=
  C2_amended_last_occurrence_wins [bytes "10 PRINT 1", bytes "10 END"] 10 (by decide)

end Basica

namespace Basica

/-- C1 (code bug evidence): on `10 LET Y = 1\n20 END` the variable index
records the LET declaration site at the column of the keyword `LET`
(extract_var_with_pos always reports position 0), so the occurrence of Y at
column 7 is classified as a usage and check returns no diagnostics instead
of the claimed unused-variable Hint. -/
theorem C1_check_at_failing_input :
    analyze_variables [bytes "10 LET Y = 1", bytes "20 END"] =
      ([(bytes "Y", [(0, 3, 5)])], [(bytes "Y", [(0, 7, 8)])])
    ∧ check (.ok ()) [bytes "10 LET Y = 1", bytes "20 END"] = [] := by
  constructor
  · rfl
  · rfl

/-- C3: on a grammar-engine failure, check returns exactly one diagnostic of
severity Error carrying the parsed message, located at the row derived from
the "Line N:" pattern first, then "at line N", defaulting to row 0; no
warnings are computed. -/
theorem C3_parse_failure_single_error_diag :
    (∀ (msg : Line) (src : Doc), ∃ d : Diagnostic,
      check (.error msg) src = [d] ∧ d.severity = .err
      ∧ d.message = (parse_error_message msg).2
      ∧ d.range.startLine = (if (parse_error_message msg).1 > 0
          then find_source_line_for_basic_line src (parse_error_message msg).1 else 0))
    ∧ parse_error_message (bytes "Line 7: unexpected token") = (7, bytes "unexpected token")
    ∧ parse_error_message (bytes "failure at line 12") = (12, bytes "failure at line 12")
    ∧ (parse_error_message (bytes "Line 3: bad at line 9")).1 = 3
    ∧ parse_error_message (bytes "catastrophic") = (0, bytes "catastrophic") := by
  refine ⟨?_, by decide, by decide, by decide, by decide⟩
  intro msg src
  rcases hpm : parse_error_message msg with ⟨line, message⟩
  by_cases hl : line > 0
  · refine ⟨⟨⟨find_source_line_for_basic_line src line, 0,
        find_source_line_for_basic_line src line, 1000⟩, .err, message, false⟩, ?_, rfl, ?_, ?_⟩
    · simp [check, hpm, hl]
    · rfl
    · simp [hl]
  · refine ⟨⟨Rng.default, .err, message, false⟩, ?_, rfl, ?_, ?_⟩
    · simp [check, hpm, hl]
    · rfl
    · simp [hl, Rng.default]

end Basica

namespace Basica

theorem culParts_eq (defined : List Nat) (ln absPos : Nat) (parts : List Line) :
    culParts defined ln absPos parts =
      ((culPartsRefs ln absPos parts).filter
        (fun r => !(defined.contains r.target))).map mkUndefinedDiag := by
  induction parts with
  | nil => rfl
  | cons p ps ih =>
    unfold culParts culPartsRefs
    rcases hp : parseU32 ((firstWord p).getD []) with _ | t
    · simp [hp]
    · simp only [hp]
      by_cases hc : defined.contains t
      · have hm : t ∈ defined := by simpa [List.contains] using hc
        simp [ih, hc, hm]
      · have ht : t ∉ defined := fun hm => hc (contains_of_mem hm)
        simp [ih, hc, ht, mkUndefinedDiag]

theorem culScan_eq (defined : List Nat) (kw : Line) (ln : Nat) (upperL origL : Line)
    (fuel searchStart : Nat) :
    culScanAux defined kw ln upperL origL fuel searchStart =
      ((culScanRefsAux kw ln upperL origL fuel searchStart).filter
        (fun r => !(defined.contains r.target))).map mkUndefinedDiag := by
  induction fuel generalizing searchStart with
  | zero => rfl
  | succ fuel ih =>
    unfold culScanAux culScanRefsAux
    rcases hf : findSub kw (upperL.drop searchStart) with _ | kwPos
    · simp [hf]
    · simp only [hf, List.filter_append, List.map_append]
      rw [culParts_eq, ih]

theorem flatMap_filter_map {α β γ : Type} (L : List α) (f : α → List β)
    (p : β → Bool) (g : β → γ) :
    ((L.flatMap f).filter p).map g = L.flatMap (fun x => ((f x).filter p).map g) := by
  induction L with
  | nil => rfl
  | cons a t ih => simp [List.flatMap_cons, List.filter_append, List.map_append, ih]

end Basica

namespace Basica

theorem cucAux_sound (targets : List Nat) (src : Doc) :
    ∀ (rest : List Line) (ln : Nat) (state : Option Nat),
      src.drop ln = rest →
      (∀ s, state = some s →
        s < ln
        ∧ (∃ l, src.get? s = some l ∧ makesUnreachable l = true)
        ∧ (∀ r, s + 1 ≤ r → r < ln → ∀ l, src.get? r = some l →
            isTargetRow targets l = false)) →
      ∀ d ∈ cucAux targets ln rest state,
        (∃ s, d.range.startLine = s + 1
          ∧ ∃ l, src.get? s = some l ∧ makesUnreachable l = true)
        ∧ (∀ r, d.range.startLine ≤ r → r ≤ d.range.endLine →
            ∀ l, src.get? r = some l → isTargetRow targets l = false)
        ∧ d.range.endLine + 1 < src.length
        ∧ (∃ l, src.get? (d.range.endLine + 1) = some l
            ∧ isTargetRow targets l = true)
        ∧ d.severity = .hint ∧ d.unnecessary = true
        ∧ d.message = bytes "Unreachable code" := by
  intro rest
  induction rest with
  | nil => intro ln state _ _ d hd; simp [cucAux] at hd
  | cons l rest' ih =>
    intro ln state hdrop hinv d hd
    have hln : src.get? ln = some l := by
      rw [List.get?_eq_getElem?, ← List.head?_drop, hdrop]
      rfl
    have hdrop' : src.drop (ln + 1) = rest' := by
      have h1 : src.drop (ln + 1) = (src.drop ln).tail := by
        rw [← List.drop_drop]
        simp
      rw [h1, hdrop]
      rfl
    have hlen : ln < src.length := by
      rw [List.get?_eq_some] at hln
      exact hln.1
    unfold cucAux at hd
    rcases List.mem_append.mp hd with hd0 | hdt
    · rcases hstate : state with _ | s
      · rw [hstate] at hd0; simp [cucEmit] at hd0
      · rw [hstate] at hd0
        rw [show cucEmit targets ln l (some s)
            = if isTargetRow targets l && decide (ln > s + 1) then
                [⟨⟨s + 1, 0, ln - 1, 1000⟩, .hint, bytes "Unreachable code", true⟩]
              else [] from rfl] at hd0
        by_cases hcond : (isTargetRow targets l && decide (ln > s + 1)) = true
        · rw [if_pos hcond] at hd0
          rw [Bool.and_eq_true] at hcond
          have hcl : isTargetRow targets l = true := hcond.1
          have hgt : ln > s + 1 := by simpa using hcond.2
          have hde : d = ⟨⟨s + 1, 0, ln - 1, 1000⟩, .hint, bytes "Unreachable code", true⟩ := by
            simpa using hd0
          obtain ⟨hslt, hterm, hnotar⟩ := hinv s hstate
          subst hde
          refine ⟨⟨s, rfl, hterm⟩, ?_, ?_, ?_, rfl, rfl, rfl⟩
          · intro r hr1 hr2 lr hlr
            simp only [] at hr1 hr2
            exact hnotar r hr1 (by omega) lr hlr
          · simp only []
            rw [show ln - 1 + 1 = ln by omega]
            exact hlen
          · simp only []
            rw [show ln - 1 + 1 = ln by omega]
            exact ⟨l, hln, hcl⟩
        · rw [if_neg hcond] at hd0; simp at hd0
    · refine ih (ln + 1) (cucNextState targets ln l state) hdrop' ?_ d hdt
      intro s hs
      unfold cucNextState at hs
      by_cases htr : isTargetRow targets l = true
      · simp only [htr, if_true] at hs
        by_cases hskip : isSkippedRow l = true
        · rw [if_pos hskip] at hs; simp at hs
        · rw [if_neg hskip] at hs
          simp only [Option.isSome_none, Bool.false_eq_true, if_false] at hs
          by_cases hmk : makesUnreachable l = true
          · rw [if_pos hmk] at hs
            have hsln : s = ln := by simpa using hs.symm
            subst hsln
            exact ⟨by omega, ⟨l, hln, hmk⟩, fun r hr1 hr2 lr hlr => by omega⟩
          · rw [if_neg hmk] at hs; simp at hs
      · have htr' : isTargetRow targets l = false := by simpa using htr
        simp only [htr', Bool.false_eq_true, if_false] at hs
        rcases hstate : state with _ | s0
        · rw [hstate] at hs
          by_cases hskip : isSkippedRow l = true
          · rw [if_pos hskip] at hs; simp at hs
          · rw [if_neg hskip] at hs
            simp only [Option.isSome_none, Bool.false_eq_true, if_false] at hs
            by_cases hmk : makesUnreachable l = true
            · rw [if_pos hmk] at hs
              have hsln : s = ln := by simpa using hs.symm
              subst hsln
              exact ⟨by omega, ⟨l, hln, hmk⟩, fun r hr1 hr2 lr hlr => by omega⟩
            · rw [if_neg hmk] at hs; simp at hs
        · rw [hstate] at hs
          have hs0 : s = s0 := by
            by_cases hskip : isSkippedRow l = true
            · rw [if_pos hskip] at hs; simpa using hs.symm
            · rw [if_neg hskip] at hs
              simp only [Option.isSome_some, if_true] at hs
              simpa using hs.symm
          subst hs0
          obtain ⟨hslt, hterm, hnotar⟩ := hinv s (by rw [hstate])
          refine ⟨by omega, hterm, ?_⟩
          intro r hr1 hr2 lr hlr
          by_cases hrln : r = ln
          · subst hrln
            rw [hln] at hlr
            have : l = lr := by simpa using hlr
            subst this
            exact htr'
          · exact hnotar r hr1 (by omega) lr hlr

end Basica

namespace Basica

/-- C5: every unreachable-code Hint starts at the row immediately after a
row whose statement content is exactly END, STOP or RETURN, or an
unconditional GOTO; its row span contains no row whose leading BASIC line
number is a jump target; and it is closed by an in-document jump-target row
(so a region still open at end of document produces no hint). -/
theorem C5_unreachable_hints_sound (src : Doc) (d : Diagnostic)
    (hd : d ∈ check_unreachable_code src) :
    (∃ s, d.range.startLine = s + 1
      ∧ ∃ l, src.get? s = some l ∧ makesUnreachable l = true)
    ∧ (∀ r, d.range.startLine ≤ r → r ≤ d.range.endLine →
        ∀ l, src.get? r = some l → isTargetRow (find_jump_targets src) l = false)
    ∧ d.range.endLine + 1 < src.length
    ∧ (∃ l, src.get? (d.range.endLine + 1) = some l
        ∧ isTargetRow (find_jump_targets src) l = true) := by
  have hd' : d ∈ cucAux (find_jump_targets src) 0 src none := hd
  have h := cucAux_sound (find_jump_targets src) src src 0 none rfl
    (by intro s hs; simp at hs) d hd'
  exact ⟨h.1, h.2.1, h.2.2.1, h.2.2.2.1⟩

/-- Witness for C5 on `10 GOTO 30 / 20 PRINT 1 / 30 END`. -/
theorem C5_witness :
    (∃ s, (Rng.mk 1 0 1 1000).startLine = s + 1
      ∧ ∃ l, [bytes "10 GOTO 30", bytes "20 PRINT 1", bytes "30 END"].get? s = some l
          ∧ makesUnreachable l = true)
    ∧ (∀ r, (Rng.mk 1 0 1 1000).startLine ≤ r → r ≤ (Rng.mk 1 0 1 1000).endLine →
        ∀ l, [bytes "10 GOTO 30", bytes "20 PRINT 1", bytes "30 END"].get? r = some l →
          isTargetRow (find_jump_targets [bytes "10 GOTO 30", bytes "20 PRINT 1",
            bytes "30 END"]) l = false)
    ∧ (Rng.mk 1 0 1 1000).endLine + 1
        < ([bytes "10 GOTO 30", bytes "20 PRINT 1", bytes "30 END"] : Doc).length
    ∧ (∃ l, [bytes "10 GOTO 30", bytes "20 PRINT 1", bytes "30 END"].get?
          ((Rng.mk 1 0 1 1000).endLine + 1) = some l
        ∧ isTargetRow (find_jump_targets [bytes "10 GOTO 30", bytes "20 PRINT 1",
            bytes "30 END"]) l = true) := by
  have h := C5_unreachable_hints_sound [bytes "10 GOTO 30", bytes "20 PRINT 1", bytes "30 END"]
    ⟨⟨1, 0, 1, 1000⟩, .hint, bytes "Unreachable code", true⟩ (by decide)
  exact h

end Basica

namespace Basica

theorem findSub_le {pat l : Line} {i : Nat} (h : findSub pat l = some i) :
    i + pat.length ≤ l.length := by
  induction l generalizing i with
  | nil =>
    unfold findSub at h
    split at h
    next hp =>
      simp at h
      subst h
      have hp0 : pat.length = 0 := by simpa using hp
      simp [hp0]
    next => simp at h
  | cons b t ih =>
    unfold findSub at h
    split at h
    next hs =>
      simp at h
      subst h
      unfold startsWith at hs
      rw [beq_iff_eq] at hs
      have := congrArg List.length hs
      rw [List.length_take] at this
      simp at this ⊢
      omega
    next =>
      rcases h' : findSub pat t with _ | j
      · rw [h'] at h; simp at h
      · rw [h'] at h
        simp at h
        subst h
        have := ih h'
        simp
        omega

theorem renameScanAux_ne_none {base nn : Line} {li : Nat} {up : Line}
    (hbase : base ≠ []) :
    ∀ (fuel searchStart : Nat), searchStart ≤ up.length →
      renameScanAux base nn li up fuel searchStart ≠ none := by
  intro fuel
  induction fuel with
  | zero => intro searchStart _ h; simp [renameScanAux] at h
  | succ fuel ih =>
    intro searchStart hss h
    unfold renameScanAux at h
    rw [if_neg (by omega)] at h
    rcases hf : findSub base (up.drop searchStart) with _ | pos
    · simp only [hf] at h
      exact absurd h (by simp)
    · simp only [hf] at h
      have hle := findSub_le hf
      rw [List.length_drop] at hle
      have hbl : 1 ≤ base.length := by
        rcases base with _ | _
        · simp at hbase
        · simp
      have hnext : searchStart + pos + 1 ≤ up.length := by omega
      rcases hrec : renameScanAux base nn li up fuel (searchStart + pos + 1) with _ | rest
      · exact ih (searchStart + pos + 1) hnext hrec
      · rw [hrec] at h
        simp at h

end Basica

namespace Basica

theorem get_word_props {l : Line} {c s e : Nat} {w : Line}
    (h : get_word_at_position l c = some (s, e, w)) :
    w ≠ [] ∧ s < e ∧ e ≤ l.length := by
  simp only [get_word_at_position] at h
  split at h
  next hlt =>
    have hs : min c l.length - ((l.take (min c l.length)).reverse.takeWhile isWordChar).length = s
        ∧ min c l.length + ((l.drop (min c l.length)).takeWhile isWordChar).length = e
        ∧ (l.drop (min c l.length - ((l.take (min c l.length)).reverse.takeWhile
            isWordChar).length)).take
            ((min c l.length + ((l.drop (min c l.length)).takeWhile isWordChar).length)
              - (min c l.length - ((l.take (min c l.length)).reverse.takeWhile
                  isWordChar).length)) = w := by
      have := h
      simp at this
      exact ⟨this.1, this.2.1, this.2.2⟩
    obtain ⟨hs1, hs2, hs3⟩ := hs
    have hcp : min c l.length ≤ l.length := Nat.min_le_right _ _
    have hre : ((l.drop (min c l.length)).takeWhile isWordChar).length
        ≤ l.length - min c l.length := by
      have h1 := (List.takeWhile_prefix (p := isWordChar)
        (l := l.drop (min c l.length))).length_le
      rw [List.length_drop] at h1
      exact h1
    have he : e ≤ l.length := by omega
    have hse : s < e := by
      rw [hs1, hs2] at hlt
      exact hlt
    refine ⟨?_, hse, he⟩
    intro hw
    rw [hw] at hs3
    have := congrArg List.length hs3
    rw [List.length_take, List.length_drop] at this
    simp at this
    omega
  next => simp at h

theorem base_ne_nil {w : Line} (hw : w ≠ []) (hne : upper w ≠ [36]) :
    (if (upper w).getLast? == some 36 then (upper w).take ((upper w).length - 1)
     else upper w) ≠ [] := by
  have hu : upper w ≠ [] := by
    intro h
    exact hw (by simpa [upper] using h)
  by_cases hl : (upper w).getLast? == some 36
  · rw [if_pos hl]
    rcases hlen : (upper w).length with _ | n
    · exact absurd (List.length_eq_zero.mp hlen) hu
    · rcases n with _ | n
      · exfalso
        obtain ⟨x, hx⟩ := List.length_eq_one.mp hlen
        rw [hx] at hl
        have hx36 : x = 36 := by simpa using hl
        exact hne (by rw [hx, hx36])
      · intro htake
        have hlt2 := congrArg List.length htake
        rw [List.length_take, hlen] at hlt2
        simp at hlt2
  · rw [if_neg hl]
    exact hu

theorem rename_foldl_some (base nn : Line) (hbase : base ≠ []) (es : List (Nat × Line)) :
    ∀ acc : Option (List TextEdit), acc ≠ none →
      es.foldl (fun acc il =>
        match acc, renameLineEdits base nn il.1 il.2 with
        | some es, some es' => some (es ++ es')
        | _, _ => none) acc ≠ none := by
  induction es with
  | nil => intro acc hacc; simpa using hacc
  | cons e t ih =>
    intro acc hacc
    rw [List.foldl_cons]
    apply ih
    rcases hacc' : acc with _ | accl
    · exact absurd hacc' hacc
    · have hline : renameLineEdits base nn e.1 e.2 ≠ none := by
        unfold renameLineEdits
        exact renameScanAux_ne_none hbase _ 0 (by omega)
      rcases hl : renameLineEdits base nn e.1 e.2 with _ | esl
      · exact absurd hl hline
      · simp

end Basica

namespace Basica

/-- C9 counterexample: rename on the token `$` panics.  The base name is
empty, the empty pattern matches at every index, and `search_start` walks
past the end of the line, where `upper[search_start..]` is an out-of-bounds
byte-range slice. -/
theorem C9_counterexample :
    rename_symbol [bytes "10 $ = 1"] ⟨0, 3⟩ (bytes "B") = .error () := by rfl

/-- C9 amended: every listed operation degrades without a fault.
Prepare-rename, rename, signature help, goto-definition, find-references and
hover return none/empty when the cursor row is out of range, when no token is
under the cursor, or when the token is numeric (with no jump keyword or no
mapped target) or a keyword; columns past end of line are clamped; signature
help returns none without an enclosing open parenthesis or for an unknown
function; hover returns none for undocumented tokens; goto-definition
returns none when no defining assignment exists; completion ignores the
cursor position entirely (so no position can fault it) and on the empty
document returns exactly the keyword and function tables; folding of the
empty document is empty; and rename never faults provided the cursor token
is not a bare dollar sign (its uppercase form differs from `$`). -/
theorem C9_amended_degradation :
    (∀ (src : Doc) (p : Pos) (nn : Line), src.get? p.line = none →
      prepare_rename src p = none ∧ rename_symbol src p nn = .ok none
      ∧ get_signature_help src p = none)
    ∧ (∀ (src : Doc) (p : Pos) (nn : Line) (l : Line), src.get? p.line = some l →
        get_word_at_position l p.character = none →
        prepare_rename src p = none ∧ rename_symbol src p nn = .ok none)
    ∧ (∀ (src : Doc) (p : Pos) (nn : Line) (l : Line) (s e : Nat) (w : Line),
        src.get? p.line = some l →
        get_word_at_position l p.character = some (s, e, w) →
        ((parseU32 w).isSome = true ∨ rename_is_keyword (upper w) = true) →
        prepare_rename src p = none ∧ rename_symbol src p nn = .ok none)
    ∧ (∀ (l : Line) (c : Nat), l.length ≤ c →
        get_word_at_position l c = get_word_at_position l l.length)
    ∧ (∀ (src : Doc) (p : Pos) (l : Line), src.get? p.line = some l →
        findOpenParen 0 (l.take (min p.character l.length)).reverse 0 = none →
        get_signature_help src p = none)
    ∧ (∀ (name : Line) (ap : Nat), sigTable.find? (fun en => en.1 == name) = none →
        get_function_signature name ap = none)
    ∧ (∀ (src : Doc) (p : Pos) (nn : Line) (l : Line) (s e : Nat) (w : Line),
        src.get? p.line = some l →
        get_word_at_position l p.character = some (s, e, w) →
        upper w ≠ [36] →
        rename_symbol src p nn ≠ .error ())
    ∧ (∀ (kwP : Line → Bool) (src : Doc) (p : Pos), src.get? p.line = none →
        find_definition kwP src p = none ∧ find_references src p = []
        ∧ get_hover src p = none)
    ∧ (∀ (kwP : Line → Bool) (src : Doc) (p : Pos) (l : Line),
        src.get? p.line = some l →
        get_word_at_position l p.character = none →
        find_definition kwP src p = none ∧ find_references src p = []
        ∧ get_hover src p = none)
    ∧ (∀ (kwP : Line → Bool) (src : Doc) (p : Pos) (l : Line) (s e : Nat)
        (w : Line),
        src.get? p.line = some l →
        get_word_at_position l p.character = some (s, e, w) →
        parseU32 w = none → kwP (upper w) = true →
        find_definition kwP src p = none)
    ∧ (∀ (kwP : Line → Bool) (src : Doc) (p : Pos) (l : Line) (s e : Nat)
        (w : Line) (t : Nat),
        src.get? p.line = some l →
        get_word_at_position l p.character = some (s, e, w) →
        parseU32 w = some t →
        ((containsSub (bytes "GOTO") (upper l) = false
            ∧ containsSub (bytes "GOSUB") (upper l) = false
            ∧ containsSub (bytes "RESTORE") (upper l) = false
            ∧ containsSub (bytes "THEN") (upper l) = false)
          ∨ mapLookup (build_line_map src) t = none) →
        find_definition kwP src p = none)
    ∧ (∀ (kwP : Line → Bool) (src : Doc) (p : Pos) (l : Line) (s e : Nat)
        (w : Line),
        src.get? p.line = some l →
        get_word_at_position l p.character = some (s, e, w) →
        parseU32 w = none → kwP (upper w) = false →
        find_variable_definition src (upper w) = none →
        find_definition kwP src p = none)
    ∧ (∀ (src : Doc) (p : Pos) (l : Line) (s e : Nat) (w : Line),
        src.get? p.line = some l →
        get_word_at_position l p.character = some (s, e, w) →
        hover_doc_keys.contains (trimEndDollars (upper w)) = false →
        get_hover src p = none)
    ∧ (∀ (src : Doc) (p p' : Pos), get_completions src p = get_completions src p')
    ∧ (get_completions [] ⟨0, 0⟩
        = completion_keyword_labels ++ completion_function_labels)
    ∧ (get_folding_ranges [] = []) := by
  refine ⟨?_, ?_, ?_, ?_, ?_, ?_, ?_, ?_, ?_, ?_, ?_, ?_, ?_, ?_, ?_, ?_⟩
  · intro src p nn h
    refine ⟨?_, ?_, ?_⟩
    · unfold prepare_rename
      rw [h]
    · unfold rename_symbol
      rw [h]
    · unfold get_signature_help
      rw [h]
  · intro src p nn l hl hw
    constructor
    · unfold prepare_rename
      simp only [hl, hw]
    · unfold rename_symbol
      simp only [hl, hw]
  · intro src p nn l s e w hl hw hkw
    have hb : ((parseU32 w).isSome || rename_is_keyword (upper w)) = true := by
      rcases hkw with hk | hk
      · simp [hk]
      · simp [hk]
    constructor
    · unfold prepare_rename
      simp only [hl, hw]
      rcases hkw with hk | hk
      · simp [hk]
      · simp [hk]
    · unfold rename_symbol
      simp only [hl, hw, hb]
      simp
  · intro l c h
    unfold get_word_at_position
    rw [Nat.min_eq_right h, Nat.min_self]
  · intro src p l hl hfp
    unfold get_signature_help
    rw [hl]
    simp [hfp]
  · intro name ap h
    unfold get_function_signature
    rw [h]
  · intro src p nn l s e w hl hw hne h
    unfold rename_symbol at h
    simp only [hl, hw] at h
    split at h
    · simp at h
    · obtain ⟨hwne, _, _⟩ := get_word_props hw
      have hbase := base_ne_nil hwne hne
      split at h
      next hsc =>
        exact (rename_foldl_some _ nn hbase src.enum (some []) (by simp)) hsc
      next es hsc =>
        split at h
        · simp at h
        · simp at h
  · intro kwP src p h
    refine ⟨?_, ?_, ?_⟩
    · unfold find_definition
      rw [h]
    · unfold find_references
      rw [h]
    · unfold get_hover
      rw [h]
  · intro kwP src p l hl hw
    refine ⟨?_, ?_, ?_⟩
    · unfold find_definition
      simp only [hl, hw]
    · unfold find_references
      simp only [hl, hw]
    · unfold get_hover
      simp only [hl, hw]
  · intro kwP src p l s e w hl hw hnum hkw
    unfold find_definition
    simp only [hl, hw, hnum]
    simp [hkw]
  · intro kwP src p l s e w t hl hw hnum hcond
    unfold find_definition
    simp only [hl, hw, hnum]
    rcases hcond with ⟨h1, h2, h3, h4⟩ | hmap
    · simp [h1, h2, h3, h4]
    · by_cases hif : (containsSub (bytes "GOTO") (upper l)
          || containsSub (bytes "GOSUB") (upper l)
          || containsSub (bytes "RESTORE") (upper l)
          || containsSub (bytes "THEN") (upper l)) = true
      · simp [hif, hmap]
      · simp [hif]
  · intro kwP src p l s e w hl hw hnum hkw hfvd
    unfold find_definition
    simp only [hl, hw, hnum]
    simp [hkw, hfvd]
  · intro src p l s e w hl hw hdoc
    unfold get_hover
    simp only [hl, hw]
    unfold get_documentation
    simp [hdoc]
    simpa using hdoc
  · intro src p p'
    rfl
  · rfl
  · rfl

end Basica

namespace Basica

/-- Witness for amended C9 at concrete documents and cursors. -/
theorem C9_witness :
    (prepare_rename [] ⟨0, 0⟩ = none ∧ rename_symbol [] ⟨0, 0⟩ (bytes "B") = .ok none
      ∧ get_signature_help [] ⟨0, 0⟩ = none)
    ∧ (prepare_rename [bytes "  "] ⟨0, 0⟩ = none
      ∧ rename_symbol [bytes "  "] ⟨0, 0⟩ (bytes "B") = .ok none)
    ∧ (prepare_rename [bytes "10 PRINT"] ⟨0, 4⟩ = none
      ∧ rename_symbol [bytes "10 PRINT"] ⟨0, 4⟩ (bytes "B") = .ok none)
    ∧ get_word_at_position (bytes "AB") 5 = get_word_at_position (bytes "AB") (bytes "AB").length
    ∧ get_signature_help [bytes "PRINT X"] ⟨0, 3⟩ = none
    ∧ get_function_signature (bytes "ZZZ") 0 = none
    ∧ rename_symbol [bytes "10 LET A = 1"] ⟨0, 7⟩ (bytes "B") ≠ .error ()
    ∧ (find_definition (fun _ => false) [] ⟨0, 0⟩ = none
      ∧ find_references [] ⟨0, 0⟩ = [] ∧ get_hover [] ⟨0, 0⟩ = none)
    ∧ (find_definition (fun _ => false) [bytes "  "] ⟨0, 0⟩ = none
      ∧ find_references [bytes "  "] ⟨0, 0⟩ = []
      ∧ get_hover [bytes "  "] ⟨0, 0⟩ = none)
    ∧ find_definition (fun _ => true) [bytes "10 A = 1"] ⟨0, 3⟩ = none
    ∧ find_definition (fun _ => false) [bytes "10 GOTO 99"] ⟨0, 8⟩ = none
    ∧ find_definition (fun _ => false) [bytes "10 PRINT A"] ⟨0, 9⟩ = none
    ∧ get_hover [bytes "10 PRINT XYZ"] ⟨0, 9⟩ = none
    ∧ get_completions [bytes "10 END"] ⟨0, 0⟩
        = get_completions [bytes "10 END"] ⟨99, 99⟩
    ∧ get_completions [] ⟨0, 0⟩
        = completion_keyword_labels ++ completion_function_labels
    ∧ get_folding_ranges [] = [] :=
  ⟨C9_amended_degradation.1 [] ⟨0, 0⟩ (bytes "B") (by decide),
   C9_amended_degradation.2.1 [bytes "  "] ⟨0, 0⟩ (bytes "B") (bytes "  ") (by decide) (by decide),
   C9_amended_degradation.2.2.1 [bytes "10 PRINT"] ⟨0, 4⟩ (bytes "B") (bytes "10 PRINT") 3 8
     (bytes "PRINT") (by decide) (by decide) (Or.inr (by decide)),
   C9_amended_degradation.2.2.2.1 (bytes "AB") 5 (by decide),
   C9_amended_degradation.2.2.2.2.1 [bytes "PRINT X"] ⟨0, 3⟩ (bytes "PRINT X") (by decide) (by decide),
   C9_amended_degradation.2.2.2.2.2.1 (bytes "ZZZ") 0 (by decide),
   C9_amended_degradation.2.2.2.2.2.2.1 [bytes "10 LET A = 1"] ⟨0, 7⟩ (bytes "B") (bytes "10 LET A = 1")
     7 8 (bytes "A") (by decide) (by decide) (by decide),
   C9_amended_degradation.2.2.2.2.2.2.2.1 (fun _ => false) [] ⟨0, 0⟩ (by decide),
   C9_amended_degradation.2.2.2.2.2.2.2.2.1 (fun _ => false) [bytes "  "] ⟨0, 0⟩ (bytes "  ")
     (by decide) (by decide),
   C9_amended_degradation.2.2.2.2.2.2.2.2.2.1 (fun _ => true) [bytes "10 A = 1"] ⟨0, 3⟩
     (bytes "10 A = 1") 3 4 (bytes "A") (by decide) (by decide) (by decide) rfl,
   C9_amended_degradation.2.2.2.2.2.2.2.2.2.2.1 (fun _ => false) [bytes "10 GOTO 99"] ⟨0, 8⟩
     (bytes "10 GOTO 99") 8 10 (bytes "99") 99 (by decide) (by decide) (by decide)
     (Or.inr (by decide)),
   C9_amended_degradation.2.2.2.2.2.2.2.2.2.2.2.1 (fun _ => false) [bytes "10 PRINT A"] ⟨0, 9⟩
     (bytes "10 PRINT A") 9 10 (bytes "A") (by decide) (by decide) (by decide) rfl (by decide),
   C9_amended_degradation.2.2.2.2.2.2.2.2.2.2.2.2.1 [bytes "10 PRINT XYZ"] ⟨0, 9⟩
     (bytes "10 PRINT XYZ") 9 12 (bytes "XYZ") (by decide) (by decide) (by decide),
   C9_amended_degradation.2.2.2.2.2.2.2.2.2.2.2.2.2.1 [bytes "10 END"] ⟨0, 0⟩ ⟨99, 99⟩,
   C9_amended_degradation.2.2.2.2.2.2.2.2.2.2.2.2.2.2.1,
   C9_amended_degradation.2.2.2.2.2.2.2.2.2.2.2.2.2.2.2⟩

end Basica

namespace Basica

theorem renameScanAux_mem {base nn : Line} {li : Nat} {up : Line} :
    ∀ {fuel searchStart : Nat} {edits : List TextEdit},
      renameScanAux base nn li up fuel searchStart = some edits →
      ∀ ed ∈ edits,
        ed.range.startLine = li ∧ ed.range.endLine = li
        ∧ startsWith base (up.drop ed.range.startChar) = true
        ∧ ((ed.range.endChar = ed.range.startChar + base.length
              ∧ ed.newText = renameReplacement nn false)
          ∨ (ed.range.endChar = ed.range.startChar + base.length + 1
              ∧ up.get? (ed.range.startChar + base.length) = some 36
              ∧ ed.newText = renameReplacement nn true)) := by
  intro fuel
  induction fuel with
  | zero =>
    intro searchStart edits h ed hed
    unfold renameScanAux at h
    have : edits = [] := by simpa using h.symm
    subst this
    simp at hed
  | succ fuel ih =>
    intro searchStart edits h ed hed
    unfold renameScanAux at h
    split at h
    · simp at h
    next hss =>
      rcases hf : findSub base (up.drop searchStart) with _ | pos
      · simp only [hf] at h
        have : edits = [] := by simpa using h.symm
        subst this
        simp at hed
      · simp only [hf] at h
        rcases hrec : renameScanAux base nn li up fuel (searchStart + pos + 1) with _ | rest
        · rw [hrec] at h; simp at h
        · rw [hrec] at h
          simp only [Option.some.injEq] at h
          subst h
          rcases List.mem_append.mp hed with hed0 | hedr
          · split at hed0
            · have hde : ed = ⟨⟨li, searchStart + pos, li,
                  if (decide (searchStart + pos + base.length < up.length)
                      && (up.get? (searchStart + pos + base.length) == some 36)) = true then
                    searchStart + pos + base.length + 1
                  else searchStart + pos + base.length⟩,
                  renameReplacement nn
                    (decide ((if (decide (searchStart + pos + base.length < up.length)
                        && (up.get? (searchStart + pos + base.length) == some 36)) = true then
                      searchStart + pos + base.length + 1
                    else searchStart + pos + base.length) > searchStart + pos + base.length))⟩ := by
                simpa using hed0
              subst hde
              have hsw : startsWith base (up.drop (searchStart + pos)) = true := by
                have h0 := findSub_startsWith hf
                rw [List.drop_drop] at h0
                exact h0
              refine ⟨rfl, rfl, hsw, ?_⟩
              by_cases hdol : (decide (searchStart + pos + base.length < up.length)
                  && (up.get? (searchStart + pos + base.length) == some 36)) = true
              · right
                have h2 := Bool.and_eq_true .. |>.mp hdol
                have hget : up.get? (searchStart + pos + base.length) = some 36 := by
                  simpa using h2.2
                refine ⟨by rw [if_pos hdol], hget, ?_⟩
                rw [if_pos hdol]
                simp
              · left
                refine ⟨by rw [if_neg hdol], ?_⟩
                rw [if_neg hdol]
                simp
            · simp at hed0
          · exact ih hrec ed hedr

end Basica

namespace Basica

theorem rename_foldl_none (base nn : Line) (es : List (Nat × Line)) :
    es.foldl (fun acc il =>
      match acc, renameLineEdits base nn il.1 il.2 with
      | some es, some es' => some (es ++ es')
      | _, _ => none) none = none := by
  induction es with
  | nil => rfl
  | cons e t ih =>
    rw [List.foldl_cons]
    rcases h : renameLineEdits base nn e.1 e.2 with _ | les <;> simpa [h] using ih

theorem rename_fold_mem (base nn : Line) :
    ∀ (es : List (Nat × Line)) (acc edits : List TextEdit),
      es.foldl (fun acc il =>
        match acc, renameLineEdits base nn il.1 il.2 with
        | some es, some es' => some (es ++ es')
        | _, _ => none) (some acc) = some edits →
      ∀ ed ∈ edits, ed ∈ acc
        ∨ ∃ il ∈ es, ∃ les, renameLineEdits base nn il.1 il.2 = some les ∧ ed ∈ les := by
  intro es
  induction es with
  | nil =>
    intro acc edits h ed hed
    left
    have : acc = edits := by simpa using h
    rw [this]
    exact hed
  | cons il t ih =>
    intro acc edits h ed hed
    rw [List.foldl_cons] at h
    rcases hle : renameLineEdits base nn il.1 il.2 with _ | les
    · rw [hle] at h
      simp only [] at h
      rw [rename_foldl_none] at h
      simp at h
    · rw [hle] at h
      simp only [] at h
      rcases ih (acc ++ les) edits h ed hed with hin | ⟨il', hil', les', hles', hed'⟩
      · rcases List.mem_append.mp hin with ha | hl
        · exact Or.inl ha
        · exact Or.inr ⟨il, List.mem_cons_self _ _, les, hle, hl⟩
      · exact Or.inr ⟨il', List.mem_cons_of_mem _ hil', les', hles', hed'⟩

end Basica

namespace Basica

end Basica

namespace Basica

end Basica

namespace Basica

theorem gfrAux_cons (targets : List Nat) (ln : Nat) (l : Line) (rest : List Line)
    (st : FoldState) :
    gfrAux targets ln (l :: rest) st =
      (if (trim (upper l)).isEmpty then gfrAux targets (ln + 1) rest st
       else
         tagRegions .sub (subStep targets ln (trim (upper l)) st.subStart).2
         ++ tagRegions .forL
              (stackStep (forPush (trim (upper l))) (forPop (trim (upper l))) ln st.forS).2
         ++ tagRegions .whileL
              (stackStep (whilePush (trim (upper l))) (whilePop (trim (upper l))) ln
                st.whileS).2
         ++ tagRegions .doL
              (stackStep (doPush (trim (upper l))) (doPop (trim (upper l))) ln st.doS).2
         ++ tagRegions .selectL
              (stackStep (selectPush (trim (upper l))) (selectPop (trim (upper l))) ln
                st.selectS).2
         ++ tagRegions .ifL
              (stackStep (ifPush (trim (upper l))) (ifPop (trim (upper l))) ln st.ifS).2
         ++ tagRegions .comment
              (if commentStartRow (trim (upper l)) then
                (if ln + countWhile isCommentContRow rest > ln then
                  [(ln, ln + countWhile isCommentContRow rest)]
                 else [])
               else [])
         ++ tagRegions .data
              (if dataStartRow (trim (upper l)) then
                (if ln + countWhile isDataContRow rest > ln then
                  [(ln, ln + countWhile isDataContRow rest)]
                 else [])
               else [])
         ++ gfrAux targets (ln + 1) rest
              ⟨(stackStep (forPush (trim (upper l))) (forPop (trim (upper l))) ln
                  st.forS).1,
               (stackStep (whilePush (trim (upper l))) (whilePop (trim (upper l))) ln
                  st.whileS).1,
               (stackStep (doPush (trim (upper l))) (doPop (trim (upper l))) ln st.doS).1,
               (stackStep (selectPush (trim (upper l))) (selectPop (trim (upper l))) ln
                  st.selectS).1,
               (stackStep (ifPush (trim (upper l))) (ifPop (trim (upper l))) ln st.ifS).1,
               (subStep targets ln (trim (upper l)) st.subStart).1⟩) := rfl

theorem stackScanAux_cons (pushC popC : Line → Bool) (ln : Nat) (l : Line)
    (rest : List Line) (stk : List Nat) :
    stackScanAux pushC popC ln (l :: rest) stk =
      (if (trim (upper l)).isEmpty then stackScanAux pushC popC (ln + 1) rest stk
       else
         (stackStep (pushC (trim (upper l))) (popC (trim (upper l))) ln stk).2
           ++ stackScanAux pushC popC (ln + 1) rest
                (stackStep (pushC (trim (upper l))) (popC (trim (upper l))) ln stk).1) := rfl

theorem subScanAux_cons (targets : List Nat) (ln : Nat) (l : Line)
    (rest : List Line) (sub : Option Nat) :
    subScanAux targets ln (l :: rest) sub =
      (if (trim (upper l)).isEmpty then subScanAux targets (ln + 1) rest sub
       else
         (subStep targets ln (trim (upper l)) sub).2
           ++ subScanAux targets (ln + 1) rest
                (subStep targets ln (trim (upper l)) sub).1) := rfl

theorem runScanAux_cons (sC cC : Line → Bool) (ln : Nat) (l : Line)
    (rest : List Line) :
    runScanAux sC cC ln (l :: rest) =
      ((if sC (trim (upper l)) then
         (if ln + countWhile cC rest > ln then [(ln, ln + countWhile cC rest)] else [])
        else [])
         ++ runScanAux sC cC (ln + 1) rest) := rfl

theorem filter_tagRegions_self (tg : FoldTag) (rs : List (Nat × Nat)) :
    (tagRegions tg rs).filter (fun x => decide (x.tag = tg)) = tagRegions tg rs := by
  simp [tagRegions, List.filter_map, Function.comp_def]

theorem filter_tagRegions_ne (tg tg' : FoldTag) (h : tg ≠ tg') (rs : List (Nat × Nat)) :
    (tagRegions tg rs).filter (fun x => decide (x.tag = tg')) = [] := by
  simp [tagRegions, List.filter_map, Function.comp_def, h]

theorem countWhile_drop (c : Line → Bool) :
    ∀ (xs : List Line) (j : Nat), j ≤ countWhile c xs →
      countWhile c (xs.drop j) = countWhile c xs - j := by
  intro xs
  induction xs with
  | nil => intro j hj; simp [countWhile] at hj ⊢
  | cons x rest ih =>
    intro j hj
    cases j with
    | zero => simp
    | succ j' =>
      simp only [countWhile] at hj
      by_cases hc : c x
      · rw [if_pos hc] at hj
        simp only [List.drop_succ_cons]
        rw [ih j' (by omega), countWhile, if_pos hc]
        omega
      · rw [if_neg hc] at hj; omega

end Basica

namespace Basica

theorem runScan_mem (sC cC : Line → Bool) :
    ∀ (L : List Line) (ln : Nat) (r : Nat × Nat), r ∈ runScanAux sC cC ln L →
      ∃ i, r.1 = ln + i ∧ r.2 = r.1 + countWhile cC (L.drop (i + 1)) ∧
        0 < countWhile cC (L.drop (i + 1)) := by
  intro L
  induction L with
  | nil => intro ln r hr; simp [runScanAux] at hr
  | cons l rest ih =>
    intro ln r hr
    rw [runScanAux_cons] at hr
    simp only [List.mem_append] at hr
    rcases hr with hr | hr
    · by_cases hs : sC (trim (upper l))
      · rw [if_pos hs] at hr
        by_cases he : ln + countWhile cC rest > ln
        · rw [if_pos he] at hr
          simp only [List.mem_singleton] at hr
          refine ⟨0, ?_, ?_, ?_⟩ <;> subst hr <;> simp <;> omega
        · rw [if_neg he] at hr; simp at hr
      · rw [if_neg hs] at hr; simp at hr
    · obtain ⟨i, h1, h2, h3⟩ := ih (ln + 1) r hr
      exact ⟨i + 1, by omega, by simpa using h2, by simpa using h3⟩

theorem runScan_orders (sC cC : Line → Bool) (L : List Line) (ln : Nat)
    {r q : Nat × Nat} (hr : r ∈ runScanAux sC cC ln L)
    (hq : q ∈ runScanAux sC cC ln L) (hle : r.1 ≤ q.1) :
    nestedOrDisjoint r q := by
  obtain ⟨i, hi1, hi2, hi3⟩ := runScan_mem sC cC L ln r hr
  obtain ⟨j, hj1, hj2, hj3⟩ := runScan_mem sC cC L ln q hq
  have hij : i ≤ j := by omega
  by_cases hd : q.1 > r.2
  · exact Or.inl hd
  · rcases Nat.eq_or_lt_of_le hij with heq | hlt
    · subst heq
      right; right; left
      constructor
      · omega
      · omega
    · -- q starts strictly inside r's run: its run is the tail of r's run
      have hjle : j - i ≤ countWhile cC (L.drop (i + 1)) := by omega
      have hdrop : L.drop (j + 1) = (L.drop (i + 1)).drop (j - i) := by
        rw [List.drop_drop]
        congr 1
        omega
      have := countWhile_drop cC (L.drop (i + 1)) (j - i) hjle
      rw [hdrop, this] at hj2
      right; right; left
      constructor
      · omega
      · omega

theorem runScan_bounds (sC cC : Line → Bool) (L : List Line) (ln : Nat)
    {r : Nat × Nat} (hr : r ∈ runScanAux sC cC ln L) : r.1 < r.2 := by
  obtain ⟨i, hi1, hi2, hi3⟩ := runScan_mem sC cC L ln r hr
  omega

theorem runScan_mutual (sC cC : Line → Bool) (L : List Line) (ln : Nat)
    {r q : Nat × Nat} (hr : r ∈ runScanAux sC cC ln L)
    (hq : q ∈ runScanAux sC cC ln L) : nestedOrDisjoint r q := by
  rcases Nat.le_total r.1 q.1 with h | h
  · exact runScan_orders sC cC L ln hr hq h
  · have := runScan_orders sC cC L ln hq hr h
    rcases this with h1 | h1 | ⟨h1, h2⟩ | ⟨h1, h2⟩
    · exact Or.inr (Or.inl h1)
    · exact Or.inl h1
    · exact Or.inr (Or.inr (Or.inr ⟨h1, h2⟩))
    · exact Or.inr (Or.inr (Or.inl ⟨h1, h2⟩))

end Basica

namespace Basica

theorem stackStep_no_pop (bp : Bool) (ln : Nat) (stk : List Nat) :
    stackStep bp false ln stk = (if bp then ln :: stk else stk, []) := rfl

theorem stackStep_pop_push (ln : Nat) (stk : List Nat) :
    stackStep true true ln stk = (stk, []) := by
  simp [stackStep]

theorem stackStep_pop_nil (ln : Nat) : stackStep false true ln [] = ([], []) := rfl

theorem stackStep_pop_cons (ln x : Nat) (st2 : List Nat) (h : x < ln) :
    stackStep false true ln (x :: st2) = (st2, [(x, ln)]) := by
  simp [stackStep, h]

theorem stackScan_props (pushC popC : Line → Bool) :
    ∀ (rest : List Line) (ln : Nat) (stk : List Nat),
      (∀ x ∈ stk, x < ln) → List.Pairwise (· > ·) stk →
      (∀ r ∈ stackScanAux pushC popC ln rest stk,
          r.1 < r.2 ∧ ln ≤ r.2 ∧ (r.1 < ln → r.1 ∈ stk)) ∧
      List.Pairwise nestedOrDisjoint (stackScanAux pushC popC ln rest stk) := by
  intro rest
  induction rest with
  | nil => intro ln stk _ _; simp [stackScanAux]
  | cons l rest ih =>
    intro ln stk h1 h2
    rw [stackScanAux_cons]
    by_cases ht : (trim (upper l)).isEmpty
    · rw [if_pos ht]
      obtain ⟨ha, hp⟩ := ih (ln + 1) stk (fun x hx => by have := h1 x hx; omega) h2
      refine ⟨fun r hr => ?_, hp⟩
      obtain ⟨u1, u2, u3⟩ := ha r hr
      exact ⟨u1, by omega, fun hlt => u3 (by omega)⟩
    · rw [if_neg ht]
      by_cases hq : popC (trim (upper l)) = true
      · rw [hq]
        by_cases hbp : pushC (trim (upper l)) = true
        · rw [hbp, stackStep_pop_push]
          simp only [List.nil_append]
          obtain ⟨ha, hp⟩ := ih (ln + 1) stk (fun x hx => by have := h1 x hx; omega) h2
          refine ⟨fun r hr => ?_, hp⟩
          obtain ⟨u1, u2, u3⟩ := ha r hr
          exact ⟨u1, by omega, fun hlt => u3 (by omega)⟩
        · rw [Bool.not_eq_true] at hbp
          rw [hbp]
          match stk, h1, h2 with
          | [], h1, h2 =>
            rw [stackStep_pop_nil]
            simp only [List.nil_append]
            obtain ⟨ha, hp⟩ := ih (ln + 1) [] (by simp) (by simp)
            refine ⟨fun r hr => ?_, hp⟩
            obtain ⟨u1, u2, u3⟩ := ha r hr
            refine ⟨u1, by omega, fun hlt => ?_⟩
            exact absurd (u3 (by omega)) (by simp)
          | x :: st2, h1, h2 =>
            have hx : x < ln := h1 x (by simp)
            rw [stackStep_pop_cons ln x st2 hx]
            obtain ⟨hx2, h2'⟩ := List.pairwise_cons.mp h2
            have h1' : ∀ y ∈ st2, y < ln + 1 := fun y hy =>
              by have := h1 y (List.mem_cons_of_mem x hy); omega
            obtain ⟨ha, hp⟩ := ih (ln + 1) st2 h1' h2'
            simp only [List.singleton_append]
            constructor
            · intro r hr
              rcases List.mem_cons.mp hr with hr | hr
              · subst hr
                exact ⟨hx, Nat.le_refl ln, fun _ => List.mem_cons_self x st2⟩
              · obtain ⟨u1, u2, u3⟩ := ha r hr
                refine ⟨u1, by omega, fun hlt => ?_⟩
                exact List.mem_cons_of_mem x (u3 (by omega))
            · refine List.pairwise_cons.mpr ⟨fun r' hr' => ?_, hp⟩
              obtain ⟨u1, u2, u3⟩ := ha r' hr'
              by_cases hd : r'.1 > ln
              · exact Or.inl hd
              · have hmem : r'.1 ∈ st2 := u3 (by omega)
                have hlt : x > r'.1 := hx2 r'.1 hmem
                exact Or.inr (Or.inr (Or.inr ⟨by omega, by omega⟩))
      · rw [Bool.not_eq_true] at hq
        rw [hq, stackStep_no_pop]
        simp only [List.nil_append]
        by_cases hbp : pushC (trim (upper l)) = true
        · rw [hbp, if_pos rfl]
          have h1' : ∀ y ∈ ln :: stk, y < ln + 1 := by
            intro y hy
            rcases List.mem_cons.mp hy with hy | hy
            · omega
            · have := h1 y hy; omega
          have h2' : List.Pairwise (· > ·) (ln :: stk) :=
            List.pairwise_cons.mpr ⟨fun y hy => h1 y hy, h2⟩
          obtain ⟨ha, hp⟩ := ih (ln + 1) (ln :: stk) h1' h2'
          refine ⟨fun r hr => ?_, hp⟩
          obtain ⟨u1, u2, u3⟩ := ha r hr
          refine ⟨u1, by omega, fun hlt => ?_⟩
          rcases List.mem_cons.mp (u3 (by omega)) with he | he
          · omega
          · exact he
        · rw [Bool.not_eq_true] at hbp
          rw [hbp, if_neg (by simp)]
          obtain ⟨ha, hp⟩ := ih (ln + 1) stk (fun x hx => by have := h1 x hx; omega) h2
          refine ⟨fun r hr => ?_, hp⟩
          obtain ⟨u1, u2, u3⟩ := ha r hr
          exact ⟨u1, by omega, fun hlt => u3 (by omega)⟩

end Basica

namespace Basica

theorem subStep_tn_none (targets : List Nat) (ln : Nat) (t : Line)
    (hT : isGosubStartRow targets t = true)
    (hR : (containsSub (bytes "RETURN") t && !containsSub (bytes "GOSUB") t) = false) :
    subStep targets ln t none = (some ln, []) := by
  simp [subStep, hT, hR]

theorem subStep_tn_some (targets : List Nat) (ln s : Nat) (t : Line)
    (hT : isGosubStartRow targets t = true)
    (hR : (containsSub (bytes "RETURN") t && !containsSub (bytes "GOSUB") t) = false) :
    subStep targets ln t (some s) =
      (some ln, if ln > s + 1 then [(s, ln - 1)] else []) := by
  simp [subStep, hT, hR]

theorem subStep_nn (targets : List Nat) (ln : Nat) (t : Line) (sub : Option Nat)
    (hT : isGosubStartRow targets t = false)
    (hR : (containsSub (bytes "RETURN") t && !containsSub (bytes "GOSUB") t) = false) :
    subStep targets ln t sub = (sub, []) := by
  simp [subStep, hT, hR]

theorem subStep_tr_none (targets : List Nat) (ln : Nat) (t : Line)
    (hT : isGosubStartRow targets t = true)
    (hR : (containsSub (bytes "RETURN") t && !containsSub (bytes "GOSUB") t) = true) :
    subStep targets ln t none = (none, []) := by
  simp [subStep, hT, hR]

theorem subStep_tr_some (targets : List Nat) (ln s : Nat) (t : Line)
    (hT : isGosubStartRow targets t = true)
    (hR : (containsSub (bytes "RETURN") t && !containsSub (bytes "GOSUB") t) = true) :
    subStep targets ln t (some s) =
      (none, if ln > s + 1 then [(s, ln - 1)] else []) := by
  simp [subStep, hT, hR]

theorem subStep_nr_none (targets : List Nat) (ln : Nat) (t : Line)
    (hT : isGosubStartRow targets t = false)
    (hR : (containsSub (bytes "RETURN") t && !containsSub (bytes "GOSUB") t) = true) :
    subStep targets ln t none = (none, []) := by
  simp [subStep, hT, hR]

theorem subStep_nr_some (targets : List Nat) (ln s : Nat) (t : Line)
    (hT : isGosubStartRow targets t = false)
    (hR : (containsSub (bytes "RETURN") t && !containsSub (bytes "GOSUB") t) = true) :
    subStep targets ln t (some s) =
      (none, if ln > s then [(s, ln)] else []) := by
  simp [subStep, hT, hR]

end Basica

namespace Basica

theorem subScan_props (targets : List Nat) :
    ∀ (rest : List Line) (ln : Nat) (sub : Option Nat),
      (∀ s, sub = some s → s ≤ ln) →
      (∀ r ∈ subScanAux targets ln rest sub, lbOf sub ln ≤ r.1 ∧ r.1 < r.2) ∧
      List.Pairwise (fun a b => a.2 < b.1) (subScanAux targets ln rest sub) := by
  intro rest
  induction rest with
  | nil => intro ln sub _; simp [subScanAux]
  | cons l rest ih =>
    intro ln sub hs
    rw [subScanAux_cons]
    by_cases ht : (trim (upper l)).isEmpty
    · rw [if_pos ht]
      obtain ⟨ha, hp⟩ := ih (ln + 1) sub (fun s h => by have := hs s h; omega)
      refine ⟨fun r hr => ?_, hp⟩
      obtain ⟨u1, u2⟩ := ha r hr
      refine ⟨?_, u2⟩
      cases sub with
      | none => simp only [lbOf] at u1 ⊢; omega
      | some s => exact u1
    · rw [if_neg ht]
      by_cases hT : isGosubStartRow targets (trim (upper l)) = true
      · by_cases hR : (containsSub (bytes "RETURN") (trim (upper l))
            && !containsSub (bytes "GOSUB") (trim (upper l))) = true
        · -- target row which also returns: close region, clear state
          cases sub with
          | none =>
            rw [subStep_tr_none targets ln _ hT hR]
            simp only [List.nil_append]
            obtain ⟨ha, hp⟩ := ih (ln + 1) none (by simp)
            refine ⟨fun r hr => ?_, hp⟩
            obtain ⟨u1, u2⟩ := ha r hr
            simp only [lbOf] at u1 ⊢
            exact ⟨by omega, u2⟩
          | some s =>
            have hsl : s ≤ ln := hs s rfl
            rw [subStep_tr_some targets ln s _ hT hR]
            obtain ⟨ha, hp⟩ := ih (ln + 1) none (by simp)
            by_cases he : ln > s + 1
            · rw [if_pos he]
              simp only [List.singleton_append]
              constructor
              · intro r hr
                rcases List.mem_cons.mp hr with hr | hr
                · subst hr
                  simp only [lbOf]
                  exact ⟨Nat.le_refl s, by omega⟩
                · obtain ⟨u1, u2⟩ := ha r hr
                  simp only [lbOf] at u1 ⊢
                  exact ⟨by omega, u2⟩
              · refine List.pairwise_cons.mpr ⟨fun r' hr' => ?_, hp⟩
                obtain ⟨u1, _⟩ := (ha r' hr')
                simp only [lbOf] at u1
                omega
            · rw [if_neg he]
              simp only [List.nil_append]
              refine ⟨fun r hr => ?_, hp⟩
              obtain ⟨u1, u2⟩ := ha r hr
              simp only [lbOf] at u1 ⊢
              exact ⟨by omega, u2⟩
        · -- target row: close previous subroutine, open a new one here
          rw [Bool.not_eq_true] at hR
          cases sub with
          | none =>
            rw [subStep_tn_none targets ln _ hT hR]
            simp only [List.nil_append]
            obtain ⟨ha, hp⟩ := ih (ln + 1) (some ln) (fun s h => by
              injection h with h; omega)
            refine ⟨fun r hr => ?_, hp⟩
            obtain ⟨u1, u2⟩ := ha r hr
            simp only [lbOf] at u1 ⊢
            exact ⟨by omega, u2⟩
          | some s =>
            have hsl : s ≤ ln := hs s rfl
            rw [subStep_tn_some targets ln s _ hT hR]
            obtain ⟨ha, hp⟩ := ih (ln + 1) (some ln) (fun s h => by
              injection h with h; omega)
            by_cases he : ln > s + 1
            · rw [if_pos he]
              simp only [List.singleton_append]
              constructor
              · intro r hr
                rcases List.mem_cons.mp hr with hr | hr
                · subst hr
                  simp only [lbOf]
                  exact ⟨Nat.le_refl s, by omega⟩
                · obtain ⟨u1, u2⟩ := ha r hr
                  simp only [lbOf] at u1 ⊢
                  exact ⟨by omega, u2⟩
              · refine List.pairwise_cons.mpr ⟨fun r' hr' => ?_, hp⟩
                obtain ⟨u1, _⟩ := (ha r' hr')
                simp only [lbOf] at u1
                omega
            · rw [if_neg he]
              simp only [List.nil_append]
              refine ⟨fun r hr => ?_, hp⟩
              obtain ⟨u1, u2⟩ := ha r hr
              simp only [lbOf] at u1 ⊢
              exact ⟨by omega, u2⟩
      · rw [Bool.not_eq_true] at hT
        by_cases hR : (containsSub (bytes "RETURN") (trim (upper l))
            && !containsSub (bytes "GOSUB") (trim (upper l))) = true
        · -- RETURN row: close the open region if any, clear state
          cases sub with
          | none =>
            rw [subStep_nr_none targets ln _ hT hR]
            simp only [List.nil_append]
            obtain ⟨ha, hp⟩ := ih (ln + 1) none (by simp)
            refine ⟨fun r hr => ?_, hp⟩
            obtain ⟨u1, u2⟩ := ha r hr
            simp only [lbOf] at u1 ⊢
            exact ⟨by omega, u2⟩
          | some s =>
            have hsl : s ≤ ln := hs s rfl
            rw [subStep_nr_some targets ln s _ hT hR]
            obtain ⟨ha, hp⟩ := ih (ln + 1) none (by simp)
            by_cases he : ln > s
            · rw [if_pos he]
              simp only [List.singleton_append]
              constructor
              · intro r hr
                rcases List.mem_cons.mp hr with hr | hr
                · subst hr
                  simp only [lbOf]
                  exact ⟨Nat.le_refl s, by omega⟩
                · obtain ⟨u1, u2⟩ := ha r hr
                  simp only [lbOf] at u1 ⊢
                  exact ⟨by omega, u2⟩
              · refine List.pairwise_cons.mpr ⟨fun r' hr' => ?_, hp⟩
                obtain ⟨u1, _⟩ := (ha r' hr')
                simp only [lbOf] at u1
                omega
            · rw [if_neg he]
              simp only [List.nil_append]
              refine ⟨fun r hr => ?_, hp⟩
              obtain ⟨u1, u2⟩ := ha r hr
              simp only [lbOf] at u1 ⊢
              exact ⟨by omega, u2⟩
        · -- ordinary row: state and output unchanged
          rw [Bool.not_eq_true] at hR
          rw [subStep_nn targets ln _ sub hT hR]
          simp only [List.nil_append]
          obtain ⟨ha, hp⟩ := ih (ln + 1) sub (fun s h => by have := hs s h; omega)
          refine ⟨fun r hr => ?_, hp⟩
          obtain ⟨u1, u2⟩ := ha r hr
          refine ⟨?_, u2⟩
          cases sub with
          | none => simp only [lbOf] at u1 ⊢; omega
          | some s => exact u1

end Basica

namespace Basica

theorem tagRegions_append (tg : FoldTag) (a b : List (Nat × Nat)) :
    tagRegions tg (a ++ b) = tagRegions tg a ++ tagRegions tg b := by
  simp [tagRegions]

theorem filter_tagRegions (tg tg' : FoldTag) (rs : List (Nat × Nat)) :
    (tagRegions tg rs).filter (fun x => decide (x.tag = tg')) =
      if tg = tg' then tagRegions tg rs else [] := by
  by_cases h : tg = tg'
  · subst h; rw [if_pos rfl]; exact filter_tagRegions_self tg rs
  · rw [if_neg h]; exact filter_tagRegions_ne tg tg' h rs

theorem gfr_proj_forL (targets : List Nat) :
    ∀ (rest : List Line) (ln : Nat) (st : FoldState),
      (gfrAux targets ln rest st).filter (fun x => decide (x.tag = FoldTag.forL))
        = tagRegions .forL (stackScanAux forPush forPop ln rest st.forS) := by
  intro rest
  induction rest with
  | nil => intro ln st; simp [gfrAux, stackScanAux, tagRegions]
  | cons l rest ih =>
    intro ln st
    rw [gfrAux_cons, stackScanAux_cons]
    by_cases ht : (trim (upper l)).isEmpty
    · rw [if_pos ht, if_pos ht]
      exact ih (ln + 1) st
    · rw [if_neg ht, if_neg ht]
      simp only [List.filter_append, filter_tagRegions, reduceCtorEq, reduceIte,
        ite_false, tagRegions_append, List.nil_append, List.append_nil]
      rw [ih]

end Basica

namespace Basica

theorem gfr_proj_whileL (targets : List Nat) :
    ∀ (rest : List Line) (ln : Nat) (st : FoldState),
      (gfrAux targets ln rest st).filter (fun x => decide (x.tag = FoldTag.whileL))
        = tagRegions .whileL (stackScanAux whilePush whilePop ln rest st.whileS) := by
  intro rest
  induction rest with
  | nil => intro ln st; simp [gfrAux, stackScanAux, tagRegions]
  | cons l rest ih =>
    intro ln st
    rw [gfrAux_cons, stackScanAux_cons]
    by_cases ht : (trim (upper l)).isEmpty
    · rw [if_pos ht, if_pos ht]
      exact ih (ln + 1) st
    · rw [if_neg ht, if_neg ht]
      simp only [List.filter_append, filter_tagRegions, reduceCtorEq, reduceIte,
        ite_false, tagRegions_append, List.nil_append, List.append_nil]
      rw [ih]

theorem gfr_proj_doL (targets : List Nat) :
    ∀ (rest : List Line) (ln : Nat) (st : FoldState),
      (gfrAux targets ln rest st).filter (fun x => decide (x.tag = FoldTag.doL))
        = tagRegions .doL (stackScanAux doPush doPop ln rest st.doS) := by
  intro rest
  induction rest with
  | nil => intro ln st; simp [gfrAux, stackScanAux, tagRegions]
  | cons l rest ih =>
    intro ln st
    rw [gfrAux_cons, stackScanAux_cons]
    by_cases ht : (trim (upper l)).isEmpty
    · rw [if_pos ht, if_pos ht]
      exact ih (ln + 1) st
    · rw [if_neg ht, if_neg ht]
      simp only [List.filter_append, filter_tagRegions, reduceCtorEq, reduceIte,
        ite_false, tagRegions_append, List.nil_append, List.append_nil]
      rw [ih]

theorem gfr_proj_selectL (targets : List Nat) :
    ∀ (rest : List Line) (ln : Nat) (st : FoldState),
      (gfrAux targets ln rest st).filter (fun x => decide (x.tag = FoldTag.selectL))
        = tagRegions .selectL (stackScanAux selectPush selectPop ln rest st.selectS) := by
  intro rest
  induction rest with
  | nil => intro ln st; simp [gfrAux, stackScanAux, tagRegions]
  | cons l rest ih =>
    intro ln st
    rw [gfrAux_cons, stackScanAux_cons]
    by_cases ht : (trim (upper l)).isEmpty
    · rw [if_pos ht, if_pos ht]
      exact ih (ln + 1) st
    · rw [if_neg ht, if_neg ht]
      simp only [List.filter_append, filter_tagRegions, reduceCtorEq, reduceIte,
        ite_false, tagRegions_append, List.nil_append, List.append_nil]
      rw [ih]

theorem gfr_proj_ifL (targets : List Nat) :
    ∀ (rest : List Line) (ln : Nat) (st : FoldState),
      (gfrAux targets ln rest st).filter (fun x => decide (x.tag = FoldTag.ifL))
        = tagRegions .ifL (stackScanAux ifPush ifPop ln rest st.ifS) := by
  intro rest
  induction rest with
  | nil => intro ln st; simp [gfrAux, stackScanAux, tagRegions]
  | cons l rest ih =>
    intro ln st
    rw [gfrAux_cons, stackScanAux_cons]
    by_cases ht : (trim (upper l)).isEmpty
    · rw [if_pos ht, if_pos ht]
      exact ih (ln + 1) st
    · rw [if_neg ht, if_neg ht]
      simp only [List.filter_append, filter_tagRegions, reduceCtorEq, reduceIte,
        ite_false, tagRegions_append, List.nil_append, List.append_nil]
      rw [ih]

theorem gfr_proj_subr (targets : List Nat) :
    ∀ (rest : List Line) (ln : Nat) (st : FoldState),
      (gfrAux targets ln rest st).filter (fun x => decide (x.tag = FoldTag.sub))
        = tagRegions .sub (subScanAux targets ln rest st.subStart) := by
  intro rest
  induction rest with
  | nil => intro ln st; simp [gfrAux, subScanAux, tagRegions]
  | cons l rest ih =>
    intro ln st
    rw [gfrAux_cons, subScanAux_cons]
    by_cases ht : (trim (upper l)).isEmpty
    · rw [if_pos ht, if_pos ht]
      exact ih (ln + 1) st
    · rw [if_neg ht, if_neg ht]
      simp only [List.filter_append, filter_tagRegions, reduceCtorEq, reduceIte,
        ite_false, tagRegions_append, List.nil_append, List.append_nil]
      rw [ih]

theorem gfr_proj_comment (targets : List Nat) :
    ∀ (rest : List Line) (ln : Nat) (st : FoldState),
      (gfrAux targets ln rest st).filter (fun x => decide (x.tag = FoldTag.comment))
        = tagRegions .comment (runScanAux commentStartRow isCommentContRow ln rest) := by
  intro rest
  induction rest with
  | nil => intro ln st; simp [gfrAux, runScanAux, tagRegions]
  | cons l rest ih =>
    intro ln st
    rw [gfrAux_cons, runScanAux_cons]
    by_cases ht : (trim (upper l)).isEmpty
    · rw [if_pos ht]
      have h0 : trim (upper l) = [] := List.isEmpty_iff.mp ht
      rw [h0, if_neg (by decide : ¬ commentStartRow [] = true), List.nil_append]
      exact ih (ln + 1) st
    · rw [if_neg ht]
      simp only [List.filter_append, filter_tagRegions, reduceCtorEq, reduceIte,
        ite_false, tagRegions_append, List.nil_append, List.append_nil]
      rw [ih]

theorem gfr_proj_data (targets : List Nat) :
    ∀ (rest : List Line) (ln : Nat) (st : FoldState),
      (gfrAux targets ln rest st).filter (fun x => decide (x.tag = FoldTag.data))
        = tagRegions .data (runScanAux dataStartRow isDataContRow ln rest) := by
  intro rest
  induction rest with
  | nil => intro ln st; simp [gfrAux, runScanAux, tagRegions]
  | cons l rest ih =>
    intro ln st
    rw [gfrAux_cons, runScanAux_cons]
    by_cases ht : (trim (upper l)).isEmpty
    · rw [if_pos ht]
      have h0 : trim (upper l) = [] := List.isEmpty_iff.mp ht
      rw [h0, if_neg (by decide : ¬ dataStartRow [] = true), List.nil_append]
      exact ih (ln + 1) st
    · rw [if_neg ht]
      simp only [List.filter_append, filter_tagRegions, reduceCtorEq, reduceIte,
        ite_false, tagRegions_append, List.nil_append, List.append_nil]
      rw [ih]

end Basica

namespace Basica

theorem nestedOrDisjoint_refl (p : Nat × Nat) : nestedOrDisjoint p p :=
  Or.inr (Or.inr (Or.inl ⟨Nat.le_refl _, Nat.le_refl _⟩))

theorem nestedOrDisjoint_symm : ∀ {a b : Nat × Nat},
    nestedOrDisjoint a b → nestedOrDisjoint b a := by
  intro a b h
  rcases h with h | h | ⟨h1, h2⟩ | ⟨h1, h2⟩
  · exact Or.inr (Or.inl h)
  · exact Or.inl h
  · exact Or.inr (Or.inr (Or.inr ⟨h1, h2⟩))
  · exact Or.inr (Or.inr (Or.inl ⟨h1, h2⟩))

theorem scanOf_bounds (src : Doc) (t : FoldTag) :
    ∀ p ∈ scanOf src t, p.1 < p.2 := by
  cases t with
  | sub =>
    intro p hp
    exact ((subScan_props (find_gosub_targets src) src 0 none (by simp)).1 p hp).2
  | forL =>
    intro p hp
    exact (((stackScan_props forPush forPop src 0 [] (by simp) (by simp)).1 p hp)).1
  | whileL =>
    intro p hp
    exact (((stackScan_props whilePush whilePop src 0 [] (by simp) (by simp)).1 p hp)).1
  | doL =>
    intro p hp
    exact (((stackScan_props doPush doPop src 0 [] (by simp) (by simp)).1 p hp)).1
  | selectL =>
    intro p hp
    exact (((stackScan_props selectPush selectPop src 0 [] (by simp) (by simp)).1 p hp)).1
  | ifL =>
    intro p hp
    exact (((stackScan_props ifPush ifPop src 0 [] (by simp) (by simp)).1 p hp)).1
  | comment =>
    intro p hp
    exact runScan_bounds commentStartRow isCommentContRow src 0 hp
  | data =>
    intro p hp
    exact runScan_bounds dataStartRow isDataContRow src 0 hp

theorem pairwise_mutual {l : List (Nat × Nat)}
    (h : List.Pairwise nestedOrDisjoint l) :
    ∀ p ∈ l, ∀ q ∈ l, nestedOrDisjoint p q := by
  intro p hp q hq
  by_cases hpq : p = q
  · subst hpq; exact nestedOrDisjoint_refl p
  · exact h.forall (fun a b hab => nestedOrDisjoint_symm hab) hp hq hpq

theorem scanOf_mutual (src : Doc) (t : FoldTag) :
    ∀ p ∈ scanOf src t, ∀ q ∈ scanOf src t, nestedOrDisjoint p q := by
  cases t with
  | sub =>
    exact pairwise_mutual
      (((subScan_props (find_gosub_targets src) src 0 none (by simp)).2).imp
        (fun h => Or.inl h))
  | forL =>
    exact pairwise_mutual
      (stackScan_props forPush forPop src 0 [] (by simp) (by simp)).2
  | whileL =>
    exact pairwise_mutual
      (stackScan_props whilePush whilePop src 0 [] (by simp) (by simp)).2
  | doL =>
    exact pairwise_mutual
      (stackScan_props doPush doPop src 0 [] (by simp) (by simp)).2
  | selectL =>
    exact pairwise_mutual
      (stackScan_props selectPush selectPop src 0 [] (by simp) (by simp)).2
  | ifL =>
    exact pairwise_mutual
      (stackScan_props ifPush ifPop src 0 [] (by simp) (by simp)).2
  | comment =>
    intro p hp q hq
    exact runScan_mutual commentStartRow isCommentContRow src 0 hp hq
  | data =>
    intro p hp q hq
    exact runScan_mutual dataStartRow isDataContRow src 0 hp hq

theorem tagged_proj (src : Doc) (r : TaggedRange)
    (hr : r ∈ get_folding_ranges_tagged src) :
    r ∈ tagRegions r.tag (scanOf src r.tag) := by
  cases h : r.tag with
  | sub =>
    have hm : r ∈ (gfrAux (find_gosub_targets src) 0 src FoldState.init).filter
        (fun x => decide (x.tag = FoldTag.sub)) :=
      List.mem_filter.mpr ⟨hr, by rw [h]; exact decide_eq_true rfl⟩
    rw [gfr_proj_subr] at hm
    exact hm
  | forL =>
    have hm : r ∈ (gfrAux (find_gosub_targets src) 0 src FoldState.init).filter
        (fun x => decide (x.tag = FoldTag.forL)) :=
      List.mem_filter.mpr ⟨hr, by rw [h]; exact decide_eq_true rfl⟩
    rw [gfr_proj_forL] at hm
    exact hm
  | whileL =>
    have hm : r ∈ (gfrAux (find_gosub_targets src) 0 src FoldState.init).filter
        (fun x => decide (x.tag = FoldTag.whileL)) :=
      List.mem_filter.mpr ⟨hr, by rw [h]; exact decide_eq_true rfl⟩
    rw [gfr_proj_whileL] at hm
    exact hm
  | doL =>
    have hm : r ∈ (gfrAux (find_gosub_targets src) 0 src FoldState.init).filter
        (fun x => decide (x.tag = FoldTag.doL)) :=
      List.mem_filter.mpr ⟨hr, by rw [h]; exact decide_eq_true rfl⟩
    rw [gfr_proj_doL] at hm
    exact hm
  | selectL =>
    have hm : r ∈ (gfrAux (find_gosub_targets src) 0 src FoldState.init).filter
        (fun x => decide (x.tag = FoldTag.selectL)) :=
      List.mem_filter.mpr ⟨hr, by rw [h]; exact decide_eq_true rfl⟩
    rw [gfr_proj_selectL] at hm
    exact hm
  | ifL =>
    have hm : r ∈ (gfrAux (find_gosub_targets src) 0 src FoldState.init).filter
        (fun x => decide (x.tag = FoldTag.ifL)) :=
      List.mem_filter.mpr ⟨hr, by rw [h]; exact decide_eq_true rfl⟩
    rw [gfr_proj_ifL] at hm
    exact hm
  | comment =>
    have hm : r ∈ (gfrAux (find_gosub_targets src) 0 src FoldState.init).filter
        (fun x => decide (x.tag = FoldTag.comment)) :=
      List.mem_filter.mpr ⟨hr, by rw [h]; exact decide_eq_true rfl⟩
    rw [gfr_proj_comment] at hm
    exact hm
  | data =>
    have hm : r ∈ (gfrAux (find_gosub_targets src) 0 src FoldState.init).filter
        (fun x => decide (x.tag = FoldTag.data)) :=
      List.mem_filter.mpr ⟨hr, by rw [h]; exact decide_eq_true rfl⟩
    rw [gfr_proj_data] at hm
    exact hm

theorem tagged_bounds (src : Doc) (r : TaggedRange)
    (hr : r ∈ get_folding_ranges_tagged src) : r.startLine < r.endLine := by
  have hm := tagged_proj src r hr
  obtain ⟨p, hp, hpr⟩ := List.mem_map.mp hm
  have h1 : r.startLine = p.1 := by rw [← hpr]
  have h2 : r.endLine = p.2 := by rw [← hpr]
  rw [h1, h2]
  exact scanOf_bounds src r.tag p hp

end Basica

namespace Basica

/-- C8: every folding range `get_folding_ranges` emits has `endLine >
startLine`, and any two emitted regions produced by the same construct
tracker (FOR, WHILE, DO, SELECT, multi-line IF, comment block, DATA block,
subroutine) are nested or disjoint, never partially overlapping. -/
theorem C8_folding_regions_wellformed (src : Doc) :
    (∀ fr ∈ get_folding_ranges src, fr.startLine < fr.endLine) ∧
    (∀ r1 ∈ get_folding_ranges_tagged src, ∀ r2 ∈ get_folding_ranges_tagged src,
      sameTagOk r1 r2) := by
  constructor
  · intro fr hfr
    obtain ⟨r, hr, hre⟩ := List.mem_map.mp hfr
    have h1 : fr.startLine = r.startLine := by rw [← hre]; rfl
    have h2 : fr.endLine = r.endLine := by rw [← hre]; rfl
    rw [h1, h2]
    exact tagged_bounds src r hr
  · intro r1 h1 r2 h2 htag
    have hm1 := tagged_proj src r1 h1
    have hm2 := tagged_proj src r2 h2
    rw [← htag] at hm2
    obtain ⟨p1, hp1, he1⟩ := List.mem_map.mp hm1
    obtain ⟨p2, hp2, he2⟩ := List.mem_map.mp hm2
    have e1s : r1.startLine = p1.1 := by rw [← he1]
    have e1e : r1.endLine = p1.2 := by rw [← he1]
    have e2s : r2.startLine = p2.1 := by rw [← he2]
    have e2e : r2.endLine = p2.2 := by rw [← he2]
    rw [e1s, e1e, e2s, e2e]
    exact scanOf_mutual src r1.tag p1 hp1 p2 hp2

/-- C8 witness: on a three-row FOR loop the folding operation emits the
region rows 0-2 satisfying both clauses. -/
theorem C8_witness :
    (FoldingRange.mk 0 2 .region ∈
      get_folding_ranges
        [bytes "10 FOR I = 1 TO 3", bytes "20 PRINT I", bytes "30 NEXT I"]) ∧
    (FoldingRange.mk 0 2 FoldKind.region).startLine
      < (FoldingRange.mk 0 2 FoldKind.region).endLine ∧
    sameTagOk ⟨0, 2, .forL⟩ ⟨0, 2, .forL⟩ :=
  ⟨by decide,
   (C8_folding_regions_wellformed
      [bytes "10 FOR I = 1 TO 3", bytes "20 PRINT I", bytes "30 NEXT I"]).1
     (FoldingRange.mk 0 2 .region) (by decide),
   (C8_folding_regions_wellformed
      [bytes "10 FOR I = 1 TO 3", bytes "20 PRINT I", bytes "30 NEXT I"]).2
     ⟨0, 2, .forL⟩ (by decide) ⟨0, 2, .forL⟩ (by decide)⟩

end Basica

namespace Basica

theorem findSub_none_all {pat : Line} :
    ∀ {l : Line}, findSub pat l = none → ∀ j, startsWith pat (l.drop j) = false := by
  intro l
  induction l with
  | nil =>
    intro h j
    rw [findSub] at h
    by_cases hp : pat.length == 0
    · rw [if_pos hp] at h; exact absurd h (by simp)
    · simp only [List.drop_nil, startsWith]
      rcases pat with _ | ⟨b, t⟩
      · simp at hp
      · simp
  | cons b t ih =>
    intro h j
    rw [findSub] at h
    by_cases hs : startsWith pat (b :: t) = true
    · rw [if_pos hs] at h; exact absurd h (by simp)
    · rw [if_neg hs] at h
      cases j with
      | zero => simpa using Bool.not_eq_true _ |>.mp hs
      | succ j' =>
        have ht : findSub pat t = none := by
          rcases hf : findSub pat t with _ | v
          · rfl
          · rw [hf] at h; simp at h
        simpa using ih ht j'

theorem findSub_min {pat : Line} :
    ∀ {l : Line} {i : Nat}, findSub pat l = some i →
      ∀ j < i, startsWith pat (l.drop j) = false := by
  intro l
  induction l with
  | nil =>
    intro i h j hj
    rw [findSub] at h
    split at h
    · injection h with h; omega
    · exact absurd h (by simp)
  | cons b t ih =>
    intro i h j hj
    rw [findSub] at h
    by_cases hs : startsWith pat (b :: t) = true
    · rw [if_pos hs] at h
      injection h with h
      omega
    · rw [if_neg hs] at h
      rcases hf : findSub pat t with _ | v
      · rw [hf] at h; simp at h
      · rw [hf] at h
        simp only [Option.map_some'] at h
        injection h with h
        cases j with
        | zero => exact eq_false_of_ne_true hs
        | succ j' =>
          have : j' < v := by omega
          simpa using ih hf j' this

theorem startsWith_false_of_short {pat l : Line} (hp : pat ≠ [])
    (h : l.length < pat.length) : startsWith pat l = false := by
  rw [startsWith]
  by_cases he : l.take pat.length == pat
  · exfalso
    have := List.length_take pat.length l ▸ congrArg List.length (eq_of_beq he)
    simp only [List.length_take] at this
    omega
  · simpa using he

theorem startsWith_get_eq {pat l : Line} (h : startsWith pat l = true) :
    ∀ k < pat.length, l.get? k = pat.get? k := by
  intro k hk
  have he : l.take pat.length = pat := eq_of_beq h
  have : (l.take pat.length).get? k = pat.get? k := by rw [he]
  rwa [List.get?_take hk] at this

theorem startsWith_of_take {pat l : Line} {m : Nat}
    (h : startsWith pat (l.take m) = true) : startsWith pat l = true := by
  have he : (l.take m).take pat.length = pat := eq_of_beq h
  have hlen : pat.length ≤ m := by
    have := congrArg List.length he
    simp only [List.length_take] at this
    omega
  rw [startsWith]
  rw [List.take_take] at he
  rw [min_eq_left hlen] at he
  rw [he]
  exact beq_self_eq_true pat

theorem startsWith_length_le {pat l : Line} (h : startsWith pat l = true) :
    pat.length ≤ l.length := by
  have he : l.take pat.length = pat := eq_of_beq h
  have := congrArg List.length he
  simp only [List.length_take] at this
  omega

theorem containsSub_false_all {pat l : Line} (h : containsSub pat l = false) :
    ∀ j, startsWith pat (l.drop j) = false := by
  rw [containsSub] at h
  rcases hf : findSub pat l with _ | v
  · exact findSub_none_all hf
  · rw [hf] at h; simp at h

end Basica

namespace Basica

theorem hadDollar_eq (base up : Line) (q : Nat) :
    decide (occEnd base up q > q + base.length) = occDollar base up q := by
  by_cases h : occDollar base up q = true
  · simp [occEnd, h]
  · rw [Bool.not_eq_true] at h
    simp [occEnd, h]

theorem renameScanAux_succ (base nn : Line) (li : Nat) (up : Line)
    (fuel searchStart : Nat) :
    renameScanAux base nn li up (fuel + 1) searchStart =
      (if searchStart > up.length then none
       else
         match findSub base (up.drop searchStart) with
         | none => some []
         | some pos =>
           match renameScanAux base nn li up fuel (searchStart + pos + 1) with
           | none => none
           | some rest =>
             some ((if beforeOkAt up (searchStart + pos)
                      && afterOkAt up (searchStart + pos + base.length) then
                     [⟨⟨li, searchStart + pos, li, occEnd base up (searchStart + pos)⟩,
                       renameReplacement nn
                         (decide (occEnd base up (searchStart + pos) >
                           searchStart + pos + base.length))⟩]
                    else []) ++ rest)) := rfl

theorem renameScanAux_exact (base nn : Line) (li : Nat) (up : Line)
    (hbase : base ≠ []) :
    ∀ (fuel searchStart : Nat), searchStart ≤ up.length →
      up.length + 1 ≤ fuel + searchStart →
      renameScanAux base nn li up fuel searchStart =
        some (((List.range' searchStart (up.length + 1 - searchStart)).filter
          (isOcc base up)).map (mkRenameEdit base nn li up)) := by
  intro fuel
  induction fuel with
  | zero => intro searchStart h1 h2; omega
  | succ fuel ih =>
    intro searchStart h1 h2
    rw [renameScanAux_succ, if_neg (by omega)]
    have hbl : 1 ≤ base.length := by
      rcases base with _ | _
      · simp at hbase
      · simp
    rcases hf : findSub base (up.drop searchStart) with _ | pos
    · have hfil : (List.range' searchStart (up.length + 1 - searchStart)).filter
          (isOcc base up) = [] := by
        rw [List.filter_eq_nil]
        intro q hq
        obtain ⟨i, hi, rfl⟩ := List.mem_range'.mp hq
        simp only [Nat.one_mul]
        have hsw := findSub_none_all hf i
        rw [List.drop_drop] at hsw
        simp [isOcc, hsw]
      rw [hfil]
      rfl
    · show (match renameScanAux base nn li up fuel (searchStart + pos + 1) with
          | none => none
          | some rest =>
            some ((if beforeOkAt up (searchStart + pos)
                     && afterOkAt up (searchStart + pos + base.length) then
                    [(⟨⟨li, searchStart + pos, li, occEnd base up (searchStart + pos)⟩,
                      renameReplacement nn
                        (decide (occEnd base up (searchStart + pos) >
                          searchStart + pos + base.length))⟩ : TextEdit)]
                   else []) ++ rest)) = _
      have hsw0 := findSub_startsWith hf
      have hsw : startsWith base (up.drop (searchStart + pos)) = true := by
        rw [List.drop_drop] at hsw0
        exact hsw0
      have hle := findSub_le hf
      rw [List.length_drop] at hle
      have h1' : searchStart + pos + 1 ≤ up.length := by omega
      have hrec := ih (searchStart + pos + 1) h1' (by omega)
      rw [hrec]
      show some ((if beforeOkAt up (searchStart + pos)
              && afterOkAt up (searchStart + pos + base.length) then
             [(⟨⟨li, searchStart + pos, li, occEnd base up (searchStart + pos)⟩,
               renameReplacement nn
                 (decide (occEnd base up (searchStart + pos) >
                   searchStart + pos + base.length))⟩ : TextEdit)]
            else []) ++
            ((List.range' (searchStart + pos + 1)
                (up.length + 1 - (searchStart + pos + 1))).filter
              (isOcc base up)).map (mkRenameEdit base nn li up)) = _
      have hsplit : List.range' searchStart (up.length + 1 - searchStart) =
          List.range' searchStart pos ++
            List.range' (searchStart + pos) (up.length + 1 - searchStart - pos) := by
        have hra := List.range'_append searchStart pos
          (up.length + 1 - searchStart - pos) 1
        simp only [Nat.one_mul] at hra
        rw [hra]
        congr 1
        omega
      rw [hsplit, List.filter_append]
      have hfil1 : (List.range' searchStart pos).filter (isOcc base up) = [] := by
        rw [List.filter_eq_nil]
        intro q hq
        obtain ⟨i, hi, rfl⟩ := List.mem_range'.mp hq
        simp only [Nat.one_mul]
        have hsw1 := findSub_min hf i hi
        rw [List.drop_drop] at hsw1
        simp [isOcc, hsw1]
      rw [hfil1, List.nil_append]
      have hn : up.length + 1 - searchStart - pos =
          (up.length + 1 - (searchStart + pos + 1)) + 1 := by omega
      rw [hn, List.range'_succ, List.filter_cons]
      rw [hadDollar_eq]
      by_cases hba : (beforeOkAt up (searchStart + pos)
          && afterOkAt up (searchStart + pos + base.length)) = true
      · rw [if_pos hba]
        have hocc : isOcc base up (searchStart + pos) = true := by
          simp only [isOcc, hsw, Bool.true_and]
          exact hba
        rw [if_pos (by rw [hocc])]
        rw [List.map_cons]
        rfl
      · rw [Bool.not_eq_true] at hba
        rw [if_neg (by simp [hba])]
        have hocc : isOcc base up (searchStart + pos) = false := by
          simp only [isOcc, hsw, Bool.true_and]
          exact hba
        rw [if_neg (by rw [hocc]; exact Bool.false_ne_true)]
        rfl

theorem renameLineEdits_exact (base nn : Line) (li : Nat) (l : Line)
    (hbase : base ≠ []) :
    renameLineEdits base nn li l = some (occEdits base nn li (upper l)) := by
  rw [renameLineEdits]
  have := renameScanAux_exact base nn li (upper l) hbase ((upper l).length + 2) 0
    (by omega) (by omega)
  rw [this]
  rw [occEdits, occList, List.range_eq_range']
  rfl

end Basica

namespace Basica

theorem rename_fold_exact (base nn : Line) (hbase : base ≠ []) :
    ∀ (es : List (Nat × Line)) (acc : List TextEdit),
      es.foldl (fun acc il =>
        match acc, renameLineEdits base nn il.1 il.2 with
        | some es, some es' => some (es ++ es')
        | _, _ => none) (some acc)
      = some (acc ++ es.flatMap (fun il => occEdits base nn il.1 (upper il.2))) := by
  intro es
  induction es with
  | nil => intro acc; simp
  | cons il rest ih =>
    intro acc
    rw [List.foldl_cons]
    rw [show (match some acc, renameLineEdits base nn il.1 il.2 with
        | some es, some es' => some (es ++ es')
        | _, _ => none) =
        some (acc ++ occEdits base nn il.1 (upper il.2)) by
      rw [renameLineEdits_exact base nn il.1 il.2 hbase]]
    rw [ih]
    simp

theorem occEdits_startLine (base nn : Line) (li : Nat) (up : Line) :
    ∀ ed ∈ occEdits base nn li up, ed.range.startLine = li := by
  intro ed hed
  obtain ⟨q, _, rfl⟩ := List.mem_map.mp hed
  rfl

theorem enumFrom_filter_line (base nn : Line) (li : Nat) :
    ∀ (src : Doc) (k : Nat),
      ((List.enumFrom k src).flatMap
        (fun il => occEdits base nn il.1 (upper il.2))).filter
          (fun e => e.range.startLine == li)
      = (if k ≤ li then
          (match src.get? (li - k) with
           | some l => occEdits base nn li (upper l)
           | none => [])
         else []) := by
  intro src
  induction src with
  | nil =>
    intro k
    simp only [List.enumFrom, List.flatMap_nil, List.filter_nil]
    split
    · rfl
    · rfl
  | cons l rest ih =>
    intro k
    rw [show List.enumFrom k (l :: rest) = (k, l) :: List.enumFrom (k + 1) rest from rfl]
    rw [List.flatMap_cons, List.filter_append, ih (k + 1)]
    by_cases hk : k = li
    · subst hk
      have hself : (occEdits base nn k (upper l)).filter
          (fun e => e.range.startLine == k) = occEdits base nn k (upper l) := by
        rw [List.filter_eq_self]
        intro ed hed
        rw [occEdits_startLine base nn k (upper l) ed hed]
        exact beq_self_eq_true k
      rw [hself, if_neg (by omega), if_pos (by omega)]
      rw [show k - k = 0 from by omega]
      simp
    · have hnil : (occEdits base nn k (upper l)).filter
          (fun e => e.range.startLine == li) = [] := by
        rw [List.filter_eq_nil]
        intro ed hed
        rw [occEdits_startLine base nn k (upper l) ed hed]
        simp
        omega
      rw [hnil, List.nil_append]
      by_cases hk2 : k ≤ li
      · rw [if_pos (by omega), if_pos hk2]
        have : li - k = (li - (k + 1)) + 1 := by omega
        rw [this]
        rfl
      · rw [if_neg (by omega), if_neg hk2]

theorem docOccEdits_filter (base nn : Line) (src : Doc) (li : Nat) :
    (docOccEdits base nn src).filter (fun e => e.range.startLine == li)
      = (match src.get? li with
         | some l => occEdits base nn li (upper l)
         | none => []) := by
  rw [docOccEdits]
  rw [show src.enum = List.enumFrom 0 src from rfl]
  rw [enumFrom_filter_line base nn li src 0, if_pos (by omega)]
  rfl

theorem applyDocEdits_docOccEdits (base nn : Line) (src : Doc) :
    applyDocEdits src (docOccEdits base nn src) =
      src.map (fun l => applyLineEditsAux l 0 (occTriples base nn (upper l))) := by
  rw [applyDocEdits]
  have hmap : ∀ il ∈ src.enum,
      applyLineEditsAux il.2 0
        (((docOccEdits base nn src).filter
          (fun e => e.range.startLine == il.1)).map
            (fun e => (e.range.startChar, e.range.endChar, e.newText)))
      = applyLineEditsAux il.2 0 (occTriples base nn (upper il.2)) := by
    intro il hil
    have hget : src.get? il.1 = some il.2 := by
      rw [List.mem_enum_iff_get?] at hil
      exact hil
    rw [docOccEdits_filter base nn src il.1, hget]
    congr 1
    show (occEdits base nn il.1 (upper il.2)).map
        (fun e => (e.range.startChar, e.range.endChar, e.newText))
      = occTriples base nn (upper il.2)
    rw [occEdits, occTriples, List.map_map]
    rfl
  rw [List.map_congr_left hmap]
  have : (fun il : Nat × Line =>
      applyLineEditsAux il.2 0 (occTriples base nn (upper il.2)))
      = (fun l => applyLineEditsAux l 0 (occTriples base nn (upper l))) ∘ Prod.snd := rfl
  rw [this, ← List.map_map]
  rw [show List.map Prod.snd src.enum = src from List.enum_map_snd src]

end Basica

namespace Basica

theorem rename_symbol_exact (src : Doc) (p : Pos) (nn : Line)
    (lc : Line) (s0 e0 : Nat) (w : Line)
    (hl : src.get? p.line = some lc)
    (hw : get_word_at_position lc p.character = some (s0, e0, w))
    (hnum : (parseU32 w).isSome = false)
    (hkw : rename_is_keyword (upper w) = false)
    (hbase : renameBase w ≠ [])
    (hne : docOccEdits (renameBase w) nn src ≠ []) :
    rename_symbol src p nn = .ok (some (docOccEdits (renameBase w) nn src)) := by
  rw [rename_symbol]
  simp only [hl, hw]
  show (if (parseU32 w).isSome || rename_is_keyword (upper w) then
          Except.ok none
        else _) = _
  rw [hnum, hkw]
  rw [if_neg (by simp)]
  show (match (src.enum).foldl (fun acc il =>
      match acc, renameLineEdits (renameBase w) nn il.1 il.2 with
      | some es, some es' => some (es ++ es')
      | _, _ => none) (some []) with
    | none => Except.error ()
    | some es => if es.isEmpty then Except.ok none else Except.ok (some es)) = _
  rw [rename_fold_exact (renameBase w) nn hbase src.enum []]
  show (if (docOccEdits (renameBase w) nn src).isEmpty then Except.ok none
        else Except.ok (some (docOccEdits (renameBase w) nn src))) = _
  rw [if_neg (by
    intro h
    exact hne (List.isEmpty_iff.mp h))]

end Basica

namespace Basica

theorem isOcc_startsWith {base up : Line} {q : Nat} (h : isOcc base up q = true) :
    startsWith base (up.drop q) = true := by
  simp only [isOcc, Bool.and_eq_true] at h
  exact h.1.1

theorem isOcc_beforeOk {base up : Line} {q : Nat} (h : isOcc base up q = true) :
    beforeOkAt up q = true := by
  simp only [isOcc, Bool.and_eq_true] at h
  exact h.1.2

theorem isOcc_afterOk {base up : Line} {q : Nat} (h : isOcc base up q = true) :
    afterOkAt up (q + base.length) = true := by
  simp only [isOcc, Bool.and_eq_true] at h
  exact h.2

theorem beforeOkAt_byte {up : Line} {q : Nat} (h : beforeOkAt up q = true)
    (hq : q ≠ 0) :
    ∃ b, up.get? (q - 1) = some b ∧ isAlnum b = false ∧ b ≠ 95 ∧ b ≠ 36 := by
  rw [beforeOkAt] at h
  rw [Bool.or_eq_true] at h
  rcases h with h | h
  · exact absurd (Nat.beq_eq ▸ by simpa using h) hq
  · rcases hg : up.get? (q - 1) with _ | b
    · rw [hg] at h; simp at h
    · rw [hg] at h
      simp only [Bool.and_eq_true, bne_iff_ne, Bool.not_eq_true'] at h
      exact ⟨b, rfl, h.1.1, h.1.2, h.2⟩

theorem afterOkAt_byte {up : Line} {ap : Nat} (h : afterOkAt up ap = true)
    (hap : ap < up.length) :
    ∃ b, up.get? ap = some b ∧ isAlnum b = false ∧ b ≠ 95 := by
  rw [afterOkAt] at h
  rw [Bool.or_eq_true] at h
  rcases h with h | h
  · rw [decide_eq_true_iff] at h; omega
  · rcases hg : up.get? ap with _ | b
    · rw [List.get?_eq_none] at hg; omega
    · rw [hg] at h
      simp only [Bool.and_eq_true, bne_iff_ne, Bool.not_eq_true'] at h
      exact ⟨b, rfl, h.1, h.2⟩

theorem occ_startsWith_bytes {base up : Line} {q : Nat}
    (h : startsWith base (up.drop q) = true) :
    ∀ (k : Nat) (hk : k < base.length),
      up.get? (q + k) = some (base.get ⟨k, hk⟩) := by
  intro k hk
  have := startsWith_get_eq h k hk
  rw [List.get?_drop] at this
  rw [this]
  rw [List.get?_eq_get hk]

theorem occDollar_byte {base up : Line} {q : Nat} (h : occDollar base up q = true) :
    up.get? (q + base.length) = some 36 := by
  simp only [occDollar, Bool.and_eq_true, decide_eq_true_iff, beq_iff_eq] at h
  exact h.2

theorem occEnd_le_length {base up : Line} {q : Nat} (hbase : base ≠ [])
    (h : isOcc base up q = true) : q + base.length ≤ occEnd base up q
      ∧ occEnd base up q ≤ up.length := by
  have hsw := isOcc_startsWith h
  have hlen := startsWith_length_le hsw
  rw [List.length_drop] at hlen
  by_cases hd : occDollar base up q = true
  · have hb := occDollar_byte hd
    simp only [occDollar, Bool.and_eq_true, decide_eq_true_iff] at hd
    rw [occEnd, if_pos (by simp only [occDollar, Bool.and_eq_true,
      decide_eq_true_iff]; exact hd)]
    omega
  · rw [Bool.not_eq_true] at hd
    rw [occEnd, if_neg (by rw [hd]; exact Bool.false_ne_true)]
    constructor
    · omega
    · have hq : q ≤ up.length := by
        by_contra hq
        rw [List.drop_eq_nil_of_le (by omega)] at hsw
        have := startsWith_length_le hsw
        simp at this
        exact hbase this
      omega

theorem occ_gap {base up : Line} (hbw : ∀ b ∈ base, isWordChar b = true)
    (hbase : base ≠ []) {q q' : Nat}
    (h1 : isOcc base up q = true) (h2 : isOcc base up q' = true)
    (hlt : q < q') : occEnd base up q < q' := by
  by_contra hle
  have hle' : q' ≤ occEnd base up q := by omega
  obtain ⟨b, hb, hba, hb95, hb36⟩ := beforeOkAt_byte (isOcc_beforeOk h2) (by omega)
  have hj : q ≤ q' - 1 := by omega
  by_cases hcase : q' - 1 < q + base.length
  · have hbyte := occ_startsWith_bytes (isOcc_startsWith h1) (q' - 1 - q) (by omega)
    rw [show q + (q' - 1 - q) = q' - 1 from by omega] at hbyte
    rw [hbyte] at hb
    injection hb with hb
    have hmem : base.get ⟨q' - 1 - q, by omega⟩ ∈ base := List.get_mem base _ _
    have hword := hbw _ hmem
    rw [hb] at hword
    simp only [isWordChar, Bool.or_eq_true, beq_iff_eq] at hword
    rcases hword with (hw | hw) | hw
    · rw [hba] at hw
      exact absurd hw (by simp)
    · exact hb95 hw
    · exact hb36 hw
  · -- the byte before the later occurrence is the consumed dollar
    have hd : occDollar base up q = true := by
      by_cases hd : occDollar base up q = true
      · exact hd
      · rw [Bool.not_eq_true] at hd
        rw [occEnd, if_neg (by rw [hd]; exact Bool.false_ne_true)] at hle'
        omega
    rw [occEnd, if_pos hd] at hle'
    have hj' : q' - 1 = q + base.length := by omega
    have := occDollar_byte hd
    rw [← hj'] at this
    rw [this] at hb
    injection hb with hb
    exact hb36 hb.symm

end Basica

namespace Basica

theorem occList_sorted (base up : Line) :
    List.Pairwise (· < ·) (occList base up) :=
  List.Pairwise.filter _ (List.pairwise_lt_range _)

theorem occList_mem_isOcc {base up : Line} {q : Nat} (h : q ∈ occList base up) :
    isOcc base up q = true := by
  have := List.of_mem_filter h
  simpa using this

theorem mem_occList_iff {base up : Line} (hbase : base ≠ []) {q : Nat} :
    q ∈ occList base up ↔ isOcc base up q = true := by
  constructor
  · exact occList_mem_isOcc
  · intro h
    rw [occList, List.mem_filter]
    refine ⟨List.mem_range.mpr ?_, by simpa using h⟩
    have hsw := isOcc_startsWith h
    have hlen := startsWith_length_le hsw
    rw [List.length_drop] at hlen
    have hbl : 1 ≤ base.length := by
      rcases base with _ | _
      · simp at hbase
      · simp
    omega

theorem spanInv_build (base : Line) (ti : Bool → Line) (l : Line)
    (hbw : ∀ b ∈ base, isWordChar b = true) (hbase : base ≠ []) :
    ∀ (Q : List Nat) (cur1 : Nat),
      List.Pairwise (· < ·) Q → (∀ q ∈ Q, isOcc base l q = true) →
      (∀ q ∈ Q, cur1 ≤ q) →
      SpanInv base ti l cur1
        (Q.map (fun q => (q, occEnd base l q, ti (occDollar base l q)))) := by
  intro Q
  induction Q with
  | nil => intro cur1 _ _ _; exact trivial
  | cons q Q' ih =>
    intro cur1 hpw hocc hlb
    obtain ⟨hhd, hpw'⟩ := List.pairwise_cons.mp hpw
    refine ⟨hlb q (by simp), hocc q (by simp), rfl, rfl, ?_⟩
    exact ih (occEnd base l q + 1) hpw'
      (fun x hx => hocc x (List.mem_cons_of_mem q hx))
      (fun x hx => by
        have := occ_gap hbw hbase (hocc q (by simp))
          (hocc x (List.mem_cons_of_mem q hx)) (hhd x hx)
        omega)

theorem spanInv_occTriples (base nn : Line) (l : Line)
    (hbw : ∀ b ∈ base, isWordChar b = true) (hbase : base ≠ []) :
    SpanInv base (renameReplacement nn) l 0 (occTriples base nn l) := by
  rw [occTriples]
  exact spanInv_build base (renameReplacement nn) l hbw hbase (occList base l) 0
    (occList_sorted base l) (fun q hq => occList_mem_isOcc hq) (fun q _ => by omega)

theorem upper_append (a b : Line) : upper (a ++ b) = upper a ++ upper b :=
  List.map_append _ a b

theorem upper_take (n : Nat) (l : Line) : upper (l.take n) = (upper l).take n :=
  List.map_take _ l n

theorem upper_drop (n : Nat) (l : Line) : upper (l.drop n) = (upper l).drop n :=
  List.map_drop _ l n

theorem upper_applyLineEditsAux (l : Line) :
    ∀ (ts : List (Nat × Nat × Line)) (cur : Nat),
      upper (applyLineEditsAux l cur ts) =
        applyLineEditsAux (upper l) cur
          (ts.map (fun t => (t.1, t.2.1, upper t.2.2))) := by
  intro ts
  induction ts with
  | nil => intro cur; exact upper_drop cur l
  | cons t rest ih =>
    intro cur
    rcases t with ⟨s, e, txt⟩
    show upper ((l.drop cur).take (s - cur) ++ txt ++ applyLineEditsAux l e rest) = _
    rw [upper_append, upper_append, upper_take, upper_drop, ih e]
    rfl

theorem renameReplacement_alpha {nn : Line} (hne : nn ≠ [])
    (hA : ∀ b ∈ nn, isAlpha b = true) (d : Bool) :
    renameReplacement nn d = (if d then nn ++ [36] else nn) := by
  have hlast : nn.getLast? ≠ some 36 := by
    intro h
    have hmem : (36 : Nat) ∈ nn := by
      obtain ⟨hne2, heq⟩ := List.mem_getLast?_eq_getLast (by rw [h]; rfl)
      rw [heq]
      exact List.getLast_mem hne2
    have := hA 36 hmem
    simp [isAlpha] at this
  cases d with
  | true =>
    rw [renameReplacement, if_pos rfl, if_neg (by
      intro h
      exact hlast (by simpa using h))]
    rfl
  | false =>
    rw [renameReplacement, if_neg (by simp)]
    show trimEndDollars nn = nn
    rw [trimEndDollars]
    rcases hrev : nn.reverse with _ | ⟨b, t⟩
    · simp at hrev
      exact absurd hrev hne
    · have hb : nn.getLast? = some b := by
        rw [List.getLast?_eq_head?_reverse, hrev]
        rfl
      have hbne : (b == 36) = false := by
        have hmem : b ∈ nn := by
          have : b ∈ nn.reverse := by rw [hrev]; simp
          simpa using this
        have := hA b hmem
        simp only [isAlpha, Bool.or_eq_true, Bool.and_eq_true,
          decide_eq_true_iff] at this
        simp only [beq_eq_false_iff_ne, ne_eq]
        omega
      rw [List.dropWhile_cons, hbne]
      show (b :: t).reverse = nn
      rw [← hrev]
      exact List.reverse_reverse nn

end Basica

namespace Basica

theorem beforeOk_intro_zero (up : Line) : beforeOkAt up 0 = true := rfl

theorem beforeOk_intro_byte {up : Line} {q b : Nat}
    (hb : up.get? (q - 1) = some b) (h1 : isAlnum b = false) (h2 : b ≠ 95)
    (h3 : b ≠ 36) : beforeOkAt up q = true := by
  rw [beforeOkAt, hb]
  simp [h1, h2, h3]

theorem afterOk_intro_ge {up : Line} {ap : Nat} (h : up.length ≤ ap) :
    afterOkAt up ap = true := by
  rw [afterOkAt]
  simp [h]

theorem afterOk_intro_byte {up : Line} {ap b : Nat}
    (hb : up.get? ap = some b) (h1 : isAlnum b = false) (h2 : b ≠ 95) :
    afterOkAt up ap = true := by
  rw [afterOkAt, hb]
  simp [h1, h2]

theorem isAlpha_false_of_isAlnum_false {b : Nat} (h : isAlnum b = false) :
    isAlpha b = false := by
  rw [isAlnum, Bool.or_eq_false_iff] at h
  exact h.2

theorem isWordChar_decomp {b : Nat} (h : isWordChar b = false) :
    isAlnum b = false ∧ b ≠ 95 ∧ b ≠ 36 := by
  simp only [isWordChar, Bool.or_eq_false_iff, beq_eq_false_iff_ne, ne_eq] at h
  exact ⟨h.1.1, h.1.2, h.2⟩

theorem isWordChar_intro {b : Nat} (h1 : isAlnum b = false) (h2 : b ≠ 95)
    (h3 : b ≠ 36) : isWordChar b = false := by
  simp only [isWordChar, Bool.or_eq_false_iff, beq_eq_false_iff_ne, ne_eq]
  exact ⟨⟨h1, h2⟩, h3⟩

theorem isWordChar_of_alpha {b : Nat} (h : isAlpha b = true) :
    isWordChar b = true := by
  simp only [isWordChar, isAlnum, Bool.or_eq_true]
  left
  left
  right
  exact h

theorem match_byte_word {ins F : Line} {q : Nat}
    (hA : ∀ b ∈ ins, isWordChar b = true)
    (h : startsWith ins (F.drop q) = true) :
    ∀ (j : Nat) (hj : j < ins.length),
      F.get? (q + j) = some (ins.get ⟨j, hj⟩)
        ∧ isWordChar (ins.get ⟨j, hj⟩) = true := by
  intro j hj
  have h1 := startsWith_get_eq h j hj
  rw [List.get?_drop] at h1
  rw [List.get?_eq_get hj] at h1
  exact ⟨h1, hA _ (List.get_mem ins _ _)⟩

theorem startsWith_append_left {pat a b : Line}
    (hlen : pat.length ≤ a.length) :
    startsWith pat (a ++ b) = startsWith pat a := by
  rw [startsWith, startsWith, List.take_append_of_le_length hlen]

end Basica

namespace Basica

theorem isOcc_false_of_no_match {I up : Line} {q : Nat}
    (h : startsWith I (up.drop q) = false) : isOcc I up q = false := by
  simp [isOcc, h]

theorem zone_pre_refute {l I A T : Line} {cur s : Nat}
    (hinsA : ∀ b ∈ I, isWordChar b = true)
    (hfr : ∀ j, startsWith I (l.drop j) = false)
    (hsl : s ≤ l.length) (hcs : cur ≤ s)
    (hnb : s = cur ∨ ∃ b, l.get? (s - 1) = some b ∧ isWordChar b = false)
    {q : Nat} (hq1 : A.length ≤ q) (hq2 : q < A.length + (s - cur)) :
    startsWith I ((A ++ ((l.drop cur).take (s - cur) ++ T)).drop q) = false := by
  by_contra hcon
  rw [Bool.not_eq_false] at hcon
  have hpre_len : ((l.drop cur).take (s - cur)).length = s - cur := by
    rw [List.length_take, List.length_drop]
    omega
  have hdropA : (A ++ ((l.drop cur).take (s - cur) ++ T)).drop q =
      ((l.drop cur).take (s - cur) ++ T).drop (q - A.length) := by
    rw [List.drop_append_eq_append_drop, List.drop_eq_nil_of_le (by omega),
      List.nil_append]
  rw [hdropA] at hcon
  by_cases hc1 : (q - A.length) + I.length ≤ s - cur
  · -- the match lies inside an untouched substring of the original line
    rw [List.drop_append_of_le_length (by omega)] at hcon
    rw [startsWith_append_left (by
      rw [List.length_drop, hpre_len]
      omega)] at hcon
    rw [List.drop_take] at hcon
    rw [List.drop_drop] at hcon
    have hsw := startsWith_of_take hcon
    rw [hfr (cur + (q - A.length))] at hsw
    exact absurd hsw (by simp)
  · -- the match would cover the nonword byte just before the insertion
    rcases hnb with hnb | ⟨b, hb, hba⟩
    · omega
    · have hj : s - cur - 1 - (q - A.length) < I.length := by omega
      obtain ⟨hbyte, hword⟩ := match_byte_word hinsA hcon _ hj
      have hidx : q - A.length + (s - cur - 1 - (q - A.length)) = s - cur - 1 := by
        omega
      rw [hidx] at hbyte
      rw [List.get?_append (by rw [hpre_len]; omega)] at hbyte
      rw [List.get?_take (by omega)] at hbyte
      rw [List.get?_drop] at hbyte
      have hidx2 : cur + (s - cur - 1) = s - 1 := by omega
      rw [hidx2] at hbyte
      rw [hb] at hbyte
      injection hbyte with hbyte
      rw [← hbyte] at hword
      rw [hba] at hword
      exact absurd hword (by simp)

theorem isOcc_false_inside {I up : Line} {q b : Nat}
    (hq : 1 ≤ q) (hb : up.get? (q - 1) = some b) (hw : isWordChar b = true) :
    isOcc I up q = false := by
  have hbefore : beforeOkAt up q = false := by
    rw [beforeOkAt, hb]
    have hqz : (q == 0) = false := by
      simp only [beq_eq_false_iff_ne, ne_eq]
      omega
    rw [hqz]
    simp only [Bool.false_or]
    simp only [isWordChar, Bool.or_eq_true, beq_iff_eq] at hw
    rcases hw with (h | h) | h
    · simp [h]
    · simp [h]
    · simp [h]
  rw [isOcc, hbefore]
  simp

end Basica

namespace Basica

theorem base_length_pos {base : Line} (hb : base ≠ []) : 1 ≤ base.length := by
  rcases base with _ | _
  · simp at hb
  · simp

theorem apply_head (base1 : Line) (ti : Bool → Line) (l : Line) (hb1 : base1 ≠ [])
    (rest : List (Nat × Nat × Line)) (e : Nat)
    (h : SpanInv base1 ti l (e + 1) rest) :
    (applyLineEditsAux l e rest).get? 0 = l.get? e := by
  cases rest with
  | nil =>
    show (l.drop e).get? 0 = l.get? e
    rw [List.get?_drop, Nat.add_zero]
  | cons tr r2 =>
    rcases tr with ⟨s2, e2, t2⟩
    obtain ⟨hcur, hocc2, _, _, _⟩ := h
    have hlen := occEnd_le_length hb1 hocc2
    have hb1len : 1 ≤ base1.length := base_length_pos hb1
    have hel : e < l.length := by omega
    have hpre : 1 ≤ ((l.drop e).take (s2 - e)).length := by
      rw [List.length_take, List.length_drop]
      omega
    show ((l.drop e).take (s2 - e) ++ t2 ++ applyLineEditsAux l e2 r2).get? 0
      = l.get? e
    rw [List.get?_append (by rw [List.length_append]; omega)]
    rw [List.get?_append (by omega)]
    rw [List.get?_take (by omega)]
    rw [List.get?_drop, Nat.add_zero]

theorem newStartsAbs_cons (d0 cur s e : Nat) (t : Line)
    (rest : List (Nat × Nat × Line)) :
    newStartsAbs d0 cur ((s, e, t) :: rest)
      = (d0 + (s - cur)) :: newStartsAbs (d0 + (s - cur) + t.length) e rest := rfl

theorem revEdits_cons (l : Line) (li d0 cur s e : Nat) (t : Line)
    (rest : List (Nat × Nat × Line)) :
    revEdits l li d0 cur ((s, e, t) :: rest)
      = ⟨⟨li, d0 + (s - cur), li, d0 + (s - cur) + t.length⟩,
          (l.drop s).take (e - s)⟩ :: revEdits l li (d0 + (s - cur) + t.length) e rest
      := rfl

end Basica

namespace Basica

theorem startsWith_self (l : Line) : startsWith l l = true := by
  rw [startsWith, List.take_length]
  exact beq_self_eq_true l

theorem zone_main (base1 ins nn2 : Line) (li : Nat) (l : Line)
    (hins : ins ≠ []) (hinsA : ∀ b ∈ ins, isWordChar b = true)
    (hfr : ∀ j, startsWith ins (l.drop j) = false)
    (hb1 : base1 ≠ [])
    (hrepl : ∀ d', renameReplacement nn2 d' = (if d' then base1 ++ [36] else base1)) :
    ∀ (trips : List (Nat × Nat × Line)) (cur cur1 : Nat) (A : Line),
      SpanInv base1 (fun d => if d then ins ++ [36] else ins) l cur1 trips →
      cur ≤ cur1 → ((cur = 0 ∧ A = []) ∨ cur < cur1) →
      ((List.range' A.length
          ((A ++ applyLineEditsAux l cur trips).length + 1 - A.length)).filter
        (isOcc ins (A ++ applyLineEditsAux l cur trips))
        = newStartsAbs A.length cur trips)
      ∧ ((newStartsAbs A.length cur trips).map
          (mkRenameEdit ins nn2 li (A ++ applyLineEditsAux l cur trips))
        = revEdits l li A.length cur trips) := by
  intro trips
  induction trips with
  | nil =>
    intro cur cur1 A _ _ _
    constructor
    · have h0 : newStartsAbs A.length cur ([] : List (Nat × Nat × Line)) = [] := rfl
      rw [h0, List.filter_eq_nil]
      intro q hq
      obtain ⟨i, hi, rfl⟩ := List.mem_range'.mp hq
      simp only [Nat.one_mul]
      have hdr : (A ++ applyLineEditsAux l cur []).drop (A.length + i)
          = l.drop (cur + i) := by
        show (A ++ l.drop cur).drop (A.length + i) = _
        rw [List.drop_append_eq_append_drop, List.drop_eq_nil_of_le (by omega),
          List.nil_append, List.drop_drop]
        congr 1
        omega
      have := isOcc_false_of_no_match (I := ins) (by rw [hdr]; exact hfr (cur + i))
      rw [this]
      simp
    · rfl
  | cons tr rest ih =>
    rcases tr with ⟨s, e, t⟩
    intro cur cur1 A hsp hcc1 hinv
    obtain ⟨hc1s, hocc, he, ht, hrest⟩ := hsp
    have ht' : t = (if occDollar base1 l s then ins ++ [36] else ins) := ht
    have hb1len : 1 ≤ base1.length := base_length_pos hb1
    have hinslen : 1 ≤ ins.length := base_length_pos hins
    have hoe := occEnd_le_length hb1 hocc
    have hsle : s + base1.length ≤ e := by omega
    have hel : e ≤ l.length := by omega
    have hsl : s < l.length := by omega
    have hcs : cur ≤ s := by omega
    have hpre_len : ((l.drop cur).take (s - cur)).length = s - cur := by
      rw [List.length_take, List.length_drop]
      omega
    have happ : applyLineEditsAux l cur ((s, e, t) :: rest)
        = (l.drop cur).take (s - cur) ++ t ++ applyLineEditsAux l e rest := rfl
    have hFassoc : A ++ applyLineEditsAux l cur ((s, e, t) :: rest)
        = A ++ ((l.drop cur).take (s - cur)
            ++ (t ++ applyLineEditsAux l e rest)) := by
      rw [happ]
      simp [List.append_assoc]
    -- facts about the inserted text
    have ht_d : occDollar base1 l s = true → t = ins ++ [36] := by
      intro hd
      rw [ht', if_pos (by rw [hd])]
    have ht_nd : occDollar base1 l s = false → t = ins := by
      intro hd
      rw [ht', if_neg (by rw [hd]; exact Bool.false_ne_true)]
    have htlen : t.length = ins.length
        ∨ (t.length = ins.length + 1 ∧ occDollar base1 l s = true) := by
      by_cases hd : occDollar base1 l s = true
      · right
        refine ⟨?_, hd⟩
        rw [ht_d hd]
        simp
      · left
        rw [ht_nd (by rw [Bool.not_eq_true] at hd; exact hd)]
    have htlen1 : 1 ≤ t.length := by rcases htlen with h | ⟨h, _⟩ <;> omega
    -- the byte right after the inserted copy of the new name
    have hafter_byte : (t ++ applyLineEditsAux l e rest).get? ins.length
        = (if occDollar base1 l s then some 36 else l.get? e) := by
      by_cases hd : occDollar base1 l s = true
      · rw [if_pos (by rw [hd])]
        rw [List.get?_append (by rw [ht_d hd]; simp)]
        rw [ht_d hd, List.get?_append_right (by omega)]
        rw [show ins.length - ins.length = 0 from by omega]
        rfl
      · rw [Bool.not_eq_true] at hd
        rw [if_neg (by rw [hd]; exact Bool.false_ne_true)]
        rw [List.get?_append_right (by rw [ht_nd hd])]
        rw [show ins.length - t.length = 0 from by rw [ht_nd hd]; omega]
        exact apply_head base1 _ l hb1 rest e hrest
    -- relating indices of the full line to the three zones
    have hG1 : ∀ k, (A ++ ((l.drop cur).take (s - cur)
        ++ (t ++ applyLineEditsAux l e rest))).get? (A.length + (s - cur) + k)
        = (t ++ applyLineEditsAux l e rest).get? k := by
      intro k
      rw [List.get?_append_right (by omega)]
      rw [List.get?_append_right (by rw [hpre_len]; omega)]
      congr 1
      rw [hpre_len]
      omega
    have hafter_e : e = (if occDollar base1 l s then s + base1.length + 1
        else s + base1.length) := by
      rw [he, occEnd]
    -- the dollar flag carries over to the spliced line
    have hoccd : occDollar ins (A ++ ((l.drop cur).take (s - cur)
        ++ (t ++ applyLineEditsAux l e rest))) (A.length + (s - cur))
        = occDollar base1 l s := by
      by_cases hd : occDollar base1 l s = true
      · rw [hd]
        rw [occDollar]
        have hb := hG1 ins.length
        rw [hafter_byte, if_pos (by rw [hd])] at hb
        have hlt : A.length + (s - cur) + ins.length
            < (A ++ ((l.drop cur).take (s - cur)
              ++ (t ++ applyLineEditsAux l e rest))).length := by
          have := List.get?_eq_some.mp hb
          obtain ⟨hlt', _⟩ := this
          omega
        rw [hb]
        simp only [beq_self_eq_true, Bool.and_true]
        rw [decide_eq_true hlt]
      · rw [Bool.not_eq_true] at hd
        rw [hd]
        rw [occDollar]
        have hb := hG1 ins.length
        rw [hafter_byte, if_neg (by rw [hd]; exact Bool.false_ne_true)] at hb
        rw [hb]
        rcases hle : l.get? e with _ | b
        · simp
        · have hb36 : b ≠ 36 := by
            intro h36
            have hee : e = s + base1.length := by
              rw [hafter_e, if_neg (by rw [hd]; exact Bool.false_ne_true)]
            obtain ⟨hlt0, _⟩ := List.get?_eq_some.mp hle
            have hocc36 : occDollar base1 l s = true := by
              rw [occDollar, ← hee]
              rw [h36] at hle
              have hgl : l[e] = 36 := by
                obtain ⟨h1, h2⟩ := List.get?_eq_some.mp hle
                simpa using h2
              simp [hle, hlt0, hgl]
            rw [hocc36] at hd
            simp at hd
          simp [hb36]
    -- the new-name occurrence at the insertion start
    have hdr1 : (A ++ ((l.drop cur).take (s - cur)
        ++ (t ++ applyLineEditsAux l e rest))).drop (A.length + (s - cur))
        = t ++ applyLineEditsAux l e rest := by
      rw [List.drop_append_eq_append_drop, List.drop_eq_nil_of_le (by omega),
        List.nil_append]
      rw [show A.length + (s - cur) - A.length = s - cur from by omega]
      rw [List.drop_append_eq_append_drop]
      rw [List.drop_eq_nil_of_le (by rw [hpre_len])]
      rw [List.nil_append, hpre_len]
      rw [show s - cur - (s - cur) = 0 from by omega]
      rw [List.drop_zero]
    have hsw_ins : startsWith ins ((A ++ ((l.drop cur).take (s - cur)
        ++ (t ++ applyLineEditsAux l e rest))).drop (A.length + (s - cur))) = true := by
      rw [hdr1]
      by_cases hd : occDollar base1 l s = true
      · rw [ht_d hd, List.append_assoc]
        rw [startsWith_append_left (le_refl _)]
        exact startsWith_self ins
      · rw [Bool.not_eq_true] at hd
        rw [ht_nd hd]
        rw [startsWith_append_left (le_refl _)]
        exact startsWith_self ins
    have hnb : s = cur ∨ ∃ b, l.get? (s - 1) = some b ∧ isWordChar b = false := by
      by_cases hsc : s = cur
      · left; exact hsc
      · right
        obtain ⟨b, hb, hba, h95, h36b⟩ :=
          beforeOkAt_byte (isOcc_beforeOk hocc) (by omega)
        exact ⟨b, hb, isWordChar_intro hba h95 h36b⟩
    have hbefore : beforeOkAt (A ++ ((l.drop cur).take (s - cur)
        ++ (t ++ applyLineEditsAux l e rest))) (A.length + (s - cur)) = true := by
      by_cases hz : A.length + (s - cur) = 0
      · rw [hz]
        exact beforeOk_intro_zero _
      · have hscur : cur < s := by
          rcases hinv with ⟨hc0, hA0⟩ | hlt
          · subst hc0
            rcases Nat.eq_zero_or_pos s with h0 | h0
            · exfalso
              apply hz
              rw [hA0, h0]
              simp
            · omega
          · omega
        obtain ⟨b, hb, hba, hb95, hb36⟩ :=
          beforeOkAt_byte (isOcc_beforeOk hocc) (by omega)
        apply beforeOk_intro_byte (b := b) _ hba hb95 hb36
        rw [List.get?_append_right (by omega)]
        rw [List.get?_append (by rw [hpre_len]; omega)]
        rw [List.get?_take (by omega)]
        rw [List.get?_drop]
        rw [show cur + (A.length + (s - cur) - 1 - A.length) = s - 1 from by omega]
        exact hb
    have hafter : afterOkAt (A ++ ((l.drop cur).take (s - cur)
        ++ (t ++ applyLineEditsAux l e rest)))
        (A.length + (s - cur) + ins.length) = true := by
      have hbyte := hG1 ins.length
      rw [hafter_byte] at hbyte
      by_cases hd : occDollar base1 l s = true
      · rw [if_pos (by rw [hd])] at hbyte
        exact afterOk_intro_byte hbyte (by decide) (by decide)
      · rw [Bool.not_eq_true] at hd
        rw [if_neg (by rw [hd]; exact Bool.false_ne_true)] at hbyte
        rcases hle : l.get? e with _ | b
        · rw [hle] at hbyte
          apply afterOk_intro_ge
          have := List.get?_eq_none.mp hbyte
          omega
        · rw [hle] at hbyte
          have hee : e = s + base1.length := by
            rw [hafter_e, if_neg (by rw [hd]; exact Bool.false_ne_true)]
          obtain ⟨hlt0, _⟩ := List.get?_eq_some.mp hle
          obtain ⟨b2, hb2, hba2, hb952⟩ :=
            afterOkAt_byte (isOcc_afterOk hocc) (by omega)
          rw [← hee, hle] at hb2
          injection hb2 with hb2
          rw [← hb2] at hba2 hb952
          exact afterOk_intro_byte hbyte hba2 hb952
    have hoccF : isOcc ins (A ++ ((l.drop cur).take (s - cur)
        ++ (t ++ applyLineEditsAux l e rest))) (A.length + (s - cur)) = true := by
      rw [isOcc, hsw_ins, hbefore, hafter]
      rfl
    have hoccEnd : occEnd ins (A ++ ((l.drop cur).take (s - cur)
        ++ (t ++ applyLineEditsAux l e rest))) (A.length + (s - cur))
        = A.length + (s - cur) + t.length := by
      rw [occEnd, hoccd]
      by_cases hd : occDollar base1 l s = true
      · rw [if_pos (by rw [hd])]
        have hl1 : t.length = ins.length + 1 := by
          rw [ht_d hd]
          simp
        omega
      · rw [Bool.not_eq_true] at hd
        rw [if_neg (by rw [hd]; exact Bool.false_ne_true)]
        have hl1 : t.length = ins.length := by rw [ht_nd hd]
        omega
    have hreplEq : renameReplacement nn2 (occDollar ins
        (A ++ ((l.drop cur).take (s - cur)
          ++ (t ++ applyLineEditsAux l e rest))) (A.length + (s - cur)))
        = (l.drop s).take (e - s) := by
      rw [hoccd, hrepl]
      have h1 : (l.drop s).take base1.length = base1 :=
        eq_of_beq (isOcc_startsWith hocc)
      by_cases hd : occDollar base1 l s = true
      · rw [if_pos (by rw [hd])]
        have hee : e = s + base1.length + 1 := by
          rw [hafter_e, if_pos (by rw [hd])]
        rw [show e - s = base1.length + 1 from by omega]
        rw [List.take_succ, h1]
        have h2 : (l.drop s)[base1.length]? = some 36 := by
          rw [← List.get?_eq_getElem?, List.get?_drop]
          exact occDollar_byte hd
        rw [h2]
        rfl
      · rw [Bool.not_eq_true] at hd
        rw [if_neg (by rw [hd]; exact Bool.false_ne_true)]
        have hee : e = s + base1.length := by
          rw [hafter_e, if_neg (by rw [hd]; exact Bool.false_ne_true)]
        rw [show e - s = base1.length from by omega]
        exact h1.symm
    have htdisj : t = ins ++ [36] ∨ (t = ins ∧ (applyLineEditsAux l e rest = [] ∨
        ∃ b, (applyLineEditsAux l e rest).get? 0 = some b ∧ isWordChar b = false)) := by
      by_cases hd : occDollar base1 l s = true
      · exact Or.inl (ht_d hd)
      · rw [Bool.not_eq_true] at hd
        refine Or.inr ⟨ht_nd hd, ?_⟩
        have hh := apply_head base1 _ l hb1 rest e hrest
        rcases hle : l.get? e with _ | b
        · left
          rw [hle] at hh
          have := List.get?_eq_none.mp hh
          rcases he0 : applyLineEditsAux l e rest with _ | _
          · rfl
          · exfalso
            rw [he0] at this
            simp at this
        · right
          have hee : e = s + base1.length := by
            rw [hafter_e, if_neg (by rw [hd]; exact Bool.false_ne_true)]
          obtain ⟨hlt0, _⟩ := List.get?_eq_some.mp hle
          obtain ⟨b2, hb2, hba2, h95b⟩ :=
            afterOkAt_byte (isOcc_afterOk hocc) (by omega)
          have h36b : b2 ≠ 36 := by
            intro hc
            have hdt : occDollar base1 l s = true := by
              rw [occDollar]
              simp only [Bool.and_eq_true, decide_eq_true_iff, beq_iff_eq]
              refine ⟨by omega, ?_⟩
              rw [hb2, hc]
            rw [hd] at hdt
            exact absurd hdt (by simp)
          rw [← hee, hle] at hb2
          injection hb2 with hb2
          rw [hle] at hh
          exact ⟨b, hh, by rw [hb2]; exact isWordChar_intro hba2 h95b h36b⟩
    -- the induction hypothesis for the tail of the splice
    have hA'len : ((A ++ (l.drop cur).take (s - cur)) ++ t).length
        = A.length + (s - cur) + t.length := by
      rw [List.length_append, List.length_append, hpre_len]
    have ihm := ih e (e + 1) ((A ++ (l.drop cur).take (s - cur)) ++ t) hrest
      (by omega) (Or.inr (by omega))
    rw [hA'len] at ihm
    rw [show ((A ++ (l.drop cur).take (s - cur)) ++ t)
        ++ applyLineEditsAux l e rest
        = A ++ ((l.drop cur).take (s - cur)
            ++ (t ++ applyLineEditsAux l e rest)) from by
      simp [List.append_assoc]] at ihm
    obtain ⟨ihK1, ihK2⟩ := ihm
    have hFlen : (A ++ ((l.drop cur).take (s - cur)
        ++ (t ++ applyLineEditsAux l e rest))).length
        = A.length + (s - cur) + t.length + (applyLineEditsAux l e rest).length := by
      simp only [List.length_append, hpre_len]
      omega
    constructor
    · rw [hFassoc, newStartsAbs_cons]
      have hra1 := List.range'_append A.length (s - cur)
        ((A ++ ((l.drop cur).take (s - cur)
          ++ (t ++ applyLineEditsAux l e rest))).length + 1 - A.length - (s - cur)) 1
      simp only [Nat.one_mul] at hra1
      rw [show (A ++ ((l.drop cur).take (s - cur)
          ++ (t ++ applyLineEditsAux l e rest))).length + 1 - A.length
          = ((A ++ ((l.drop cur).take (s - cur)
          ++ (t ++ applyLineEditsAux l e rest))).length + 1 - A.length - (s - cur)) + (s - cur) from by
        omega]
      rw [← hra1]
      rw [List.filter_append]
      have hfil1 : (List.range' A.length (s - cur)).filter
          (isOcc ins (A ++ ((l.drop cur).take (s - cur)
          ++ (t ++ applyLineEditsAux l e rest)))) = [] := by
        rw [List.filter_eq_nil]
        intro q hq
        obtain ⟨i, hi, rfl⟩ := List.mem_range'.mp hq
        simp only [Nat.one_mul]
        have hz := zone_pre_refute (l := l) (I := ins) (A := A)
          (T := t ++ applyLineEditsAux l e rest) hinsA hfr (by omega) hcs hnb
          (q := A.length + i) (by omega) (by omega)
        rw [isOcc_false_of_no_match hz]
        simp
      rw [hfil1, List.nil_append]
      rw [show (A ++ ((l.drop cur).take (s - cur)
          ++ (t ++ applyLineEditsAux l e rest))).length + 1 - A.length - (s - cur)
          = ((A ++ ((l.drop cur).take (s - cur)
          ++ (t ++ applyLineEditsAux l e rest))).length + 1 - A.length - (s - cur) - 1) + 1 from by
        omega]
      rw [List.range'_succ]
      rw [List.filter_cons]
      rw [hoccF, if_pos rfl]
      congr 1
      have hra2 := List.range'_append (A.length + (s - cur) + 1) (t.length - 1)
        ((A ++ ((l.drop cur).take (s - cur)
          ++ (t ++ applyLineEditsAux l e rest))).length + 1 - A.length - (s - cur) - 1 - (t.length - 1)) 1
      simp only [Nat.one_mul] at hra2
      rw [show (A ++ ((l.drop cur).take (s - cur)
          ++ (t ++ applyLineEditsAux l e rest))).length + 1 - A.length - (s - cur) - 1
          = ((A ++ ((l.drop cur).take (s - cur)
          ++ (t ++ applyLineEditsAux l e rest))).length + 1 - A.length - (s - cur) - 1 - (t.length - 1))
            + (t.length - 1) from by omega]
      rw [← hra2]
      rw [List.filter_append]
      have htword : ∀ b ∈ t, isWordChar b = true := by
        intro b hb
        by_cases hd : occDollar base1 l s = true
        · rw [ht_d hd] at hb
          rcases List.mem_append.mp hb with hb | hb
          · exact hinsA b hb
          · simp only [List.mem_singleton] at hb
            subst hb
            rfl
        · rw [Bool.not_eq_true] at hd
          rw [ht_nd hd] at hb
          exact hinsA b hb
      have hfil2 : (List.range' (A.length + (s - cur) + 1) (t.length - 1)).filter
          (isOcc ins (A ++ ((l.drop cur).take (s - cur)
          ++ (t ++ applyLineEditsAux l e rest)))) = [] := by
        rw [List.filter_eq_nil]
        intro q hq
        obtain ⟨i, hi, rfl⟩ := List.mem_range'.mp hq
        simp only [Nat.one_mul]
        obtain ⟨b, hbg, hbw2⟩ : ∃ b, t.get? i = some b ∧ isWordChar b = true := by
          rcases hg : t.get? i with _ | b
          · rw [List.get?_eq_none] at hg
            exact absurd hg (by omega)
          · refine ⟨b, rfl, ?_⟩
            apply htword
            obtain ⟨_, hbe⟩ := List.get?_eq_some.mp hg
            rw [← hbe]
            exact List.get_mem t _ _
        have hprev : (A ++ ((l.drop cur).take (s - cur)
            ++ (t ++ applyLineEditsAux l e rest))).get?
              (A.length + (s - cur) + 1 + i - 1) = some b := by
          rw [show A.length + (s - cur) + 1 + i - 1
              = A.length + (s - cur) + i from by omega]
          rw [hG1 i]
          rw [List.get?_append (by omega)]
          exact hbg
        rw [isOcc_false_inside (by omega) hprev hbw2]
        simp
      rw [hfil2, List.nil_append]
      rw [show A.length + (s - cur) + 1 + (t.length - 1)
          = A.length + (s - cur) + t.length from by omega]
      rw [show (A ++ ((l.drop cur).take (s - cur)
          ++ (t ++ applyLineEditsAux l e rest))).length + 1 - A.length - (s - cur) - 1 - (t.length - 1)
          = (A ++ ((l.drop cur).take (s - cur)
          ++ (t ++ applyLineEditsAux l e rest))).length + 1 - (A.length + (s - cur) + t.length) from by
        omega]
      exact ihK1
    · rw [hFassoc, newStartsAbs_cons, revEdits_cons]
      rw [List.map_cons]
      have hhead : mkRenameEdit ins nn2 li (A ++ ((l.drop cur).take (s - cur)
          ++ (t ++ applyLineEditsAux l e rest))) (A.length + (s - cur))
          = (⟨⟨li, A.length + (s - cur), li, A.length + (s - cur) + t.length⟩,
              (l.drop s).take (e - s)⟩ : TextEdit) := by
        show (⟨⟨li, A.length + (s - cur), li,
            occEnd ins (A ++ ((l.drop cur).take (s - cur)
          ++ (t ++ applyLineEditsAux l e rest))) (A.length + (s - cur))⟩,
            renameReplacement nn2
              (occDollar ins (A ++ ((l.drop cur).take (s - cur)
          ++ (t ++ applyLineEditsAux l e rest))) (A.length + (s - cur)))⟩ : TextEdit)
          = _
        rw [hoccEnd, hreplEq]
      rw [hhead, ihK2]

end Basica

namespace Basica

theorem revTriples_cons (l : Line) (d0 cur s e : Nat) (t : Line)
    (rest : List (Nat × Nat × Line)) :
    revTriples l d0 cur ((s, e, t) :: rest)
      = (d0 + (s - cur), d0 + (s - cur) + t.length, (l.drop s).take (e - s)) ::
          revTriples l (d0 + (s - cur) + t.length) e rest := rfl

theorem splice_back (base1 : Line) (ti : Bool → Line) (l : Line) (hb1 : base1 ≠ []) :
    ∀ (trips : List (Nat × Nat × Line)) (cur cur1 : Nat) (A : Line),
      SpanInv base1 ti l cur1 trips → cur ≤ cur1 →
      applyLineEditsAux (A ++ applyLineEditsAux l cur trips) A.length
        (revTriples l A.length cur trips) = l.drop cur := by
  intro trips
  induction trips with
  | nil =>
    intro cur cur1 A _ _
    show (A ++ l.drop cur).drop A.length = l.drop cur
    rw [List.drop_left]
  | cons tr rest ih =>
    rcases tr with ⟨s, e, t⟩
    intro cur cur1 A hsp hcc1
    obtain ⟨hc1s, hocc, he, ht, hrest⟩ := hsp
    have hb1len : 1 ≤ base1.length := base_length_pos hb1
    have hoe := occEnd_le_length hb1 hocc
    have hsle : s + base1.length ≤ e := by omega
    have hel : e ≤ l.length := by omega
    have hcs : cur ≤ s := by omega
    have hpre_len : ((l.drop cur).take (s - cur)).length = s - cur := by
      rw [List.length_take, List.length_drop]
      omega
    rw [revTriples_cons]
    show ((A ++ applyLineEditsAux l cur ((s, e, t) :: rest)).drop A.length).take
        (A.length + (s - cur) - A.length)
      ++ (l.drop s).take (e - s)
      ++ applyLineEditsAux (A ++ applyLineEditsAux l cur ((s, e, t) :: rest))
          (A.length + (s - cur) + t.length)
          (revTriples l (A.length + (s - cur) + t.length) e rest)
      = l.drop cur
    have happ : applyLineEditsAux l cur ((s, e, t) :: rest)
        = (l.drop cur).take (s - cur) ++ t ++ applyLineEditsAux l e rest := rfl
    have hdropA : (A ++ applyLineEditsAux l cur ((s, e, t) :: rest)).drop A.length
        = applyLineEditsAux l cur ((s, e, t) :: rest) := List.drop_left A _
    rw [hdropA]
    rw [show A.length + (s - cur) - A.length = s - cur from by omega]
    have htake : (applyLineEditsAux l cur ((s, e, t) :: rest)).take (s - cur)
        = (l.drop cur).take (s - cur) := by
      rw [happ, List.append_assoc]
      rw [List.take_append_of_le_length (by rw [hpre_len])]
      rw [List.take_take]
      congr 1
      omega
    rw [htake]
    have hihA : ((A ++ (l.drop cur).take (s - cur)) ++ t).length
        = A.length + (s - cur) + t.length := by
      rw [List.length_append, List.length_append, hpre_len]
    have hre := ih e (e + 1) ((A ++ (l.drop cur).take (s - cur)) ++ t) hrest
      (by omega)
    rw [hihA] at hre
    rw [show ((A ++ (l.drop cur).take (s - cur)) ++ t) ++ applyLineEditsAux l e rest
        = A ++ applyLineEditsAux l cur ((s, e, t) :: rest) from by
      rw [happ]
      simp [List.append_assoc]] at hre
    rw [hre, List.append_assoc]
    rw [show (l.drop s).take (e - s) ++ l.drop e = l.drop s from by
      have h1 : (l.drop s).drop (e - s) = l.drop e := by
        rw [List.drop_drop]
        congr 1
        omega
      rw [← h1, List.take_append_drop]]
    rw [show (l.drop cur).take (s - cur) ++ l.drop s = l.drop cur from by
      have h1 : (l.drop cur).drop (s - cur) = l.drop s := by
        rw [List.drop_drop]
        congr 1
        omega
      rw [← h1, List.take_append_drop]]

end Basica

namespace Basica

theorem takeWhile_get_true {p : Nat → Bool} :
    ∀ {L : Line} {j : Nat}, j < (L.takeWhile p).length →
      ∃ b, L.get? j = some b ∧ p b = true := by
  intro L
  induction L with
  | nil => intro j hj; simp [List.takeWhile] at hj
  | cons x xs ih =>
    intro j hj
    rw [List.takeWhile_cons] at hj
    by_cases hx : p x = true
    · rw [if_pos hx] at hj
      cases j with
      | zero => exact ⟨x, rfl, hx⟩
      | succ j' =>
        simp only [List.length_cons, Nat.succ_lt_succ_iff] at hj
        obtain ⟨b, hb, hpb⟩ := ih hj
        exact ⟨b, hb, hpb⟩
    · rw [if_neg hx] at hj
      simp at hj

theorem takeWhile_boundary_false {p : Nat → Bool} :
    ∀ {L : Line}, (L.takeWhile p).length < L.length →
      ∃ b, L.get? (L.takeWhile p).length = some b ∧ p b = false := by
  intro L
  induction L with
  | nil => intro h; simp at h
  | cons x xs ih =>
    intro h
    rw [List.takeWhile_cons] at h ⊢
    by_cases hx : p x = true
    · rw [if_pos hx] at h ⊢
      simp only [List.length_cons, Nat.succ_lt_succ_iff] at h
      obtain ⟨b, hb, hpb⟩ := ih h
      exact ⟨b, hb, hpb⟩
    · rw [if_neg hx] at h ⊢
      exact ⟨x, rfl, eq_false_of_ne_true hx⟩

theorem takeWhile_length_eq {p : Nat → Bool} :
    ∀ {L : Line} {k : Nat},
      (∀ j < k, ∃ b, L.get? j = some b ∧ p b = true) →
      (L.length ≤ k → L.length = k) →
      (k < L.length → ∃ b, L.get? k = some b ∧ p b = false) →
      (L.takeWhile p).length = k := by
  intro L
  induction L with
  | nil =>
    intro k h1 h2 h3
    simp only [List.takeWhile_nil, List.length_nil]
    rcases Nat.eq_zero_or_pos k with h0 | h0
    · omega
    · obtain ⟨b, hb, _⟩ := h1 0 h0
      simp at hb
  | cons x xs ih =>
    intro k h1 h2 h3
    rw [List.takeWhile_cons]
    cases k with
    | zero =>
      obtain ⟨b, hb, hpb⟩ := h3 (by simp)
      injection hb with hb
      rw [← hb] at hpb
      rw [if_neg (by rw [hpb]; exact Bool.false_ne_true)]
      rfl
    | succ k' =>
      obtain ⟨b, hb, hpb⟩ := h1 0 (by omega)
      injection hb with hb
      rw [← hb] at hpb
      rw [if_pos (by rw [hpb])]
      rw [List.length_cons]
      congr 1
      apply ih
      · intro j hj
        exact h1 (j + 1) (by omega)
      · intro hle
        have := h2 (by simp; omega)
        simp at this
        omega
      · intro hlt
        exact h3 (by simp; omega)

theorem takeWhile_nil_of_head_false {p : Nat → Bool} {L : Line} {b : Nat}
    (hb : L.get? 0 = some b) (hpb : p b = false) :
    (L.takeWhile p).length = 0 := by
  cases L with
  | nil => rfl
  | cons x xs =>
    injection hb with hb
    rw [← hb] at hpb
    rw [List.takeWhile_cons, if_neg (by rw [hpb]; exact Bool.false_ne_true)]
    rfl

end Basica

namespace Basica

theorem get_word_intro {l : Line} {q k : Nat}
    (hq0 : q = 0 ∨ ∃ b, l.get? (q - 1) = some b ∧ isWordChar b = false)
    (hk : 1 ≤ k)
    (hbytes : ∀ j < k, ∃ b, l.get? (q + j) = some b ∧ isWordChar b = true)
    (hend : l.length ≤ q + k ∨ ∃ b, l.get? (q + k) = some b ∧ isWordChar b = false) :
    get_word_at_position l q = some (q, q + k, (l.drop q).take k) := by
  have hql : q < l.length := by
    obtain ⟨b, hb, _⟩ := hbytes 0 (by omega)
    obtain ⟨h1, _⟩ := List.get?_eq_some.mp hb
    omega
  have hcp : min q l.length = q := by omega
  have hm1 : ((l.take (min q l.length)).reverse.takeWhile isWordChar).length = 0 := by
    rw [hcp]
    rcases hq0 with hq0 | ⟨b, hb, hpb⟩
    · subst hq0
      rfl
    · have hq1 : 1 ≤ q := by
        rcases Nat.eq_zero_or_pos q with h0 | h0
        · exfalso
          subst h0
          obtain ⟨b0, hb0, hw0⟩ := hbytes 0 (by omega)
          simp only [Nat.add_zero, Nat.zero_add] at hb0
          rw [show (0 : Nat) - 1 = 0 from rfl] at hb
          rw [hb] at hb0
          injection hb0 with hb0
          rw [hb0] at hpb
          rw [hpb] at hw0
          exact absurd hw0 (by simp)
        · omega
      have hlen : (l.take q).length = q := by
        rw [List.length_take]
        omega
      apply takeWhile_nil_of_head_false (b := b)
      · rw [List.get?_reverse (by omega)]
        rw [hlen]
        rw [List.get?_take (by omega)]
        rw [show q - 1 - 0 = q - 1 from by omega]
        exact hb
      · exact hpb
  have hm2 : ((l.drop (min q l.length)).takeWhile isWordChar).length = k := by
    rw [hcp]
    apply takeWhile_length_eq
    · intro j hj
      obtain ⟨b, hb, hpb⟩ := hbytes j hj
      refine ⟨b, ?_, hpb⟩
      rw [List.get?_drop]
      exact hb
    · intro hle
      rw [List.length_drop] at hle ⊢
      rcases hend with hend | ⟨b, hb, _⟩
      · obtain ⟨b, hb, _⟩ := hbytes (k - 1) (by omega)
        obtain ⟨h1, _⟩ := List.get?_eq_some.mp hb
        omega
      · obtain ⟨h1, _⟩ := List.get?_eq_some.mp hb
        omega
    · intro hlt
      rw [List.length_drop] at hlt
      rcases hend with hend | ⟨b, hb, hpb⟩
      · omega
      · refine ⟨b, ?_, hpb⟩
        rw [List.get?_drop]
        exact hb
  simp only [get_word_at_position]
  rw [hm1, hm2, hcp]
  rw [if_pos (by omega)]
  rw [show q - 0 = q from by omega]
  rw [show q + k - q = k from by omega]

end Basica

namespace Basica

theorem get_word_full {l : Line} {c s e : Nat} {w : Line}
    (h : get_word_at_position l c = some (s, e, w)) :
    w = (l.drop s).take (e - s) ∧ s < e ∧ e ≤ l.length
    ∧ (∀ k, s ≤ k → k < e → ∃ b, l.get? k = some b ∧ isWordChar b = true)
    ∧ (s = 0 ∨ ∃ b, l.get? (s - 1) = some b ∧ isWordChar b = false)
    ∧ (e = l.length ∨ ∃ b, l.get? e = some b ∧ isWordChar b = false) := by
  simp only [get_word_at_position] at h
  by_cases hlt : min c l.length
      - ((l.take (min c l.length)).reverse.takeWhile isWordChar).length
      < min c l.length + ((l.drop (min c l.length)).takeWhile isWordChar).length
  · rw [if_pos hlt] at h
    injection h with h1
    simp only [Prod.mk.injEq] at h1
    obtain ⟨h1, h2, h3⟩ := h1
    subst h1
    subst h2
    subst h3
    set cp := min c l.length with hcp
    set m1 := ((l.take cp).reverse.takeWhile isWordChar).length with hm1
    set m2 := ((l.drop cp).takeWhile isWordChar).length with hm2
    have hcpl : cp ≤ l.length := by omega
    have htl : (l.take cp).length = cp := by
      rw [List.length_take]
      omega
    have hm1le : m1 ≤ cp := by
      have := (List.takeWhile_prefix (l := (l.take cp).reverse)
        (p := isWordChar)).length_le
      rw [List.length_reverse, htl] at this
      omega
    have hm2le : m2 ≤ l.length - cp := by
      have := (List.takeWhile_prefix (l := l.drop cp)
        (p := isWordChar)).length_le
      rw [List.length_drop] at this
      omega
    refine ⟨rfl, hlt, by omega, ?_, ?_, ?_⟩
    · intro k hk1 hk2
      by_cases hkc : k < cp
      · -- byte taken from the backward scan
        have hj : cp - 1 - k < m1 := by omega
        obtain ⟨b, hb, hpb⟩ := takeWhile_get_true (p := isWordChar) hj
        rw [List.get?_reverse (by omega)] at hb
        rw [htl] at hb
        rw [List.get?_take (by omega)] at hb
        rw [show cp - 1 - (cp - 1 - k) = k from by omega] at hb
        exact ⟨b, hb, hpb⟩
      · -- byte taken from the forward scan
        have hj : k - cp < m2 := by omega
        obtain ⟨b, hb, hpb⟩ := takeWhile_get_true (p := isWordChar) hj
        rw [List.get?_drop] at hb
        rw [show cp + (k - cp) = k from by omega] at hb
        exact ⟨b, hb, hpb⟩
    · by_cases hs0 : cp - m1 = 0
      · exact Or.inl hs0
      · right
        have hm1lt : m1 < (l.take cp).reverse.length := by
          rw [List.length_reverse, htl]
          omega
        obtain ⟨b, hb, hpb⟩ := takeWhile_boundary_false (p := isWordChar) hm1lt
        rw [List.get?_reverse (by omega)] at hb
        rw [htl] at hb
        rw [List.get?_take (by omega)] at hb
        rw [show cp - 1 - m1 = cp - m1 - 1 from by omega] at hb
        exact ⟨b, hb, hpb⟩
    · by_cases he0 : cp + m2 = l.length
      · exact Or.inl he0
      · right
        have hm2lt : m2 < (l.drop cp).length := by
          rw [List.length_drop]
          omega
        obtain ⟨b, hb, hpb⟩ := takeWhile_boundary_false (p := isWordChar) hm2lt
        rw [List.get?_drop] at hb
        exact ⟨b, hb, hpb⟩
  · rw [if_neg hlt] at h
    exact absurd h (by simp)

end Basica

namespace Basica

theorem isAlpha_upperByte {b : Nat} (h : isAlpha b = true) :
    isAlpha (upperByte b) = true := by
  simp only [isAlpha, Bool.or_eq_true, Bool.and_eq_true, decide_eq_true_iff] at h ⊢
  rw [upperByte]
  rcases h with ⟨h1, h2⟩ | ⟨h1, h2⟩
  · rw [if_neg (by simp; omega)]
    left
    exact ⟨h1, h2⟩
  · rw [if_pos (by simp; omega)]
    left
    omega

theorem upper_alpha {nn : Line} (h : ∀ b ∈ nn, isAlpha b = true) :
    ∀ b ∈ upper nn, isAlpha b = true := by
  intro b hb
  obtain ⟨a, ha, rfl⟩ := List.mem_map.mp hb
  exact isAlpha_upperByte (h a ha)

theorem upper_ne_nil {nn : Line} (h : nn ≠ []) : upper nn ≠ [] := by
  intro h0
  exact h (List.map_eq_nil.mp h0)

theorem parseU32_none_of_alpha_head {v : Line} {b : Nat}
    (hb : v.get? 0 = some b) (hA : isAlpha b = true) : parseU32 v = none := by
  cases v with
  | nil => simp at hb
  | cons x t =>
    injection hb with hb
    rw [← hb] at hA
    simp only [isAlpha, Bool.or_eq_true, Bool.and_eq_true, decide_eq_true_iff] at hA
    rw [parseU32]
    rw [if_neg (by
      simp only [List.head?_cons, beq_iff_eq, Option.some.injEq]
      intro h
      omega)]
    have hds : (if (x :: t).head? == some 43 then (x :: t).tail else x :: t)
        = x :: t := by
      rw [if_neg (by
        simp only [List.head?_cons, beq_iff_eq, Option.some.injEq]
        intro h
        omega)]
    rw [hds]
    rw [if_pos (by
      simp only [List.all_cons, Bool.and_eq_true]
      rw [show isDigit x = false from by
        simp only [isDigit, Bool.and_eq_false_iff, decide_eq_false_iff_not]
        omega]
      simp)]

theorem renameBase_of_alpha {nn : Line} (hne : nn ≠ [])
    (hA : ∀ b ∈ nn, isAlpha b = true) : renameBase nn = upper nn := by
  have h36 : ((upper nn).getLast? == some 36) = false := by
    simp only [beq_eq_false_iff_ne, ne_eq]
    intro h
    have hmem : (36 : Nat) ∈ upper nn := by
      obtain ⟨hne2, heq⟩ := List.mem_getLast?_eq_getLast (by rw [h]; rfl)
      rw [heq]
      exact List.getLast_mem hne2
    have := upper_alpha hA 36 hmem
    simp [isAlpha] at this
  rw [renameBase, if_neg (by rw [h36]; exact Bool.false_ne_true)]

theorem renameBase_dollar {nn : Line} (hne : nn ≠ [])
    (hA : ∀ b ∈ nn, isAlpha b = true) :
    renameBase (nn ++ [36]) = upper nn := by
  rw [renameBase]
  have hup : upper (nn ++ [36]) = upper nn ++ [36] := by
    rw [upper_append]
    rfl
  rw [hup]
  rw [if_pos (by simp)]
  rw [List.length_append]
  simp only [List.length_singleton]
  rw [show (upper nn).length + 1 - 1 = (upper nn).length from by omega]
  rw [List.take_left]

end Basica

namespace Basica

theorem cursor_isOcc {lc : Line} {c s0 e0 : Nat} {w : Line}
    (hU : upper lc = lc)
    (hw : get_word_at_position lc c = some (s0, e0, w))
    (hwd : w ≠ [36]) :
    isOcc (renameBase w) lc s0 = true
    ∧ (∀ b ∈ renameBase w, isWordChar b = true) := by
  obtain ⟨hsl, hse, hel, hbytes, hleft, hright⟩ := get_word_full hw
  have hwlen : w.length = e0 - s0 := by
    rw [hsl, List.length_take, List.length_drop]
    omega
  have hwget : ∀ j, j < e0 - s0 → w.get? j = lc.get? (s0 + j) := by
    intro j hj
    rw [hsl, List.get?_take hj, List.get?_drop]
  have hwB : ∀ b ∈ w, isWordChar b = true := by
    intro b hb
    obtain ⟨n, hn⟩ := List.mem_iff_get?.mp hb
    obtain ⟨hnl, _⟩ := List.get?_eq_some.mp hn
    rw [hwget n (by omega)] at hn
    obtain ⟨b2, hb2, hw2⟩ := hbytes (s0 + n) (by omega) (by omega)
    rw [hb2] at hn
    injection hn with hn
    rw [← hn]
    exact hw2
  have hwnil : w ≠ [] := by
    intro h0
    rw [h0] at hwlen
    simp at hwlen
    omega
  have hupw : upper w = w := by
    rw [hsl, upper_take, upper_drop, hU]
  have hbefore : beforeOkAt lc s0 = true := by
    rcases hleft with h0 | ⟨b, hb, hpb⟩
    · rw [h0]
      exact beforeOk_intro_zero lc
    · obtain ⟨h1, h2, h3⟩ := isWordChar_decomp hpb
      exact beforeOk_intro_byte hb h1 h2 h3
  have hrb : renameBase w
      = (if w.getLast? == some 36 then w.take (w.length - 1) else w) := by
    rw [renameBase, hupw]
  by_cases h36 : w.getLast? == some 36
  · -- the cursor word carries a dollar suffix
    rw [hrb, if_pos h36]
    have hwlen1 : 1 ≤ w.length := by
      rcases w with _ | _
      · simp at hwnil
      · simp
    have hwlen2 : 1 ≤ w.length - 1 := by
      by_contra hc
      have hw1 : w.length = 1 := by omega
      obtain ⟨x, hx⟩ := List.length_eq_one.mp hw1
      apply hwd
      rw [hx]
      rw [hx] at h36
      simp only [List.getLast?_singleton, beq_iff_eq, Option.some.injEq] at h36
      rw [h36]
    have hdollar : lc.get? (e0 - 1) = some 36 := by
      rw [beq_iff_eq] at h36
      have := List.getLast?_eq_get? w
      rw [h36] at this
      have h2 := hwget (w.length - 1) (by omega)
      rw [← this] at h2
      rw [show s0 + (w.length - 1) = e0 - 1 from by omega] at h2
      exact h2.symm
    constructor
    · rw [isOcc]
      have hlen : (w.take (w.length - 1)).length = w.length - 1 := by
        rw [List.length_take]
        omega
      have hsw : startsWith (w.take (w.length - 1)) (lc.drop s0) = true := by
        rw [startsWith, hlen]
        have : (lc.drop s0).take (w.length - 1) = w.take (w.length - 1) := by
          rw [hwlen]
          conv_rhs => rw [hsl]
          rw [List.take_take]
          congr 1
          omega
        rw [this]
        exact beq_self_eq_true _
      rw [hsw, hbefore]
      have hafter : afterOkAt lc (s0 + (w.take (w.length - 1)).length) = true := by
        rw [hlen]
        rw [show s0 + (w.length - 1) = e0 - 1 from by omega]
        exact afterOk_intro_byte hdollar (by decide) (by decide)
      rw [hafter]
      rfl
    · intro b hb
      exact hwB b (List.mem_of_mem_take hb)
  · rw [hrb, if_neg h36]
    constructor
    · rw [isOcc]
      have hsw : startsWith w (lc.drop s0) = true := by
        rw [startsWith, hwlen]
        conv_lhs => rw [← hsl]
        exact beq_self_eq_true _
      rw [hsw, hbefore]
      have hafter : afterOkAt lc (s0 + w.length) = true := by
        rw [show s0 + w.length = e0 from by omega]
        rcases hright with h0 | ⟨b, hb, hpb⟩
        · exact afterOk_intro_ge (by omega)
        · obtain ⟨h1, h2, _⟩ := isWordChar_decomp hpb
          exact afterOk_intro_byte hb h1 h2
      rw [hafter]
      rfl
    · exact hwB

end Basica

namespace Basica

theorem renameReplacement_lastne {nn : Line} (hne : nn ≠ [])
    (hlast : nn.getLast? ≠ some 36) (d : Bool) :
    renameReplacement nn d = (if d then nn ++ [36] else nn) := by
  cases d with
  | true =>
    rw [renameReplacement, if_pos rfl, if_neg (by
      intro h
      exact hlast (by simpa using h))]
    rfl
  | false =>
    rw [renameReplacement, if_neg (by simp)]
    show trimEndDollars nn = nn
    rw [trimEndDollars]
    rcases hrev : nn.reverse with _ | ⟨b, t⟩
    · simp at hrev
      exact absurd hrev hne
    · have hb : nn.getLast? = some b := by
        rw [List.getLast?_eq_head?_reverse, hrev]
        rfl
      have hbne : (b == 36) = false := by
        simp only [beq_eq_false_iff_ne, ne_eq]
        intro h
        rw [h] at hb
        exact hlast hb
      rw [List.dropWhile_cons, hbne]
      show (b :: t).reverse = nn
      rw [← hrev]
      exact List.reverse_reverse nn

theorem occEdits_to_triples (base nn : Line) (li : Nat) (up : Line) :
    (occEdits base nn li up).map
      (fun e => (e.range.startChar, e.range.endChar, e.newText))
      = occTriples base nn up := by
  rw [occEdits, occTriples, List.map_map]
  rfl

theorem revEdits_to_triples (l : Line) (li : Nat) :
    ∀ (trips : List (Nat × Nat × Line)) (d0 cur : Nat),
      (revEdits l li d0 cur trips).map
        (fun e => (e.range.startChar, e.range.endChar, e.newText))
        = revTriples l d0 cur trips := by
  intro trips
  induction trips with
  | nil => intro d0 cur; rfl
  | cons tr rest ih =>
    intro d0 cur
    rcases tr with ⟨s, e, t⟩
    rw [revEdits_cons, revTriples_cons, List.map_cons, ih]

theorem revTriples_map_eq (l : Line) (Q : List Nat) (f g : Nat → Nat × Nat × Line)
    (hfg : ∀ q ∈ Q, (f q).1 = (g q).1 ∧ (f q).2.1 = (g q).2.1
      ∧ (f q).2.2.length = (g q).2.2.length) :
    ∀ (d0 cur : Nat), revTriples l d0 cur (Q.map f) = revTriples l d0 cur (Q.map g) := by
  induction Q with
  | nil => intro d0 cur; rfl
  | cons q Q' ih =>
    intro d0 cur
    obtain ⟨h1, h2, h3⟩ := hfg q (by simp)
    rw [List.map_cons, List.map_cons]
    rw [show (f q) = ((f q).1, (f q).2.1, (f q).2.2) from rfl]
    rw [show (g q) = ((g q).1, (g q).2.1, (g q).2.2) from rfl]
    rw [revTriples_cons, revTriples_cons]
    rw [h1, h2, h3]
    rw [ih (fun x hx => hfg x (List.mem_cons_of_mem q hx))]

end Basica

namespace Basica

theorem cursor_base_last {lc : Line} {c s0 e0 : Nat} {w : Line}
    (hU : upper lc = lc)
    (hw : get_word_at_position lc c = some (s0, e0, w))
    (hwd : w ≠ [36])
    (hclean : ∀ i, lc.get? i = some 36 →
      ∀ b, lc.get? (i + 1) = some b → isWordChar b = false) :
    (renameBase w).getLast? ≠ some 36 := by
  obtain ⟨hsl, hse, hel, hbytes, hleft, hright⟩ := get_word_full hw
  have hwlen : w.length = e0 - s0 := by
    rw [hsl, List.length_take, List.length_drop]
    omega
  have hwget : ∀ j, j < e0 - s0 → w.get? j = lc.get? (s0 + j) := by
    intro j hj
    rw [hsl, List.get?_take hj, List.get?_drop]
  have hwnil : w ≠ [] := by
    intro h0
    rw [h0] at hwlen
    simp at hwlen
    omega
  have hupw : upper w = w := by
    rw [hsl, upper_take, upper_drop, hU]
  have hrb : renameBase w
      = (if w.getLast? == some 36 then w.take (w.length - 1) else w) := by
    rw [renameBase, hupw]
  by_cases h36 : w.getLast? == some 36
  · rw [hrb, if_pos h36]
    have hwlen1 : 1 ≤ w.length := by
      rcases w with _ | _
      · simp at hwnil
      · simp
    have hwlen2 : 2 ≤ w.length := by
      by_contra hc
      have hw1 : w.length = 1 := by omega
      obtain ⟨x, hx⟩ := List.length_eq_one.mp hw1
      apply hwd
      rw [hx]
      rw [hx] at h36
      simp only [List.getLast?_singleton, beq_iff_eq, Option.some.injEq] at h36
      rw [h36]
    intro hcontra
    have htklen : (w.take (w.length - 1)).length = w.length - 1 := by
      rw [List.length_take]
      omega
    have hlast2 : (w.take (w.length - 1)).getLast?
        = w.get? (w.length - 2) := by
      rw [List.getLast?_eq_get?, htklen]
      rw [List.get?_take (by omega)]
      congr 1
    have hg2 : lc.get? (s0 + (w.length - 2)) = some 36 := by
      rw [← hwget (w.length - 2) (by omega)]
      rw [← hlast2]
      exact hcontra
    have hg1 : lc.get? (s0 + (w.length - 2) + 1) = some 36 := by
      rw [show s0 + (w.length - 2) + 1 = s0 + (w.length - 1) from by omega]
      rw [← hwget (w.length - 1) (by omega)]
      rw [← List.getLast?_eq_get?]
      exact beq_iff_eq.mp h36
    have := hclean (s0 + (w.length - 2)) hg2 36 hg1
    simp [isWordChar] at this
  · rw [hrb, if_neg h36]
    intro hcontra
    exact h36 (by simp [hcontra])

end Basica

namespace Basica

theorem spliced_word {base1 nn l : Line} {q1 : Nat} {Q' : List Nat}
    (hb1 : base1 ≠ []) (hbw : ∀ b ∈ base1, isWordChar b = true)
    (hnnne : nn ≠ []) (hnnA : ∀ b ∈ nn, isAlpha b = true)
    (hclean : ∀ i, l.get? i = some 36 →
      ∀ b, l.get? (i + 1) = some b → isWordChar b = false)
    (hQ : occList base1 l = q1 :: Q') :
    get_word_at_position (applyLineEditsAux l 0 (occTriples base1 nn l)) q1
      = some (q1, q1 + (renameReplacement nn (occDollar base1 l q1)).length,
          renameReplacement nn (occDollar base1 l q1)) := by
  have hocc1 : isOcc base1 l q1 = true := by
    apply occList_mem_isOcc
    rw [hQ]
    exact List.mem_cons_self q1 Q'
  have hb1len : 1 ≤ base1.length := base_length_pos hb1
  have hq1len : q1 + base1.length ≤ l.length := by
    have := startsWith_length_le (isOcc_startsWith hocc1)
    rw [List.length_drop] at this
    omega
  have hsp := spanInv_occTriples base1 nn l hbw hb1
  rw [occTriples, hQ, List.map_cons] at hsp
  obtain ⟨_, _, _, _, hrest⟩ := hsp
  have hoT : occTriples base1 nn l
      = (q1, occEnd base1 l q1, renameReplacement nn (occDollar base1 l q1))
        :: Q'.map (fun q => (q, occEnd base1 l q,
          renameReplacement nn (occDollar base1 l q))) := by
    rw [occTriples, hQ, List.map_cons]
  set d1 := occDollar base1 l q1 with hd1
  set e1 := occEnd base1 l q1 with he1
  set t1 := renameReplacement nn d1 with ht1def
  set rest := Q'.map (fun q => (q, occEnd base1 l q,
    renameReplacement nn (occDollar base1 l q))) with hrestdef
  have hform : applyLineEditsAux l 0 (occTriples base1 nn l)
      = l.take q1 ++ (t1 ++ applyLineEditsAux l e1 rest) := by
    rw [hoT]
    show (l.drop 0).take (q1 - 0) ++ t1 ++ applyLineEditsAux l e1 rest = _
    rw [List.drop_zero, Nat.sub_zero, List.append_assoc]
  have htake : (l.take q1).length = q1 := by
    rw [List.length_take]
    omega
  have ht1 : t1 = (if d1 then nn ++ [36] else nn) :=
    renameReplacement_alpha hnnne hnnA d1
  have hnnlen : 1 ≤ nn.length := by
    rcases nn with _ | _
    · simp at hnnne
    · simp
  have ht1len : 1 ≤ t1.length := by
    rw [ht1]
    by_cases hd : d1 = true
    · rw [if_pos hd, List.length_append]
      omega
    · rw [if_neg hd]
      exact hnnlen
  have ht1word : ∀ b ∈ t1, isWordChar b = true := by
    intro b hb
    rw [ht1] at hb
    by_cases hd : d1 = true
    · rw [if_pos hd] at hb
      rcases List.mem_append.mp hb with hb | hb
      · exact isWordChar_of_alpha (hnnA b hb)
      · simp only [List.mem_singleton] at hb
        subst hb
        rfl
    · rw [if_neg hd] at hb
      exact isWordChar_of_alpha (hnnA b hb)
  have hhead : (applyLineEditsAux l e1 rest).get? 0 = l.get? e1 :=
    apply_head base1 (renameReplacement nn) l hb1 rest e1 hrest
  rw [hform]
  have hmain := get_word_intro (l := l.take q1 ++ (t1 ++ applyLineEditsAux l e1 rest))
    (q := q1) (k := t1.length)
    (by
      -- left boundary
      rcases Nat.eq_zero_or_pos q1 with h0 | h0
      · exact Or.inl h0
      · right
        obtain ⟨b, hb, ha1, ha2, ha3⟩ := beforeOkAt_byte (isOcc_beforeOk hocc1)
          (by omega)
        refine ⟨b, ?_, isWordChar_intro ha1 ha2 ha3⟩
        rw [List.get?_append (by omega)]
        rw [List.get?_take (by omega)]
        exact hb)
    ht1len
    (by
      -- interior bytes
      intro j hj
      have hjget : (l.take q1 ++ (t1 ++ applyLineEditsAux l e1 rest)).get? (q1 + j)
          = t1.get? j := by
        rw [List.get?_append_right (by omega)]
        rw [htake]
        rw [show q1 + j - q1 = j from by omega]
        rw [List.get?_append (by omega)]
      obtain ⟨b, hb⟩ : ∃ b, t1.get? j = some b := by
        rcases hg : t1.get? j with _ | b
        · rw [List.get?_eq_none] at hg
          omega
        · exact ⟨b, rfl⟩
      refine ⟨b, by rw [hjget]; exact hb, ?_⟩
      apply ht1word
      obtain ⟨_, hbe⟩ := List.get?_eq_some.mp hb
      rw [← hbe]
      exact List.get_mem t1 _ _
    )
    (by
      -- right boundary
      rcases hge : l.get? e1 with _ | b
      · left
        have hB : applyLineEditsAux l e1 rest = [] := by
          rw [hge] at hhead
          rcases hA : applyLineEditsAux l e1 rest with _ | ⟨x, xs⟩
          · rfl
          · rw [hA] at hhead
            simp at hhead
        rw [hB]
        rw [List.length_append, List.length_append, htake]
        simp
      · right
        refine ⟨b, ?_, ?_⟩
        · rw [List.get?_append_right (by omega)]
          rw [htake]
          rw [show q1 + t1.length - q1 = t1.length from by omega]
          rw [List.get?_append_right (by omega)]
          rw [Nat.sub_self]
          rw [hhead]
          exact hge
        · have hel : e1 < l.length := by
            obtain ⟨h1, _⟩ := List.get?_eq_some.mp hge
            exact h1
          by_cases hd : d1 = true
          · have hdollar : l.get? (q1 + base1.length) = some 36 :=
              occDollar_byte hd
            have he1v : e1 = q1 + base1.length + 1 := by
              rw [he1, occEnd, if_pos hd]
            apply hclean (q1 + base1.length) hdollar
            rw [← he1v]
            exact hge
          · have he1v : e1 = q1 + base1.length := by
              rw [he1, occEnd, if_neg hd]
            obtain ⟨b', hb', ha1, ha2⟩ := afterOkAt_byte (isOcc_afterOk hocc1)
              (by omega)
            rw [he1v] at hge
            rw [hb'] at hge
            injection hge with hge
            subst hge
            apply isWordChar_intro ha1 ha2
            intro h36
            apply hd
            rw [hd1, occDollar]
            simp only [Bool.and_eq_true, decide_eq_true_iff, beq_iff_eq]
            refine ⟨by omega, ?_⟩
            rw [hb', h36]
    )
  rw [hmain]
  rw [List.drop_left' htake]
  rw [List.take_left' (rfl : t1.length = t1.length)]

end Basica

namespace Basica

theorem rename_is_keyword_dollar (v : Line) :
    rename_is_keyword (v ++ [36]) = false := by
  by_contra hc
  rw [Bool.not_eq_false] at hc
  rw [rename_is_keyword, List.any_eq_true] at hc
  obtain ⟨k, hk, he⟩ := hc
  rw [beq_iff_eq] at he
  have h36 : k.getLast? = some 36 := by
    rw [he]
    exact List.getLast?_concat _
  have hall : ∀ x ∈ (["REM", "LET", "DIM", "PRINT", "LPRINT", "INPUT", "LINE",
      "IF", "THEN", "ELSE", "ELSEIF", "END", "ENDIF", "FOR", "TO", "STEP",
      "NEXT", "WHILE", "WEND", "DO", "LOOP", "UNTIL", "EXIT", "SELECT",
      "CASE", "GOTO", "GOSUB", "RETURN", "ON", "READ", "DATA", "RESTORE",
      "DEF", "FN", "OPEN", "CLOSE", "GET", "PUT", "WRITE", "FIELD", "LSET",
      "RSET", "AS", "OUTPUT", "APPEND", "RANDOM", "BINARY", "SCREEN",
      "COLOR", "CLS", "LOCATE", "WIDTH", "CIRCLE", "PAINT", "PSET",
      "PRESET", "DRAW", "PLAY", "SOUND", "BEEP", "SWAP", "RANDOMIZE",
      "CLEAR", "STOP", "POKE", "PEEK", "OUT", "INP", "WAIT", "AND", "OR",
      "XOR", "NOT", "MOD", "IMP", "EQV", "KILL", "NAME", "MKDIR", "RMDIR",
      "CHDIR", "FILES", "CALL", "CHAIN", "COMMON", "SHARED",
      "STATIC"].map bytes), x.getLast? ≠ some 36 := by decide
  exact hall k hk h36

theorem revEdits_map_eq (l : Line) (li : Nat) (Q : List Nat)
    (f g : Nat → Nat × Nat × Line)
    (hfg : ∀ q ∈ Q, (f q).1 = (g q).1 ∧ (f q).2.1 = (g q).2.1
      ∧ (f q).2.2.length = (g q).2.2.length) :
    ∀ (d0 cur : Nat),
      revEdits l li d0 cur (Q.map f) = revEdits l li d0 cur (Q.map g) := by
  induction Q with
  | nil => intro d0 cur; rfl
  | cons q Q' ih =>
    intro d0 cur
    obtain ⟨h1, h2, h3⟩ := hfg q (by simp)
    rw [List.map_cons, List.map_cons]
    rw [show (f q) = ((f q).1, (f q).2.1, (f q).2.2) from rfl]
    rw [show (g q) = ((g q).1, (g q).2.1, (g q).2.2) from rfl]
    rw [revEdits_cons, revEdits_cons]
    rw [h1, h2, h3]
    rw [ih (fun x hx => hfg x (List.mem_cons_of_mem q hx))]

theorem renameBase_ne_nil {w : Line} (hwnil : w ≠ []) (hwd : w ≠ [36]) :
    renameBase w ≠ [] := by
  rw [renameBase]
  by_cases h36 : ((upper w).getLast? == some 36) = true
  · rw [if_pos h36]
    intro hc
    have hlen : (upper w).length = w.length := List.length_map _ _
    have hwl : 1 ≤ w.length := by
      rcases w with _ | _
      · simp at hwnil
      · simp
    have htk : (upper w).length - 1 = 0 := by
      by_contra hne
      rw [List.take_eq_nil_iff] at hc
      rcases hc with hc | hc
      · exact hne hc
      · rw [hc] at hlen
        simp at hlen
        omega
    have hw1 : w.length = 1 := by omega
    obtain ⟨x, hx⟩ := List.length_eq_one.mp hw1
    rw [hx] at h36
    have hub : upperByte x = 36 := by
      simp only [upper, List.map_cons, List.map_nil, List.getLast?_singleton,
        beq_iff_eq, Option.some.injEq] at h36
      exact h36
    have hx36 : x = 36 := by
      rw [upperByte] at hub
      by_cases hr : (97 ≤ x && x ≤ 122) = true
      · rw [if_pos hr] at hub
        simp only [Bool.and_eq_true, decide_eq_true_iff] at hr
        omega
      · rw [if_neg hr] at hub
        exact hub
    apply hwd
    rw [hx, hx36]
  · rw [if_neg h36]
    intro hc
    apply hwnil
    rcases w with _ | ⟨b, t⟩
    · rfl
    · simp [upper] at hc

theorem docOccEdits_ne_nil {base nn : Line} {src : Doc} {li : Nat} {l : Line}
    (hl : src.get? li = some l) (hne : occEdits base nn li (upper l) ≠ []) :
    docOccEdits base nn src ≠ [] := by
  rw [docOccEdits]
  intro hc
  apply hne
  have hmem : (li, l) ∈ src.enum := by
    rw [List.mem_enum_iff_get?]
    exact hl
  have := List.flatMap_eq_nil_iff.mp hc (li, l) hmem
  exact this

end Basica

namespace Basica

theorem wordp_of_alpha {v : Line} (h : ∀ b ∈ v, isAlpha b = true) :
    ∀ b ∈ v, isWordChar b = true := by
  intro b hb
  exact isWordChar_of_alpha (h b hb)

theorem line_roundtrip (base1 nn l : Line) (li : Nat)
    (hU1 : upper l = l)
    (hnnne : nn ≠ []) (hnnA : ∀ b ∈ nn, isAlpha b = true)
    (hfr0 : containsSub (upper nn) l = false)
    (hb1 : base1 ≠ []) (hbw : ∀ b ∈ base1, isWordChar b = true)
    (hb1last : base1.getLast? ≠ some 36) :
    occEdits (upper nn) base1 li
        (upper (applyLineEditsAux l 0 (occTriples base1 nn l)))
      = revEdits l li 0 0 (occTriples base1 nn l)
    ∧ applyLineEditsAux (applyLineEditsAux l 0 (occTriples base1 nn l)) 0
        (occTriples (upper nn) base1
          (upper (applyLineEditsAux l 0 (occTriples base1 nn l))))
      = l := by
  have hmap3 : ∀ q ∈ occList base1 l,
      upper (renameReplacement nn (occDollar base1 l q))
        = (if occDollar base1 l q then upper nn ++ [36] else upper nn) := by
    intro q _
    rw [renameReplacement_alpha hnnne hnnA]
    by_cases hd : occDollar base1 l q = true
    · rw [if_pos hd, if_pos hd, upper_append]
      rfl
    · rw [if_neg hd, if_neg hd]
  have hupN : upper (applyLineEditsAux l 0 (occTriples base1 nn l))
      = applyLineEditsAux l 0 ((occList base1 l).map
          (fun q => (q, occEnd base1 l q,
            if occDollar base1 l q then upper nn ++ [36] else upper nn))) := by
    rw [upper_applyLineEditsAux, hU1]
    congr 1
    rw [occTriples, List.map_map]
    apply List.map_congr_left
    intro q hq
    simp only [Function.comp]
    rw [hmap3 q hq]
  have hspan : SpanInv base1 (fun d => if d then upper nn ++ [36] else upper nn)
      l 0 ((occList base1 l).map
        (fun q => (q, occEnd base1 l q,
          if occDollar base1 l q then upper nn ++ [36] else upper nn))) := by
    exact spanInv_build base1 (fun d => if d then upper nn ++ [36] else upper nn)
      l hbw hb1 (occList base1 l) 0 (occList_sorted base1 l)
      (fun q hq => occList_mem_isOcc hq) (fun q _ => by omega)
  have hK := zone_main base1 (upper nn) base1 li l (upper_ne_nil hnnne)
    (wordp_of_alpha (upper_alpha hnnA)) (containsSub_false_all hfr0) hb1
    (renameReplacement_lastne hb1 hb1last)
    ((occList base1 l).map
      (fun q => (q, occEnd base1 l q,
        if occDollar base1 l q then upper nn ++ [36] else upper nn)))
    0 0 [] hspan (Nat.le_refl 0) (Or.inl ⟨rfl, rfl⟩)
  simp only [List.nil_append, List.length_nil] at hK
  obtain ⟨K1, K2⟩ := hK
  simp only [Nat.sub_zero] at K1
  have hlen3 : ∀ q ∈ occList base1 l,
      ((fun q => (q, occEnd base1 l q,
          if occDollar base1 l q then upper nn ++ [36] else upper nn)) q).1
        = ((fun q => (q, occEnd base1 l q,
            renameReplacement nn (occDollar base1 l q))) q).1
      ∧ ((fun q => (q, occEnd base1 l q,
          if occDollar base1 l q then upper nn ++ [36] else upper nn)) q).2.1
        = ((fun q => (q, occEnd base1 l q,
            renameReplacement nn (occDollar base1 l q))) q).2.1
      ∧ (((fun q => (q, occEnd base1 l q,
          if occDollar base1 l q then upper nn ++ [36] else upper nn)) q).2.2).length
        = (((fun q => (q, occEnd base1 l q,
            renameReplacement nn (occDollar base1 l q))) q).2.2).length := by
    intro q hq
    refine ⟨rfl, rfl, ?_⟩
    show (if occDollar base1 l q then upper nn ++ [36] else upper nn).length
      = (renameReplacement nn (occDollar base1 l q)).length
    rw [← hmap3 q hq]
    exact List.length_map _ _
  have K1' : occList (upper nn)
      (applyLineEditsAux l 0 ((occList base1 l).map
        (fun q => (q, occEnd base1 l q,
          if occDollar base1 l q then upper nn ++ [36] else upper nn))))
      = newStartsAbs 0 0 ((occList base1 l).map
        (fun q => (q, occEnd base1 l q,
          if occDollar base1 l q then upper nn ++ [36] else upper nn))) := by
    show (List.range ((applyLineEditsAux l 0 ((occList base1 l).map
        (fun q => (q, occEnd base1 l q,
          if occDollar base1 l q then upper nn ++ [36] else upper nn)))).length
          + 1)).filter
      (isOcc (upper nn) (applyLineEditsAux l 0 ((occList base1 l).map
        (fun q => (q, occEnd base1 l q,
          if occDollar base1 l q then upper nn ++ [36] else upper nn))))) = _
    rw [List.range_eq_range']
    exact K1
  have ha : occEdits (upper nn) base1 li
      (upper (applyLineEditsAux l 0 (occTriples base1 nn l)))
      = revEdits l li 0 0 (occTriples base1 nn l) := by
    rw [hupN]
    rw [occEdits]
    rw [K1', K2]
    rw [occTriples]
    exact revEdits_map_eq l li (occList base1 l) _ _ hlen3 0 0
  refine ⟨ha, ?_⟩
  have hb : occTriples (upper nn) base1
      (upper (applyLineEditsAux l 0 (occTriples base1 nn l)))
      = revTriples l 0 0 (occTriples base1 nn l) := by
    rw [← occEdits_to_triples (upper nn) base1 li
      (upper (applyLineEditsAux l 0 (occTriples base1 nn l)))]
    rw [ha]
    rw [revEdits_to_triples]
  rw [hb]
  have hsb := splice_back base1 (renameReplacement nn) l hb1
    (occTriples base1 nn l) 0 0 []
    (spanInv_occTriples base1 nn l hbw hb1) (Nat.le_refl 0)
  simp only [List.nil_append, List.length_nil, List.drop_zero] at hsb
  exact hsb

end Basica

namespace Basica

theorem splitByte_ne_nil (sep : Nat) (l : Line) : splitByte sep l ≠ [] := by
  cases l with
  | nil => simp [splitByte]
  | cons b t =>
    rw [splitByte]
    by_cases hb : (b == sep) = true
    · rw [if_pos hb]
      simp
    · rw [if_neg hb]
      rcases h : splitByte sep t with _ | _
      · simp
      · simp

theorem splitByte_prefix (sep : Nat) :
    ∀ (l : Line) (p : Line) (ps : List Line), splitByte sep l = p :: ps →
      l.take p.length = p
      ∧ (ps ≠ [] → splitByte sep (l.drop (p.length + 1)) = ps) := by
  intro l
  induction l with
  | nil =>
    intro p ps h
    rw [splitByte] at h
    injection h with h1 h2
    subst h1
    subst h2
    exact ⟨rfl, fun hc => absurd rfl hc⟩
  | cons b t ih =>
    intro p ps h
    rw [splitByte] at h
    by_cases hb : (b == sep) = true
    · rw [if_pos hb] at h
      injection h with h1 h2
      subst h1
      subst h2
      exact ⟨rfl, fun _ => rfl⟩
    · rw [if_neg hb] at h
      rcases hst : splitByte sep t with _ | ⟨p', ps'⟩
      · exact absurd hst (splitByte_ne_nil sep t)
      · rw [hst] at h
        injection h with h1 h2
        obtain ⟨ih1, ih2⟩ := ih p' ps' hst
        subst h1
        subst h2
        constructor
        · show (b :: t).take (p'.length + 1) = b :: p'
          rw [List.take_succ_cons, ih1]
        · intro hne
          show splitByte sep (t.drop (p'.length + 1)) = ps'
          exact ih2 hne

end Basica

namespace Basica

theorem culTrue_spans (l : Line) (ln : Nat) :
    ∀ (parts : List Line) (pos : Nat),
      splitByte 44 (l.drop pos) = parts →
      ∀ r ∈ culPartsTrue ln pos parts,
        ∃ ns, parseU32 ns = some r.target
          ∧ r.charEnd = r.charStart + ns.length
          ∧ (l.drop r.charStart).take ns.length = ns := by
  intro parts
  induction parts with
  | nil => intro pos _ r hr; simp [culPartsTrue] at hr
  | cons p ps ih =>
    intro pos hsplit r hr
    obtain ⟨hpre, hrec⟩ := splitByte_prefix 44 (l.drop pos) p ps hsplit
    rw [culPartsTrue] at hr
    rcases hnum : parseU32 ((firstWord p).getD []) with _ | t
    · rw [hnum] at hr
      simp at hr
    · rw [hnum] at hr
      rcases List.mem_cons.mp hr with hr | hr
      · -- the head reference: its span text is the numeric token
        subst hr
        rcases hfw : firstWord p with _ | ns0
        · rw [hfw] at hnum
          simp [parseU32] at hnum
        · rw [hfw] at hnum
          simp only [Option.getD_some]
          refine ⟨ns0, hnum, rfl, ?_⟩
          -- ns0 is the first word of p, sitting after p's leading whitespace
          have hts : ns0 = (trimStart p).takeWhile (fun b => !isWs b) := by
            rw [firstWord] at hfw
            by_cases he : (trimStart p).isEmpty = true
            · rw [if_pos he] at hfw
              simp at hfw
            · rw [if_neg he] at hfw
              injection hfw with hfw
              exact hfw.symm
          have hws : trimStart p = p.drop (p.length - (trimStart p).length) := by
            have h1 : trimStart p = p.drop ((p.takeWhile isWs).length) := by
              rw [trimStart, dropWhile_eq_drop_length]
            have h2 : (trimStart p).length = p.length - (p.takeWhile isWs).length := by
              rw [h1, List.length_drop]
            have h3 : (p.takeWhile isWs).length ≤ p.length :=
              (List.takeWhile_prefix _).length_le
            rw [h1]
            rw [List.length_drop]
            congr 1
            omega
          have hdroppos : l.drop pos = p ++ (l.drop pos).drop p.length := by
            conv_lhs => rw [← List.take_append_drop p.length (l.drop pos)]
            rw [hpre]
          have hns0le : ns0.length ≤ (trimStart p).length := by
            rw [hts]
            exact (List.takeWhile_prefix _).length_le
          show (l.drop (pos + (p.length - (trimStart p).length))).take ns0.length
            = ns0
          rw [← List.drop_drop]
          rw [hdroppos]
          rw [List.drop_append_eq_append_drop]
          rw [show p.drop (p.length - (trimStart p).length) = trimStart p from
            hws.symm]
          rw [List.take_append_eq_append_take]
          rw [show ns0.length - (trimStart p).length = 0 from by omega]
          rw [List.take_zero, List.append_nil]
          rw [hts]
          exact (List.prefix_iff_eq_take.mp (List.takeWhile_prefix _)).symm
      · -- a later reference: recurse past the part and its comma
        revert hr
        rcases ps with _ | ⟨p2, ps2⟩
        · intro hr
          simp [culPartsTrue] at hr
        · intro hr
          apply ih (pos + p.length + 1) _ r hr
          rw [← hrec (by simp)]
          rw [List.drop_drop]
          rw [show pos + p.length + 1 = pos + (p.length + 1) from by omega]

end Basica

namespace Basica

theorem culTrue_shift (ln : Nat) :
    ∀ (parts : List Line) (pos c : Nat),
      culPartsTrue ln (pos + c) parts
        = (culPartsTrue ln pos parts).map
            (fun r => ⟨r.row, r.charStart + c, r.charEnd + c, r.target⟩) := by
  intro parts
  induction parts with
  | nil => intro pos c; rfl
  | cons p ps ih =>
    intro pos c
    rw [culPartsTrue, culPartsTrue]
    rcases hnum : parseU32 ((firstWord p).getD []) with _ | t
    · rfl
    · simp only [List.map_cons]
      congr 1
      · show (⟨ln, pos + c + (p.length - (trimStart p).length),
            pos + c + (p.length - (trimStart p).length)
              + ((firstWord p).getD []).length, t⟩ : JumpRef) = _
        have e2 : pos + c + (p.length - (trimStart p).length)
              + ((firstWord p).getD []).length
            = pos + (p.length - (trimStart p).length)
              + ((firstWord p).getD []).length + c := by omega
        rw [e2]
        have e1 : pos + c + (p.length - (trimStart p).length)
            = pos + (p.length - (trimStart p).length) + c := by omega
        rw [e1]
      · rw [show pos + c + p.length + 1 = pos + p.length + 1 + c from by omega]
        exact ih (pos + p.length + 1) c

theorem culRefs_vs_true (ln : Nat) :
    ∀ (parts : List Line) (absPos j : Nat) (r : JumpRef),
      (culPartsRefs ln absPos parts).get? j = some r →
      (culPartsTrue ln absPos parts).get? j
        = some ⟨r.row, r.charStart + partsD parts j,
            r.charEnd + partsD parts j, r.target⟩ := by
  intro parts
  induction parts with
  | nil => intro absPos j r h; simp [culPartsRefs] at h
  | cons p ps ih =>
    intro absPos j r h
    rw [culPartsRefs] at h
    rw [culPartsTrue]
    rcases hnum : parseU32 ((firstWord p).getD []) with _ | t
    · rw [hnum] at h
      simp at h
    · rw [hnum] at h
      cases j with
      | zero =>
        simp only [List.get?_cons_zero, Option.some.injEq] at h
        simp only [List.get?_cons_zero, Option.some.injEq]
        rw [← h]
        show (⟨ln, absPos + (p.length - (trimStart p).length), _, t⟩ : JumpRef) = _
        have h0 : partsD (p :: ps) 0 = 0 := rfl
        rw [h0]
        rfl
      | succ j =>
        simp only [List.get?_cons_succ] at h
        simp only [List.get?_cons_succ]
        have hstep := ih absPos j r h
        rw [show absPos + p.length + 1 = absPos + (p.length + 1) from by omega]
        rw [culTrue_shift ln ps absPos (p.length + 1)]
        rw [List.get?_map, hstep]
        show some _ = some _
        congr 1
        show (⟨r.row, r.charStart + partsD ps j + (p.length + 1),
          r.charEnd + partsD ps j + (p.length + 1), r.target⟩ : JumpRef) = _
        have hD : partsD (p :: ps) (j + 1) = p.length + 1 + partsD ps j := rfl
        rw [hD]
        rw [show r.charStart + partsD ps j + (p.length + 1)
          = r.charStart + (p.length + 1 + partsD ps j) from by omega]
        rw [show r.charEnd + partsD ps j + (p.length + 1)
          = r.charEnd + (p.length + 1 + partsD ps j) from by omega]

end Basica

namespace Basica

/-- C4: the "column span" clause of the claim fails on a comma-separated
`ON ... GOTO` list: for `10 ON X GOTO 99, 98` the second Error is emitted at
columns 14-16, where the document holds `8,<space>`, while the token `98`
sits at columns 17-19 (the scanner reuses the keyword-relative base offset
for every comma part instead of advancing past earlier parts). -/
theorem C4_counterexample :
    check_undefined_lines [bytes "10 ON X GOTO 99, 98"]
      = [⟨⟨0, 13, 0, 15⟩, .err, bytes "Line 99 is not defined", false⟩,
         ⟨⟨0, 14, 0, 16⟩, .err, bytes "Line 98 is not defined", false⟩]
    ∧ ((bytes "10 ON X GOTO 99, 98").drop 14).take 2 ≠ bytes "98"
    ∧ ((bytes "10 ON X GOTO 99, 98").drop 17).take 2 = bytes "98" := by
  refine ⟨rfl, by decide, rfl⟩

/-- C4 (amended): `10 GOTO 99` yields exactly one Error `Line 99 is not
defined` covering the token `99`; in general check_undefined_lines emits one
such Error per scanned jump reference with an undefined target, check (on
parse success) returns them after the warning passes, and each reference's
recorded span has the width of its numeric token and the correct column only
for the first entry after each jump keyword: entries after a comma are
shifted left by the combined width of the preceding comma parts, so the
span's text is the token only at shift `partsD parts j`. -/
theorem C4_amended_undefined_line_spans :
    (check (.ok ()) [bytes "10 GOTO 99"] =
      [⟨⟨0, 8, 0, 10⟩, .err, bytes "Line 99 is not defined", false⟩])
    ∧ (∀ src : Doc, check_undefined_lines src =
        ((jumpRefs src).filter
          (fun r => !((definedLines src).contains r.target))).map mkUndefinedDiag)
    ∧ (∀ src : Doc, ∃ pre, check (.ok ()) src = pre ++ check_undefined_lines src)
    ∧ (∀ (l : Line) (ln absPos j : Nat) (r : JumpRef),
        (culPartsRefs ln absPos (splitByte 44 (l.drop absPos))).get? j = some r →
        ∃ ns, parseU32 ns = some r.target
          ∧ r.charEnd = r.charStart + ns.length
          ∧ (l.drop (r.charStart + partsD (splitByte 44 (l.drop absPos)) j)).take
              ns.length = ns
          ∧ (j = 0 → (l.drop r.charStart).take ns.length = ns)) := by
  refine ⟨by decide, ?_, ?_, ?_⟩
  · intro src
    unfold check_undefined_lines jumpRefs
    rw [flatMap_filter_map]
    refine congrArg (List.flatMap (src.enum)) (funext fun il => ?_)
    obtain ⟨ln, l⟩ := il
    rw [flatMap_filter_map]
    refine congrArg (List.flatMap jumpKeywords) (funext fun kw => ?_)
    exact culScan_eq _ _ _ _ _ _ _
  · intro src
    exact ⟨_, rfl⟩
  · intro l ln absPos j r h
    have htrue := culRefs_vs_true ln (splitByte 44 (l.drop absPos)) absPos j r h
    have hmem : (⟨r.row, r.charStart + partsD (splitByte 44 (l.drop absPos)) j,
        r.charEnd + partsD (splitByte 44 (l.drop absPos)) j, r.target⟩ : JumpRef)
        ∈ culPartsTrue ln absPos (splitByte 44 (l.drop absPos)) :=
      List.get?_mem htrue
    obtain ⟨ns, hns1, hns2, hns3⟩ :=
      culTrue_spans l ln (splitByte 44 (l.drop absPos)) absPos rfl _ hmem
    simp only at hns2 hns3
    refine ⟨ns, hns1, by omega, hns3, ?_⟩
    intro hj
    subst hj
    have h0 : partsD (splitByte 44 (l.drop absPos)) 0 = 0 := by
      rcases splitByte 44 (l.drop absPos) with _ | _
      · rfl
      · rfl
    rw [h0] at hns3
    rw [Nat.add_zero] at hns3
    exact hns3

/-- Witness for amended C4: the span rule instantiated at the second comma
part of `10 ON X GOTO 99, 98`. -/
theorem C4_witness :
    (culPartsRefs 0 13 (splitByte 44 ((bytes "10 ON X GOTO 99, 98").drop 13))).get? 1
      = some ⟨0, 14, 16, 98⟩
    ∧ ∃ ns, parseU32 ns = some (⟨0, 14, 16, 98⟩ : JumpRef).target
        ∧ (⟨0, 14, 16, 98⟩ : JumpRef).charEnd
          = (⟨0, 14, 16, 98⟩ : JumpRef).charStart + ns.length
        ∧ ((bytes "10 ON X GOTO 99, 98").drop
            ((⟨0, 14, 16, 98⟩ : JumpRef).charStart
              + partsD (splitByte 44 ((bytes "10 ON X GOTO 99, 98").drop 13)) 1)).take
            ns.length = ns
        ∧ (1 = 0 → ((bytes "10 ON X GOTO 99, 98").drop
            (⟨0, 14, 16, 98⟩ : JumpRef).charStart).take ns.length = ns) :=
  ⟨by rfl, C4_amended_undefined_line_spans.2.2.2 (bytes "10 ON X GOTO 99, 98")
    0 13 1 ⟨0, 14, 16, 98⟩ (by rfl)⟩

end Basica

namespace Basica

/-- C6: renaming the token `A$` to `B` in the two-line scenario produces
exactly the two `B$` edits; in general a successful rename returns exactly
`docOccEdits`, which by definition collects, over every document line, every
word-boundary occurrence of the suffix-stripped base name in the uppercased
line (the range filter spelled out in the third conjunct) and rewrites it
with the new name, `$`-adjusted per occurrence (`renameReplacement`). -/
theorem C6_rename_every_occurrence :
    (rename_symbol [bytes "10 LET A$ = \"hi\"", bytes "20 PRINT A$"] ⟨0, 7⟩
        (bytes "B")
      = .ok (some [⟨⟨0, 7, 0, 9⟩, bytes "B$"⟩, ⟨⟨1, 9, 1, 11⟩, bytes "B$"⟩]))
    ∧ (∀ (src : Doc) (p : Pos) (nn lc : Line) (s0 e0 : Nat) (w : Line),
        src.get? p.line = some lc →
        get_word_at_position lc p.character = some (s0, e0, w) →
        (parseU32 w).isSome = false →
        rename_is_keyword (upper w) = false →
        renameBase w ≠ [] →
        docOccEdits (renameBase w) nn src ≠ [] →
        rename_symbol src p nn = .ok (some (docOccEdits (renameBase w) nn src)))
    ∧ (∀ (base nn : Line) (li : Nat) (up : Line),
        occEdits base nn li up
          = ((List.range (up.length + 1)).filter
              (fun q => startsWith base (up.drop q) && beforeOkAt up q
                && afterOkAt up (q + base.length))).map
              (fun q => ⟨⟨li, q, li, occEnd base up q⟩,
                renameReplacement nn (occDollar base up q)⟩))
    ∧ (∀ (base nn : Line) (src : Doc),
        docOccEdits base nn src
          = (src.enum).flatMap (fun il => occEdits base nn il.1 (upper il.2))) := by
  refine ⟨rfl, ?_, ?_, ?_⟩
  · intro src p nn lc s0 e0 w hl hw hnum hkw hbase hne
    exact rename_symbol_exact src p nn lc s0 e0 w hl hw hnum hkw hbase hne
  · intro base nn li up
    rfl
  · intro base nn src
    rfl

end Basica

namespace Basica

/-- Witness for C6: the exactness equation instantiated on the scenario
document. -/
theorem C6_witness :
    rename_symbol [bytes "10 LET A$ = \"hi\"", bytes "20 PRINT A$"] ⟨0, 7⟩
        (bytes "B")
      = .ok (some (docOccEdits (renameBase (bytes "A$")) (bytes "B")
          [bytes "10 LET A$ = \"hi\"", bytes "20 PRINT A$"])) :=
  C6_rename_every_occurrence.2.1 [bytes "10 LET A$ = \"hi\"", bytes "20 PRINT A$"] ⟨0, 7⟩
    (bytes "B") (bytes "10 LET A$ = \"hi\"") 7 9 (bytes "A$")
    (by decide) (by decide) (by decide) (by decide) (by decide) (by decide)

end Basica

namespace Basica

theorem upperByte_eq_36 {x : Nat} (h : upperByte x = 36) : x = 36 := by
  rw [upperByte] at h
  by_cases hr : (97 ≤ x && x ≤ 122) = true
  · rw [if_pos hr] at h
    simp only [Bool.and_eq_true, decide_eq_true_iff] at hr
    omega
  · rw [if_neg hr] at h
    exact h

theorem upperByte_nonword {b : Nat} (h : isWordChar b = false) :
    upperByte b = b := by
  obtain ⟨ha, _, _⟩ := isWordChar_decomp h
  rw [upperByte, if_neg]
  intro hc
  simp only [Bool.and_eq_true, decide_eq_true_iff] at hc
  simp only [isAlnum, isAlpha, Bool.or_eq_false_iff, Bool.and_eq_false_iff,
    decide_eq_false_iff_not] at ha
  obtain ⟨_, h1, h2⟩ := ha
  rcases h2 with h2 | h2
  · omega
  · omega

theorem isWordChar_upperByte (b : Nat) :
    isWordChar (upperByte b) = isWordChar b := by
  by_cases h : isWordChar b = true
  · rw [h]
    simp only [isWordChar, isAlnum, Bool.or_eq_true, beq_iff_eq] at h
    rcases h with ((hd | ha) | h95) | h36
    · rw [upperByte, if_neg (by
        simp only [isDigit, Bool.and_eq_true, decide_eq_true_iff] at hd
        simp only [Bool.and_eq_true, decide_eq_true_iff, not_and]
        omega)]
      simp only [isWordChar, isAlnum, Bool.or_eq_true]
      exact Or.inl (Or.inl (Or.inl hd))
    · have := isAlpha_upperByte ha
      simp only [isWordChar, isAlnum, Bool.or_eq_true]
      exact Or.inl (Or.inl (Or.inr this))
    · subst h95
      rw [show upperByte 95 = 95 from rfl]
      rfl
    · subst h36
      rfl
  · rw [Bool.not_eq_true] at h
    rw [upperByte_nonword h, h]

theorem upperByte_idem (b : Nat) : upperByte (upperByte b) = upperByte b := by
  by_cases hr : (97 ≤ b && b ≤ 122) = true
  · have h1 : upperByte b = b - 32 := by rw [upperByte, if_pos hr]
    rw [h1]
    simp only [Bool.and_eq_true, decide_eq_true_iff] at hr
    rw [upperByte, if_neg (by
      simp only [Bool.and_eq_true, decide_eq_true_iff, not_and]
      omega)]
  · have h1 : upperByte b = b := by rw [upperByte, if_neg hr]
    rw [h1]
    rw [upperByte, if_neg hr]

theorem upper_idem (l : Line) : upper (upper l) = upper l := by
  rw [upper, upper, List.map_map]
  apply List.map_congr_left
  intro b _
  exact upperByte_idem b

theorem takeWhile_upper_len (X : Line) :
    ((upper X).takeWhile isWordChar).length = (X.takeWhile isWordChar).length := by
  rw [upper, List.takeWhile_map]
  rw [List.length_map]
  rw [show (isWordChar ∘ upperByte) = isWordChar from funext isWordChar_upperByte]

theorem get_word_upper {l : Line} {c s e : Nat} {w : Line}
    (h : get_word_at_position l c = some (s, e, w)) :
    get_word_at_position (upper l) c = some (s, e, upper w) := by
  have hlen : (upper l).length = l.length := List.length_map _ _
  have hrev : ∀ (Y : Line), (upper Y).reverse = upper (Y.reverse) := by
    intro Y
    rw [upper, upper, List.map_reverse]
  simp only [get_word_at_position] at h ⊢
  rw [hlen]
  rw [show (upper l).take (min c l.length) = upper (l.take (min c l.length)) from
    (upper_take _ l).symm]
  rw [hrev, takeWhile_upper_len]
  rw [show (upper l).drop (min c l.length) = upper (l.drop (min c l.length)) from
    (upper_drop _ l).symm]
  rw [takeWhile_upper_len]
  by_cases hlt : min c l.length
      - (((l.take (min c l.length)).reverse).takeWhile isWordChar).length
      < min c l.length + ((l.drop (min c l.length)).takeWhile isWordChar).length
  · rw [if_pos hlt] at h ⊢
    injection h with h1
    simp only [Prod.mk.injEq] at h1
    obtain ⟨hs, he, hw⟩ := h1
    subst hs
    subst he
    subst hw
    rw [show (upper l).drop (min c l.length
        - (((l.take (min c l.length)).reverse).takeWhile isWordChar).length)
        = upper (l.drop (min c l.length
          - (((l.take (min c l.length)).reverse).takeWhile isWordChar).length))
      from (upper_drop _ l).symm]
    rw [← upper_take]
  · rw [if_neg hlt] at h
    exact absurd h (by simp)

theorem renameBase_upper (w : Line) : renameBase (upper w) = renameBase w := by
  rw [renameBase, renameBase, upper_idem]

end Basica

namespace Basica

theorem cursor_occ_upper {lc : Line} {c s0 e0 : Nat} {w : Line}
    (hw : get_word_at_position lc c = some (s0, e0, w))
    (hwd : w ≠ [36]) :
    isOcc (renameBase w) (upper lc) s0 = true
    ∧ (∀ b ∈ renameBase w, isWordChar b = true)
    ∧ occEnd (renameBase w) (upper lc) s0 = e0 := by
  have hwd' : upper w ≠ [36] := by
    intro hc
    apply hwd
    rcases w with _ | ⟨x, t⟩
    · simp [upper] at hc
    · rcases t with _ | _
      · simp only [upper, List.map_cons, List.map_nil] at hc
        injection hc with h1 h2
        rw [upperByte_eq_36 h1]
      · simp [upper] at hc
  have h2 := cursor_isOcc (upper_idem lc) (get_word_upper hw) hwd'
  rw [renameBase_upper] at h2
  obtain ⟨hsl, hse, hel, hbytes, hleft, hright⟩ := get_word_full hw
  have hwlen : w.length = e0 - s0 := by
    rw [hsl, List.length_take, List.length_drop]
    omega
  have hulen : (upper w).length = w.length := List.length_map _ _
  have hlulen : (upper lc).length = lc.length := List.length_map _ _
  have husl : upper w = ((upper lc).drop s0).take (e0 - s0) := by
    rw [hsl, upper_take, upper_drop]
  have huget : ∀ j, j < e0 - s0 → (upper w).get? j = (upper lc).get? (s0 + j) := by
    intro j hj
    rw [husl, List.get?_take hj, List.get?_drop]
  refine ⟨h2.1, h2.2, ?_⟩
  by_cases h36 : ((upper w).getLast? == some 36) = true
  · have hb1 : renameBase w = (upper w).take ((upper w).length - 1) := by
      rw [renameBase, if_pos h36]
    have hw1 : 1 ≤ w.length := by
      rcases w with _ | _
      · simp [upper] at h36
      · simp
    have hdollar : occDollar (renameBase w) (upper lc) s0 = true := by
      rw [occDollar]
      simp only [Bool.and_eq_true, decide_eq_true_iff, beq_iff_eq]
      have hblen : (renameBase w).length = w.length - 1 := by
        rw [hb1, List.length_take, hulen]
        omega
      constructor
      · rw [hblen, hlulen]
        omega
      · rw [hblen]
        rw [show s0 + (w.length - 1) = s0 + (w.length - 1) from rfl]
        rw [← huget (w.length - 1) (by omega)]
        rw [← hulen] at hw1 ⊢
        rw [← List.getLast?_eq_get?]
        exact beq_iff_eq.mp h36
    rw [occEnd, if_pos hdollar]
    have hblen : (renameBase w).length = w.length - 1 := by
      rw [hb1, List.length_take, hulen]
      omega
    rw [hblen]
    omega
  · have hb1 : renameBase w = upper w := by
      rw [renameBase, if_neg h36]
    have hnd : occDollar (renameBase w) (upper lc) s0 = false := by
      rw [occDollar]
      simp only [Bool.and_eq_false_iff, decide_eq_false_iff_not, not_lt,
        beq_eq_false_iff_ne, ne_eq]
      rw [hb1, hulen, hwlen]
      rw [show s0 + (e0 - s0) = e0 from by omega]
      rcases hright with h0 | ⟨b, hb, hpb⟩
      · left
        rw [hlulen]
        omega
      · right
        have hub : (upper lc).get? e0 = some (upperByte b) := by
          rw [upper, List.get?_map, hb]
          rfl
        rw [hub]
        obtain ⟨_, _, h3⟩ := isWordChar_decomp hpb
        rw [upperByte_nonword hpb]
        intro hc
        injection hc with hc
        exact h3 hc
    rw [occEnd, if_neg (by rw [hnd]; exact Bool.false_ne_true)]
    rw [hb1, hulen, hwlen]
    omega

end Basica

namespace Basica

theorem trimEnd_dollar_last (l : Line) :
    (trimEndDollars l).getLast? ≠ some 36 := by
  rw [trimEndDollars]
  rw [List.getLast?_eq_head?_reverse, List.reverse_reverse]
  rcases hd : l.reverse.dropWhile (· == 36) with _ | ⟨b, t⟩
  · simp
  · have hb := dropWhile_eq_cons_head_false hd
    simp only [List.head?_cons, ne_eq, Option.some.injEq]
    intro hc
    rw [hc] at hb
    simp at hb

theorem trimEnd_dollar_keep {l : Line} (h : l.getLast? ≠ some 36) :
    trimEndDollars l = l := by
  rw [trimEndDollars]
  rcases hrev : l.reverse with _ | ⟨b, t⟩
  · simp at hrev
    rw [hrev]
    rfl
  · have hb : l.getLast? = some b := by
      rw [List.getLast?_eq_head?_reverse, hrev]
      rfl
    rw [List.dropWhile_cons, if_neg (by
      simp only [beq_iff_eq]
      intro hc
      rw [hc] at hb
      exact h hb)]
    rw [← hrev, List.reverse_reverse]

theorem trimEnd_dollar_concat {l : Line} (h : l.getLast? ≠ some 36) :
    trimEndDollars (l ++ [36]) = l := by
  rw [trimEndDollars]
  rw [List.reverse_append]
  show ((36 :: l.reverse).dropWhile (· == 36)).reverse = l
  rw [List.dropWhile_cons, if_pos (by simp)]
  rcases hrev : l.reverse with _ | ⟨b, t⟩
  · simp at hrev
    rw [hrev]
    rfl
  · have hb : l.getLast? = some b := by
      rw [List.getLast?_eq_head?_reverse, hrev]
      rfl
    rw [List.dropWhile_cons, if_neg (by
      simp only [beq_iff_eq]
      intro hc
      rw [hc] at hb
      exact h hb)]
    rw [← hrev, List.reverse_reverse]

theorem renameReplacement_trim {nn : Line}
    (h1d : nn = trimEndDollars nn ∨ nn = trimEndDollars nn ++ [36]) (d : Bool) :
    renameReplacement nn d
      = (if d then trimEndDollars nn ++ [36] else trimEndDollars nn) := by
  cases d with
  | false =>
    rw [if_neg (by simp)]
    rw [renameReplacement, if_neg (by simp)]
  | true =>
    rw [if_pos rfl]
    rw [renameReplacement, if_pos rfl]
    rcases h1d with h1 | h1
    · rw [if_neg (by
        simp only [beq_iff_eq, ne_eq]
        intro hc
        exact trimEnd_dollar_last nn (by rw [← h1]; exact hc))]
      rw [← h1]
    · rw [if_pos (by
        simp only [beq_iff_eq]
        conv_lhs => rw [h1]
        exact List.getLast?_concat _)]
      exact h1

theorem getLast_upper (w : Line) :
    (upper w).getLast? = Option.map upperByte w.getLast? :=
  List.getLast?_map upperByte w

theorem upper_renameReplacement_w {w : Line} (hwnil : w ≠ [])
    (hb1l : (renameBase w).getLast? ≠ some 36) (d : Bool) :
    upper (renameReplacement w d)
      = (if d then renameBase w ++ [36] else renameBase w) := by
  by_cases h36 : ((upper w).getLast? == some 36) = true
  · -- the cursor word ends in one dollar
    have hwlast : w.getLast? = some 36 := by
      rw [getLast_upper] at h36
      rcases hg : w.getLast? with _ | x
      · rw [hg] at h36
        simp at h36
      · rw [hg] at h36
        simp only [Option.map_some', beq_iff_eq, Option.some.injEq] at h36
        rw [upperByte_eq_36 h36]
    have hgl : w.getLast hwnil = 36 := by
      have := List.getLast?_eq_getLast w hwnil
      rw [hwlast] at this
      injection this with h1
      exact h1.symm
    have hdecomp : w = w.dropLast ++ [36] := by
      conv_lhs => rw [← List.dropLast_append_getLast hwnil]
      rw [hgl]
    have hb1 : renameBase w = upper w.dropLast := by
      rw [renameBase, if_pos h36]
      conv_lhs => rw [hdecomp]
      rw [upper_append]
      rw [show upper [36] = [36] from rfl]
      rw [List.length_append]
      simp only [List.length_singleton]
      rw [show (upper w.dropLast).length + 1 - 1 = (upper w.dropLast).length
        from by omega]
      rw [List.take_left]
    have hdl_last : w.dropLast.getLast? ≠ some 36 := by
      intro hc
      apply hb1l
      rw [hb1, getLast_upper, hc]
      rfl
    cases d with
    | true =>
      rw [if_pos rfl]
      rw [renameReplacement, if_pos rfl, if_pos (by simp [hwlast])]
      rw [hb1]
      conv_lhs => rw [hdecomp]
      rw [upper_append]
      rfl
    | false =>
      rw [if_neg (by simp)]
      rw [renameReplacement, if_neg (by simp)]
      show upper (trimEndDollars w) = renameBase w
      rw [hb1]
      congr 1
      conv_lhs => rw [hdecomp]
      exact trimEnd_dollar_concat hdl_last
  · -- no dollar suffix
    have hb1 : renameBase w = upper w := by
      rw [renameBase, if_neg h36]
    have hwlast : w.getLast? ≠ some 36 := by
      intro hc
      apply h36
      rw [getLast_upper, hc]
      rfl
    cases d with
    | true =>
      rw [if_pos rfl]
      rw [renameReplacement, if_pos rfl, if_neg (by
        simp only [beq_iff_eq]
        exact hwlast)]
      rw [upper_append, hb1]
      rfl
    | false =>
      rw [if_neg (by simp)]
      rw [renameReplacement, if_neg (by simp)]
      show upper (trimEndDollars w) = renameBase w
      rw [trimEnd_dollar_keep hwlast, hb1]

end Basica

namespace Basica

theorem respan_cons (tf : Nat → Line) (d0 cur s e : Nat) (t : Line)
    (rest : List (Nat × Nat × Line)) :
    respan tf d0 cur ((s, e, t) :: rest)
      = (d0 + (s - cur), d0 + (s - cur) + t.length, tf s)
          :: respan tf (d0 + (s - cur) + t.length) e rest := rfl

theorem retext_cons (tf : Nat → Line) (s e : Nat) (t : Line)
    (rest : List (Nat × Nat × Line)) :
    retext tf ((s, e, t) :: rest) = (s, e, tf s) :: retext tf rest := rfl

theorem apply_headW (base1 : Line) (ti : Bool → Line) (lu l : Line)
    (hb1 : base1 ≠ []) (hlen : lu.length = l.length)
    (rest : List (Nat × Nat × Line)) (e : Nat)
    (h : SpanInv base1 ti lu (e + 1) rest) :
    (applyLineEditsAux l e rest).get? 0 = l.get? e := by
  cases rest with
  | nil =>
    show (l.drop e).get? 0 = l.get? e
    rw [List.get?_drop, Nat.add_zero]
  | cons tr r2 =>
    rcases tr with ⟨s2, e2, t2⟩
    obtain ⟨hcur, hocc2, _, _, _⟩ := h
    have hoe := occEnd_le_length hb1 hocc2
    have hb1len : 1 ≤ base1.length := base_length_pos hb1
    have hel : e < l.length := by omega
    have hpre : 1 ≤ ((l.drop e).take (s2 - e)).length := by
      rw [List.length_take, List.length_drop]
      omega
    show ((l.drop e).take (s2 - e) ++ t2 ++ applyLineEditsAux l e2 r2).get? 0
      = l.get? e
    rw [List.get?_append (by rw [List.length_append]; omega)]
    rw [List.get?_append (by omega)]
    rw [List.get?_take (by omega)]
    rw [List.get?_drop, Nat.add_zero]

theorem splice_atoms (base1 : Line) (ti : Bool → Line) (tf : Nat → Line)
    (lu l : Line) (hb1 : base1 ≠ []) (hlen : lu.length = l.length) :
    ∀ (trips : List (Nat × Nat × Line)) (cur cur1 : Nat) (A : Line),
      SpanInv base1 ti lu cur1 trips → cur ≤ cur1 →
      applyLineEditsAux (A ++ applyLineEditsAux l cur trips) A.length
        (respan tf A.length cur trips)
      = applyLineEditsAux l cur (retext tf trips) := by
  intro trips
  induction trips with
  | nil =>
    intro cur cur1 A _ _
    show (A ++ l.drop cur).drop A.length = l.drop cur
    rw [List.drop_left]
  | cons tr rest ih =>
    rcases tr with ⟨s, e, t⟩
    intro cur cur1 A hsp hcc1
    obtain ⟨hc1s, hocc, he, ht, hrest⟩ := hsp
    have hb1len : 1 ≤ base1.length := base_length_pos hb1
    have hoe := occEnd_le_length hb1 hocc
    have hsle : s + base1.length ≤ e := by omega
    have hel : e ≤ l.length := by
      rw [← hlen]
      omega
    have hcs : cur ≤ s := by omega
    have hpre_len : ((l.drop cur).take (s - cur)).length = s - cur := by
      rw [List.length_take, List.length_drop]
      omega
    rw [respan_cons, retext_cons]
    show ((A ++ applyLineEditsAux l cur ((s, e, t) :: rest)).drop A.length).take
        (A.length + (s - cur) - A.length)
      ++ tf s
      ++ applyLineEditsAux (A ++ applyLineEditsAux l cur ((s, e, t) :: rest))
          (A.length + (s - cur) + t.length)
          (respan tf (A.length + (s - cur) + t.length) e rest)
      = (l.drop cur).take (s - cur) ++ tf s
          ++ applyLineEditsAux l e (retext tf rest)
    have happ : applyLineEditsAux l cur ((s, e, t) :: rest)
        = (l.drop cur).take (s - cur) ++ t ++ applyLineEditsAux l e rest := rfl
    have hdropA : (A ++ applyLineEditsAux l cur ((s, e, t) :: rest)).drop A.length
        = applyLineEditsAux l cur ((s, e, t) :: rest) := List.drop_left A _
    rw [hdropA]
    rw [show A.length + (s - cur) - A.length = s - cur from by omega]
    have htake : (applyLineEditsAux l cur ((s, e, t) :: rest)).take (s - cur)
        = (l.drop cur).take (s - cur) := by
      rw [happ, List.append_assoc]
      rw [List.take_append_of_le_length (by rw [hpre_len])]
      rw [List.take_take]
      congr 1
      omega
    rw [htake]
    have hihA : ((A ++ (l.drop cur).take (s - cur)) ++ t).length
        = A.length + (s - cur) + t.length := by
      rw [List.length_append, List.length_append, hpre_len]
    have hre := ih e (e + 1) ((A ++ (l.drop cur).take (s - cur)) ++ t) hrest
      (by omega)
    rw [hihA] at hre
    rw [show ((A ++ (l.drop cur).take (s - cur)) ++ t) ++ applyLineEditsAux l e rest
        = A ++ applyLineEditsAux l cur ((s, e, t) :: rest) from by
      rw [happ]
      simp [List.append_assoc]] at hre
    rw [hre]

theorem splice_id (base1 : Line) (ti : Bool → Line) (lu : Line)
    (hb1 : base1 ≠ []) :
    ∀ (trips : List (Nat × Nat × Line)) (cur cur1 : Nat),
      SpanInv base1 ti lu cur1 trips → cur ≤ cur1 →
      applyLineEditsAux lu cur
        (trips.map (fun x => (x.1, x.2.1, (lu.drop x.1).take (x.2.1 - x.1))))
      = lu.drop cur := by
  intro trips
  induction trips with
  | nil => intro cur cur1 _ _; rfl
  | cons tr rest ih =>
    rcases tr with ⟨s, e, t⟩
    intro cur cur1 hsp hcc1
    obtain ⟨hc1s, hocc, he, ht, hrest⟩ := hsp
    have hb1len : 1 ≤ base1.length := base_length_pos hb1
    have hoe := occEnd_le_length hb1 hocc
    have hel : e ≤ lu.length := by omega
    have hcs : cur ≤ s := by omega
    rw [List.map_cons]
    show (lu.drop cur).take (s - cur) ++ (lu.drop s).take (e - s)
        ++ applyLineEditsAux lu e
            (rest.map (fun x => (x.1, x.2.1, (lu.drop x.1).take (x.2.1 - x.1))))
      = lu.drop cur
    rw [ih e (e + 1) hrest (by omega)]
    rw [List.append_assoc]
    rw [show (lu.drop s).take (e - s) ++ lu.drop e = lu.drop s from by
      have h1 : (lu.drop s).drop (e - s) = lu.drop e := by
        rw [List.drop_drop]
        congr 1
        omega
      rw [← h1, List.take_append_drop]]
    rw [show (lu.drop cur).take (s - cur) ++ lu.drop s = lu.drop cur from by
      have h1 : (lu.drop cur).drop (s - cur) = lu.drop s := by
        rw [List.drop_drop]
        congr 1
        omega
      rw [← h1, List.take_append_drop]]

theorem applyAux_split (l : Line) (s e : Nat) (t : Line)
    (T2 : List (Nat × Nat × Line)) :
    ∀ (T1 : List (Nat × Nat × Line)) (cur : Nat),
      applyLineEditsAux l cur (T1 ++ (s, e, t) :: T2)
        = spliceUpto l cur T1 s ++ (t ++ applyLineEditsAux l e T2) := by
  intro T1
  induction T1 with
  | nil =>
    intro cur
    show (l.drop cur).take (s - cur) ++ t ++ applyLineEditsAux l e T2
      = (l.drop cur).take (s - cur) ++ (t ++ applyLineEditsAux l e T2)
    rw [List.append_assoc]
  | cons tr r ih =>
    rcases tr with ⟨s1, e1, t1⟩
    intro cur
    show (l.drop cur).take (s1 - cur) ++ t1
        ++ applyLineEditsAux l e1 (r ++ (s, e, t) :: T2)
      = ((l.drop cur).take (s1 - cur) ++ t1 ++ spliceUpto l e1 r s)
        ++ (t ++ applyLineEditsAux l e T2)
    rw [ih e1]
    simp [List.append_assoc]

end Basica

namespace Basica

theorem spanInv_head_lb (base1 : Line) (ti : Bool → Line) (lu : Line)
    (hb1 : base1 ≠ []) (s e : Nat) (t : Line) (T2 : List (Nat × Nat × Line)) :
    ∀ (T1 : List (Nat × Nat × Line)) (cur1 : Nat),
      SpanInv base1 ti lu cur1 (T1 ++ (s, e, t) :: T2) → cur1 ≤ s := by
  intro T1
  induction T1 with
  | nil =>
    intro cur1 h
    exact h.1
  | cons tr r ih =>
    rcases tr with ⟨s1, e1, t1⟩
    intro cur1 h
    obtain ⟨hc1, hocc1, he1, _, hrest⟩ := h
    have hoe := occEnd_le_length hb1 hocc1
    have hb1len : 1 ≤ base1.length := base_length_pos hb1
    have := ih (e1 + 1) hrest
    omega

theorem spliceUpto_last (base1 : Line) (ti : Bool → Line) (lu l : Line)
    (hb1 : base1 ≠ []) (hlen : lu.length = l.length) :
    ∀ (T1 : List (Nat × Nat × Line)) (cur cur1 : Nat) (s e : Nat) (t : Line)
      (T2 : List (Nat × Nat × Line)),
      SpanInv base1 ti lu cur1 (T1 ++ (s, e, t) :: T2) → cur ≤ cur1 →
      s ≤ l.length →
      (spliceUpto l cur T1 s = [] → cur = s)
      ∧ (spliceUpto l cur T1 s ≠ [] →
          1 ≤ s
          ∧ (spliceUpto l cur T1 s).get? ((spliceUpto l cur T1 s).length - 1)
              = l.get? (s - 1)) := by
  intro T1
  induction T1 with
  | nil =>
    intro cur cur1 s e t T2 hsp hcc hsl
    have hcs : cur ≤ s := by
      have := spanInv_head_lb base1 ti lu hb1 s e t T2 [] cur1 hsp
      omega
    constructor
    · intro hnil
      show cur = s
      by_contra hne
      have hlt : cur < s := by omega
      have hnil2 : (l.drop cur).take (s - cur) = [] := hnil
      have : ((l.drop cur).take (s - cur)).length = 0 := by
        rw [hnil2]
        rfl
      rw [List.length_take, List.length_drop] at this
      omega
    · intro hne
      have hlt : cur < s := by
        by_contra hc
        apply hne
        show (l.drop cur).take (s - cur) = []
        rw [show s - cur = 0 from by omega]
        rfl
      refine ⟨by omega, ?_⟩
      show ((l.drop cur).take (s - cur)).get?
          (((l.drop cur).take (s - cur)).length - 1) = l.get? (s - 1)
      rw [List.length_take, List.length_drop]
      rw [show min (s - cur) (l.length - cur) = s - cur from by omega]
      rw [List.get?_take (by omega)]
      rw [List.get?_drop]
      congr 1
      omega
  | cons tr r ih =>
    rcases tr with ⟨s1, e1, t1⟩
    intro cur cur1 s e t T2 hsp hcc hsl
    obtain ⟨hc1, hocc1, he1, _, hrest⟩ := hsp
    have hoe := occEnd_le_length hb1 hocc1
    have hb1len : 1 ≤ base1.length := base_length_pos hb1
    have hs_lb : e1 + 1 ≤ s :=
      spanInv_head_lb base1 ti lu hb1 s e t T2 r (e1 + 1) hrest
    have hrec := ih e1 (e1 + 1) s e t T2 hrest (by omega) hsl
    have hrecne : spliceUpto l e1 r s ≠ [] := by
      intro hc
      have := hrec.1 hc
      omega
    obtain ⟨hs1, hlast⟩ := hrec.2 hrecne
    constructor
    · intro hnil
      exfalso
      apply hrecne
      show spliceUpto l e1 r s = []
      have : ((l.drop cur).take (s1 - cur) ++ t1 ++ spliceUpto l e1 r s) = [] :=
        hnil
      rcases List.append_eq_nil.mp this with ⟨_, h2⟩
      exact h2
    · intro _
      refine ⟨hs1, ?_⟩
      show ((l.drop cur).take (s1 - cur) ++ t1 ++ spliceUpto l e1 r s).get?
          (((l.drop cur).take (s1 - cur) ++ t1 ++ spliceUpto l e1 r s).length - 1)
        = l.get? (s - 1)
      have hreclen : 1 ≤ (spliceUpto l e1 r s).length := by
        rcases hsu : spliceUpto l e1 r s with _ | _
        · exact absurd hsu hrecne
        · simp
      rw [List.append_assoc]
      rw [List.length_append]
      rw [List.get?_append_right (by
        rw [List.length_append]
        omega)]
      rw [List.length_append]
      rw [List.get?_append_right (by omega)]
      rw [show ((l.drop cur).take (s1 - cur)).length + (t1.length
            + (spliceUpto l e1 r s).length) - 1
          - ((l.drop cur).take (s1 - cur)).length - t1.length
          = (spliceUpto l e1 r s).length - 1 from by omega]
      exact hlast

end Basica

namespace Basica

theorem span_text {base1 lu : Line} {s e : Nat}
    (hocc : isOcc base1 lu s = true) (he : e = occEnd base1 lu s) :
    (lu.drop s).take (e - s)
      = (if occDollar base1 lu s then base1 ++ [36] else base1) := by
  have h1 : (lu.drop s).take base1.length = base1 :=
    eq_of_beq (isOcc_startsWith hocc)
  by_cases hd : occDollar base1 lu s = true
  · rw [if_pos (by rw [hd])]
    have hee : e = s + base1.length + 1 := by
      rw [he, occEnd, if_pos hd]
    rw [show e - s = base1.length + 1 from by omega]
    rw [List.take_succ, h1]
    have h2 : (lu.drop s)[base1.length]? = some 36 := by
      rw [← List.get?_eq_getElem?, List.get?_drop]
      exact occDollar_byte hd
    rw [h2]
    rfl
  · rw [Bool.not_eq_true] at hd
    rw [if_neg (by rw [hd]; exact Bool.false_ne_true)]
    have hee : e = s + base1.length := by
      rw [he, occEnd, if_neg (by rw [hd]; exact Bool.false_ne_true)]
    rw [show e - s = base1.length from by omega]
    exact h1

theorem parseU32_append36 (v : Line) : parseU32 (v ++ [36]) = none := by
  rw [parseU32]
  by_cases h45 : ((v ++ [36]).head? == some 45) = true
  · rw [if_pos h45]
  · rw [if_neg h45]
    have h36 : (36 : Nat) ∈ (if (v ++ [36]).head? == some 43
        then (v ++ [36]).tail else (v ++ [36])) := by
      by_cases h43 : ((v ++ [36]).head? == some 43) = true
      · rw [if_pos h43]
        rcases v with _ | ⟨b, t⟩
        · simp at h43
        · show (36 : Nat) ∈ t ++ [36]
          simp
      · rw [if_neg h43]
        simp
    rw [if_pos (by
      have : (if (v ++ [36]).head? == some 43
          then (v ++ [36]).tail else (v ++ [36])).all isDigit = false := by
        rw [Bool.eq_false_iff]
        intro hall
        have := List.all_eq_true.mp hall 36 h36
        simp [isDigit] at this
      rw [this]
      simp)]

theorem spanInv_suffix (base1 : Line) (ti : Bool → Line) (lu : Line)
    (s e : Nat) (t : Line) (T2 : List (Nat × Nat × Line)) :
    ∀ (T1 : List (Nat × Nat × Line)) (cur1 : Nat),
      SpanInv base1 ti lu cur1 (T1 ++ (s, e, t) :: T2) →
      SpanInv base1 ti lu (e + 1) T2 := by
  intro T1
  induction T1 with
  | nil =>
    intro cur1 h
    exact h.2.2.2.2
  | cons tr r ih =>
    rcases tr with ⟨s1, e1, t1⟩
    intro cur1 h
    exact ih (e1 + 1) h.2.2.2.2

theorem newStartsAbs_ne_nil {trips : List (Nat × Nat × Line)} (h : trips ≠ [])
    (d0 cur : Nat) : newStartsAbs d0 cur trips ≠ [] := by
  rcases trips with _ | ⟨⟨s, e, t⟩, r⟩
  · exact absurd rfl h
  · rw [newStartsAbs_cons]
    simp

theorem respan_map_congr (tf : Nat → Line) (Q : List Nat)
    (f g : Nat → Nat × Nat × Line)
    (h : ∀ q ∈ Q, (f q).1 = (g q).1 ∧ (f q).2.1 = (g q).2.1
      ∧ (f q).2.2.length = (g q).2.2.length) :
    ∀ d0 cur, respan tf d0 cur (Q.map f) = respan tf d0 cur (Q.map g) := by
  induction Q with
  | nil => intro d0 cur; rfl
  | cons q Q' ih =>
    intro d0 cur
    obtain ⟨h1, h2, h3⟩ := h q (by simp)
    rw [List.map_cons, List.map_cons]
    rcases hf : f q with ⟨s1, e1, t1⟩
    rcases hg : g q with ⟨s2, e2, t2⟩
    rw [hf, hg] at h1 h2 h3
    simp only at h1 h2 h3
    rw [respan_cons, respan_cons, h1, h2, h3]
    congr 1
    exact ih (fun x hx => h x (List.mem_cons_of_mem q hx)) _ _

theorem retext_map_occ (tf : Nat → Line) (base nn : Line) (lu : Line) :
    ∀ Q : List Nat,
      retext tf (Q.map (fun q => (q, occEnd base lu q,
          renameReplacement nn (occDollar base lu q))))
        = Q.map (fun q => (q, occEnd base lu q, tf q)) := by
  intro Q
  induction Q with
  | nil => rfl
  | cons q Q' ih =>
    rw [List.map_cons, List.map_cons, retext_cons, ih]

theorem respan_from_edits (base1 w B2 : Line) (ti : Bool → Line) (li : Nat)
    (lu F : Line)
    (hrepl1 : ∀ d', renameReplacement base1 d'
      = (if d' then base1 ++ [36] else base1)) :
    ∀ (trips : List (Nat × Nat × Line)) (d0 cur cur1 : Nat),
      SpanInv base1 ti lu cur1 trips →
      (newStartsAbs d0 cur trips).map (mkRenameEdit B2 base1 li F)
        = revEdits lu li d0 cur trips →
      (newStartsAbs d0 cur trips).map
        (fun q => (q, occEnd B2 F q, renameReplacement w (occDollar B2 F q)))
      = respan (fun q => renameReplacement w (occDollar base1 lu q)) d0 cur trips := by
  intro trips
  induction trips with
  | nil => intro d0 cur cur1 _ _; rfl
  | cons tr rest ih =>
    rcases tr with ⟨s, e, t⟩
    intro d0 cur cur1 hsp hK2
    obtain ⟨hc1s, hocc, he, ht, hrest⟩ := hsp
    rw [newStartsAbs_cons, revEdits_cons, List.map_cons] at hK2
    rw [newStartsAbs_cons, List.map_cons, respan_cons]
    obtain ⟨hhd, htl⟩ := List.cons_eq_cons.mp hK2
    have hhd2 : occEnd B2 F (d0 + (s - cur)) = d0 + (s - cur) + t.length
        ∧ renameReplacement base1 (occDollar B2 F (d0 + (s - cur)))
          = (lu.drop s).take (e - s) := by
      have h1 := congrArg TextEdit.range hhd
      have h2 := congrArg TextEdit.newText hhd
      simp only [mkRenameEdit] at h1 h2
      refine ⟨?_, h2⟩
      have := congrArg Rng.endChar h1
      exact this
    have hdd : occDollar B2 F (d0 + (s - cur)) = occDollar base1 lu s := by
      have hsp2 := span_text hocc he
      have hcomb := hhd2.2
      rw [hsp2] at hcomb
      rw [hrepl1] at hcomb
      by_cases hF : occDollar B2 F (d0 + (s - cur)) = true
      · rw [hF]
        rw [if_pos hF] at hcomb
        by_cases hL : occDollar base1 lu s = true
        · rw [hL]
        · rw [if_neg hL] at hcomb
          have := congrArg List.length hcomb
          rw [List.length_append] at this
          simp at this
      · rw [Bool.not_eq_true] at hF
        rw [hF]
        rw [if_neg (by rw [hF]; exact Bool.false_ne_true)] at hcomb
        by_cases hL : occDollar base1 lu s = true
        · rw [if_pos hL] at hcomb
          have := congrArg List.length hcomb
          rw [List.length_append] at this
          simp at this
        · rw [Bool.not_eq_true] at hL
          rw [hL]
    rw [hhd2.1, hdd]
    congr 1
    exact ih (d0 + (s - cur) + t.length) e (e + 1) hrest htl

end Basica

namespace Basica

theorem newStartsAbs_map_congr (Q : List Nat) (f g : Nat → Nat × Nat × Line)
    (h : ∀ q ∈ Q, (f q).1 = (g q).1 ∧ (f q).2.1 = (g q).2.1
      ∧ (f q).2.2.length = (g q).2.2.length) :
    ∀ d0 cur, newStartsAbs d0 cur (Q.map f) = newStartsAbs d0 cur (Q.map g) := by
  induction Q with
  | nil => intro d0 cur; rfl
  | cons q Q' ih =>
    intro d0 cur
    obtain ⟨h1, h2, h3⟩ := h q (by simp)
    rw [List.map_cons, List.map_cons]
    rcases hf : f q with ⟨s1, e1, t1⟩
    rcases hg : g q with ⟨s2, e2, t2⟩
    rw [hf, hg] at h1 h2 h3
    simp only at h1 h2 h3
    rw [newStartsAbs_cons, newStartsAbs_cons, h1, h2, h3]
    congr 1
    exact ih (fun x hx => h x (List.mem_cons_of_mem q hx)) _ _

theorem line_roundtrip_mixed (base1 nn w l : Line) (li : Nat)
    (hb1 : base1 ≠ []) (hbw : ∀ b ∈ base1, isWordChar b = true)
    (hb1last : base1.getLast? ≠ some 36)
    (hbn : trimEndDollars nn ≠ [])
    (hnnW : ∀ b ∈ trimEndDollars nn, isWordChar b = true)
    (h1d : nn = trimEndDollars nn ∨ nn = trimEndDollars nn ++ [36])
    (hfr : containsSub (upper (trimEndDollars nn)) (upper l) = false)
    (hwrepl : ∀ d, upper (renameReplacement w d)
      = (if d then base1 ++ [36] else base1)) :
    occList (upper (trimEndDollars nn))
        (upper (applyLineEditsAux l 0 (occTriples base1 nn (upper l))))
      = newStartsAbs 0 0 (occTriples base1 nn (upper l))
    ∧ applyLineEditsAux (applyLineEditsAux l 0 (occTriples base1 nn (upper l))) 0
        (occTriples (upper (trimEndDollars nn)) w
          (upper (applyLineEditsAux l 0 (occTriples base1 nn (upper l)))))
      = applyLineEditsAux l 0 (occTriples base1 w (upper l))
    ∧ upper (applyLineEditsAux l 0 (occTriples base1 w (upper l))) = upper l := by
  have hB2ne : upper (trimEndDollars nn) ≠ [] := upper_ne_nil hbn
  have hB2w : ∀ b ∈ upper (trimEndDollars nn), isWordChar b = true := by
    intro b hb
    obtain ⟨b0, hb0, rfl⟩ := List.mem_map.mp hb
    rw [isWordChar_upperByte]
    exact hnnW b0 hb0
  have hrepl1 : ∀ d', renameReplacement base1 d'
      = (if d' then base1 ++ [36] else base1) :=
    renameReplacement_lastne hb1 hb1last
  have hmapU : ∀ d : Bool, upper (renameReplacement nn d)
      = (if d then upper (trimEndDollars nn) ++ [36]
         else upper (trimEndDollars nn)) := by
    intro d
    rw [renameReplacement_trim h1d]
    cases d with
    | false => rfl
    | true =>
      rw [if_pos rfl, if_pos rfl, upper_append]
      rfl
  have hlen : (upper l).length = l.length := List.length_map _ _
  have hfields : ∀ q ∈ occList base1 (upper l),
      ((fun q => (q, occEnd base1 (upper l) q,
          if occDollar base1 (upper l) q then upper (trimEndDollars nn) ++ [36]
          else upper (trimEndDollars nn))) q).1
        = ((fun q => (q, occEnd base1 (upper l) q,
            renameReplacement nn (occDollar base1 (upper l) q))) q).1
      ∧ ((fun q => (q, occEnd base1 (upper l) q,
          if occDollar base1 (upper l) q then upper (trimEndDollars nn) ++ [36]
          else upper (trimEndDollars nn))) q).2.1
        = ((fun q => (q, occEnd base1 (upper l) q,
            renameReplacement nn (occDollar base1 (upper l) q))) q).2.1
      ∧ (((fun q => (q, occEnd base1 (upper l) q,
          if occDollar base1 (upper l) q then upper (trimEndDollars nn) ++ [36]
          else upper (trimEndDollars nn))) q).2.2).length
        = (((fun q => (q, occEnd base1 (upper l) q,
            renameReplacement nn (occDollar base1 (upper l) q))) q).2.2).length := by
    intro q _
    refine ⟨rfl, rfl, ?_⟩
    show (if occDollar base1 (upper l) q then upper (trimEndDollars nn) ++ [36]
        else upper (trimEndDollars nn)).length
      = (renameReplacement nn (occDollar base1 (upper l) q)).length
    rw [← hmapU]
    exact (List.length_map _ _)
  have hupN : upper (applyLineEditsAux l 0 (occTriples base1 nn (upper l)))
      = applyLineEditsAux (upper l) 0 ((occList base1 (upper l)).map
          (fun q => (q, occEnd base1 (upper l) q,
            if occDollar base1 (upper l) q then upper (trimEndDollars nn) ++ [36]
            else upper (trimEndDollars nn)))) := by
    rw [upper_applyLineEditsAux]
    congr 1
    rw [occTriples, List.map_map]
    apply List.map_congr_left
    intro q _
    simp only [Function.comp]
    rw [hmapU]
  have hspanU : SpanInv base1
      (fun d => if d then upper (trimEndDollars nn) ++ [36]
        else upper (trimEndDollars nn)) (upper l) 0
      ((occList base1 (upper l)).map
        (fun q => (q, occEnd base1 (upper l) q,
          if occDollar base1 (upper l) q then upper (trimEndDollars nn) ++ [36]
          else upper (trimEndDollars nn)))) :=
    spanInv_build base1 _ (upper l) hbw hb1 (occList base1 (upper l)) 0
      (occList_sorted base1 (upper l))
      (fun q hq => occList_mem_isOcc hq) (fun q _ => by omega)
  have hK := zone_main base1 (upper (trimEndDollars nn)) base1 li (upper l)
    hB2ne hB2w (containsSub_false_all hfr) hb1 hrepl1
    ((occList base1 (upper l)).map
      (fun q => (q, occEnd base1 (upper l) q,
        if occDollar base1 (upper l) q then upper (trimEndDollars nn) ++ [36]
        else upper (trimEndDollars nn))))
    0 0 [] hspanU (Nat.le_refl 0) (Or.inl ⟨rfl, rfl⟩)
  simp only [List.nil_append, List.length_nil] at hK
  obtain ⟨K1, K2⟩ := hK
  simp only [Nat.sub_zero] at K1
  have K1' : occList (upper (trimEndDollars nn))
      (applyLineEditsAux (upper l) 0 ((occList base1 (upper l)).map
        (fun q => (q, occEnd base1 (upper l) q,
          if occDollar base1 (upper l) q then upper (trimEndDollars nn) ++ [36]
          else upper (trimEndDollars nn)))))
      = newStartsAbs 0 0 ((occList base1 (upper l)).map
        (fun q => (q, occEnd base1 (upper l) q,
          if occDollar base1 (upper l) q then upper (trimEndDollars nn) ++ [36]
          else upper (trimEndDollars nn)))) := by
    show (List.range ((applyLineEditsAux (upper l) 0 ((occList base1 (upper l)).map
        (fun q => (q, occEnd base1 (upper l) q,
          if occDollar base1 (upper l) q then upper (trimEndDollars nn) ++ [36]
          else upper (trimEndDollars nn))))).length + 1)).filter
      (isOcc (upper (trimEndDollars nn))
        (applyLineEditsAux (upper l) 0 ((occList base1 (upper l)).map
          (fun q => (q, occEnd base1 (upper l) q,
            if occDollar base1 (upper l) q then upper (trimEndDollars nn) ++ [36]
            else upper (trimEndDollars nn)))))) = _
    rw [List.range_eq_range']
    exact K1
  have hc1 : occList (upper (trimEndDollars nn))
      (upper (applyLineEditsAux l 0 (occTriples base1 nn (upper l))))
      = newStartsAbs 0 0 (occTriples base1 nn (upper l)) := by
    rw [hupN, K1']
    rw [occTriples]
    exact newStartsAbs_map_congr (occList base1 (upper l)) _ _ hfields 0 0
  refine ⟨hc1, ?_, ?_⟩
  · have htrip : occTriples (upper (trimEndDollars nn)) w
        (upper (applyLineEditsAux l 0 (occTriples base1 nn (upper l))))
        = respan (fun q => renameReplacement w (occDollar base1 (upper l) q)) 0 0
            (occTriples base1 nn (upper l)) := by
      rw [occTriples, hc1]
      have hre := respan_from_edits base1 w (upper (trimEndDollars nn)) _ li
        (upper l)
        (upper (applyLineEditsAux l 0 (occTriples base1 nn (upper l))))
        hrepl1
        ((occList base1 (upper l)).map
          (fun q => (q, occEnd base1 (upper l) q,
            if occDollar base1 (upper l) q then upper (trimEndDollars nn) ++ [36]
            else upper (trimEndDollars nn))))
        0 0 0 hspanU (by rw [← hupN] at K2; exact K2)
      have hnsa : newStartsAbs 0 0 (occTriples base1 nn (upper l))
          = newStartsAbs 0 0 ((occList base1 (upper l)).map
            (fun q => (q, occEnd base1 (upper l) q,
              if occDollar base1 (upper l) q then upper (trimEndDollars nn) ++ [36]
              else upper (trimEndDollars nn)))) := by
        rw [occTriples]
        exact (newStartsAbs_map_congr (occList base1 (upper l)) _ _ hfields 0 0).symm
      rw [hnsa, hre]
      rw [occTriples]
      exact respan_map_congr _ (occList base1 (upper l)) _ _
        (fun q hq => (hfields q hq)) 0 0
    rw [htrip]
    have hsb := splice_atoms base1 (renameReplacement nn)
      (fun q => renameReplacement w (occDollar base1 (upper l) q))
      (upper l) l hb1 hlen (occTriples base1 nn (upper l)) 0 0 []
      (spanInv_occTriples base1 nn (upper l) hbw hb1) (Nat.le_refl 0)
    simp only [List.nil_append, List.length_nil] at hsb
    rw [hsb]
    congr 1
    rw [occTriples, retext_map_occ]
    rfl
  · rw [upper_applyLineEditsAux]
    have hWm : (occTriples base1 w (upper l)).map
        (fun t => (t.1, t.2.1, upper t.2.2))
        = (occTriples base1 w (upper l)).map
            (fun x => (x.1, x.2.1, ((upper l).drop x.1).take (x.2.1 - x.1))) := by
      rw [occTriples, List.map_map, List.map_map]
      apply List.map_congr_left
      intro q hq
      simp only [Function.comp]
      rw [hwrepl]
      rw [← span_text (occList_mem_isOcc hq) rfl]
    rw [hWm]
    have hsb2 := splice_id base1 (renameReplacement w) (upper l) hb1
      (occTriples base1 w (upper l)) 0 0
      (spanInv_occTriples base1 w (upper l) hbw hb1) (Nat.le_refl 0)
    rw [List.drop_zero] at hsb2
    exact hsb2

end Basica

namespace Basica

theorem get_map_upper {l : Line} {j : Nat} {bu : Nat}
    (h : (upper l).get? j = some bu) :
    ∃ b, l.get? j = some b ∧ bu = upperByte b := by
  rw [upper, List.get?_map] at h
  rcases hg : l.get? j with _ | b
  · rw [hg] at h
    simp at h
  · rw [hg] at h
    simp only [Option.map_some'] at h
    injection h with h
    exact ⟨b, rfl, h.symm⟩

theorem spliced_word_mixed {base1 nn l : Line} {s0 e0 : Nat}
    (hb1 : base1 ≠ []) (hbw : ∀ b ∈ base1, isWordChar b = true)
    (hbn : trimEndDollars nn ≠ [])
    (hnnW : ∀ b ∈ trimEndDollars nn, isWordChar b = true)
    (h1d : nn = trimEndDollars nn ∨ nn = trimEndDollars nn ++ [36])
    (hocc0 : isOcc base1 (upper l) s0 = true)
    (he0 : e0 = occEnd base1 (upper l) s0)
    (hre : e0 = l.length ∨ ∃ b, l.get? e0 = some b ∧ isWordChar b = false) :
    ∃ p2c,
      get_word_at_position (applyLineEditsAux l 0 (occTriples base1 nn (upper l)))
          p2c
        = some (p2c,
            p2c + (renameReplacement nn (occDollar base1 (upper l) s0)).length,
            renameReplacement nn (occDollar base1 (upper l) s0)) := by
  have hlen : (upper l).length = l.length := List.length_map _ _
  have hs0mem : s0 ∈ occList base1 (upper l) := (mem_occList_iff hb1).mpr hocc0
  obtain ⟨Q1, Q2, hQ⟩ := List.append_of_mem hs0mem
  have hXsplit : occTriples base1 nn (upper l)
      = Q1.map (fun q => (q, occEnd base1 (upper l) q,
          renameReplacement nn (occDollar base1 (upper l) q)))
        ++ (s0, occEnd base1 (upper l) s0,
            renameReplacement nn (occDollar base1 (upper l) s0))
          :: Q2.map (fun q => (q, occEnd base1 (upper l) q,
              renameReplacement nn (occDollar base1 (upper l) q))) := by
    rw [occTriples, hQ, List.map_append, List.map_cons]
  have hsp : SpanInv base1 (renameReplacement nn) (upper l) 0
      (Q1.map (fun q => (q, occEnd base1 (upper l) q,
          renameReplacement nn (occDollar base1 (upper l) q)))
        ++ (s0, occEnd base1 (upper l) s0,
            renameReplacement nn (occDollar base1 (upper l) s0))
          :: Q2.map (fun q => (q, occEnd base1 (upper l) q,
              renameReplacement nn (occDollar base1 (upper l) q)))) := by
    rw [← hXsplit]
    exact spanInv_occTriples base1 nn (upper l) hbw hb1
  have hoe := occEnd_le_length hb1 hocc0
  have hb1len : 1 ≤ base1.length := base_length_pos hb1
  have hs0l : s0 ≤ l.length := by omega
  have hsul := spliceUpto_last base1 (renameReplacement nn) (upper l) l hb1 hlen
    (Q1.map (fun q => (q, occEnd base1 (upper l) q,
        renameReplacement nn (occDollar base1 (upper l) q))))
    0 0 s0 (occEnd base1 (upper l) s0)
    (renameReplacement nn (occDollar base1 (upper l) s0))
    (Q2.map (fun q => (q, occEnd base1 (upper l) q,
        renameReplacement nn (occDollar base1 (upper l) q))))
    hsp (Nat.le_refl 0) hs0l
  have hsplit : applyLineEditsAux l 0 (occTriples base1 nn (upper l))
      = spliceUpto l 0 (Q1.map (fun q => (q, occEnd base1 (upper l) q,
            renameReplacement nn (occDollar base1 (upper l) q)))) s0
        ++ (renameReplacement nn (occDollar base1 (upper l) s0)
            ++ applyLineEditsAux l (occEnd base1 (upper l) s0)
              (Q2.map (fun q => (q, occEnd base1 (upper l) q,
                  renameReplacement nn (occDollar base1 (upper l) q))))) := by
    rw [hXsplit]
    exact applyAux_split l s0 (occEnd base1 (upper l) s0)
      (renameReplacement nn (occDollar base1 (upper l) s0))
      (Q2.map (fun q => (q, occEnd base1 (upper l) q,
          renameReplacement nn (occDollar base1 (upper l) q))))
      (Q1.map (fun q => (q, occEnd base1 (upper l) q,
          renameReplacement nn (occDollar base1 (upper l) q)))) 0
  set t0 := renameReplacement nn (occDollar base1 (upper l) s0) with ht0def
  set P := spliceUpto l 0 (Q1.map (fun q => (q, occEnd base1 (upper l) q,
      renameReplacement nn (occDollar base1 (upper l) q)))) s0 with hPdef
  set TL := applyLineEditsAux l (occEnd base1 (upper l) s0)
      (Q2.map (fun q => (q, occEnd base1 (upper l) q,
          renameReplacement nn (occDollar base1 (upper l) q)))) with hTLdef
  refine ⟨P.length, ?_⟩
  have ht0form : t0 = (if occDollar base1 (upper l) s0 then trimEndDollars nn ++ [36]
      else trimEndDollars nn) := renameReplacement_trim h1d _
  have ht0W : ∀ b ∈ t0, isWordChar b = true := by
    intro b hb
    rw [ht0form] at hb
    by_cases hd : occDollar base1 (upper l) s0 = true
    · rw [if_pos hd] at hb
      rcases List.mem_append.mp hb with hb | hb
      · exact hnnW b hb
      · simp only [List.mem_singleton] at hb
        subst hb
        rfl
    · rw [if_neg hd] at hb
      exact hnnW b hb
  have hbnlen : 1 ≤ (trimEndDollars nn).length := base_length_pos hbn
  have ht0len : 1 ≤ t0.length := by
    rw [ht0form]
    by_cases hd : occDollar base1 (upper l) s0 = true
    · rw [if_pos hd, List.length_append]
      omega
    · rw [if_neg hd]
      exact hbnlen
  have hrest2 : SpanInv base1 (renameReplacement nn) (upper l)
      (occEnd base1 (upper l) s0 + 1)
      (Q2.map (fun q => (q, occEnd base1 (upper l) q,
          renameReplacement nn (occDollar base1 (upper l) q)))) :=
    spanInv_suffix base1 (renameReplacement nn) (upper l) s0
      (occEnd base1 (upper l) s0) t0 _
      (Q1.map (fun q => (q, occEnd base1 (upper l) q,
          renameReplacement nn (occDollar base1 (upper l) q)))) 0 hsp
  have hhead : TL.get? 0 = l.get? (occEnd base1 (upper l) s0) :=
    apply_headW base1 (renameReplacement nn) (upper l) l hb1 hlen _ _ hrest2
  have hmain := get_word_intro
    (l := applyLineEditsAux l 0 (occTriples base1 nn (upper l)))
    (q := P.length) (k := t0.length)
    (by
      by_cases hP : P = []
      · left
        rw [hP]
        rfl
      · right
        have hP1 : 1 ≤ P.length := by
          have := List.length_pos.mpr hP
          omega
        obtain ⟨hs01, hlast⟩ := hsul.2 hP
        obtain ⟨bu, hbu, h1, h2, h3⟩ :=
          beforeOkAt_byte (isOcc_beforeOk hocc0) (by omega)
        obtain ⟨b, hb, hbup⟩ := get_map_upper hbu
        refine ⟨b, ?_, ?_⟩
        · rw [hsplit]
          rw [List.get?_append (by omega)]
          rw [hlast]
          exact hb
        · rw [← isWordChar_upperByte, ← hbup]
          exact isWordChar_intro h1 h2 h3)
    ht0len
    (by
      intro j hj
      obtain ⟨b, hb⟩ : ∃ b, t0.get? j = some b := by
        rcases hg : t0.get? j with _ | b
        · rw [List.get?_eq_none] at hg
          omega
        · exact ⟨b, rfl⟩
      refine ⟨b, ?_, ?_⟩
      · rw [hsplit]
        rw [List.get?_append_right (by omega)]
        rw [show P.length + j - P.length = j from by omega]
        rw [List.get?_append (by omega)]
        exact hb
      · apply ht0W
        obtain ⟨_, hbe⟩ := List.get?_eq_some.mp hb
        rw [← hbe]
        exact List.get_mem t0 _ _)
    (by
      have hegets : (applyLineEditsAux l 0 (occTriples base1 nn (upper l))).get?
          (P.length + t0.length) = l.get? (occEnd base1 (upper l) s0) := by
        rw [hsplit]
        rw [List.get?_append_right (by omega)]
        rw [show P.length + t0.length - P.length = t0.length from by omega]
        rw [List.get?_append_right (Nat.le_refl _)]
        rw [Nat.sub_self]
        exact hhead
      rcases hre with hre | ⟨b, hb, hw⟩
      · left
        have hnone : l.get? (occEnd base1 (upper l) s0) = none := by
          rw [List.get?_eq_none, ← he0, hre]
        have hTLnil : TL = [] := by
          rw [hnone] at hhead
          rcases hTL : TL with _ | ⟨x, xs⟩
          · rfl
          · rw [hTL] at hhead
            simp at hhead
        rw [hsplit, hTLnil]
        rw [List.length_append, List.length_append]
        simp
      · right
        refine ⟨b, ?_, hw⟩
        rw [hegets, ← he0]
        exact hb)
  rw [hmain]
  have hdrop : (applyLineEditsAux l 0 (occTriples base1 nn (upper l))).drop P.length
      = t0 ++ TL := by
    rw [hsplit]
    rw [List.drop_append_eq_append_drop, List.drop_eq_nil_of_le (Nat.le_refl _),
      List.nil_append, Nat.sub_self, List.drop_zero]
  rw [hdrop]
  rw [List.take_append_of_le_length (Nat.le_refl _), List.take_length]

end Basica

namespace Basica

theorem renameBase_repl {nn : Line} (hbn : trimEndDollars nn ≠ [])
    (h1d : nn = trimEndDollars nn ∨ nn = trimEndDollars nn ++ [36]) (d : Bool) :
    renameBase (renameReplacement nn d) = upper (trimEndDollars nn) := by
  have hlast : (upper (trimEndDollars nn)).getLast? ≠ some 36 := by
    rw [getLast_upper]
    intro hc
    rcases hg : (trimEndDollars nn).getLast? with _ | x
    · rw [hg] at hc
      simp at hc
    · rw [hg] at hc
      simp only [Option.map_some', Option.some.injEq] at hc
      exact trimEnd_dollar_last nn (by rw [hg, upperByte_eq_36 hc])
  rw [renameReplacement_trim h1d]
  cases d with
  | false =>
    show renameBase (trimEndDollars nn) = upper (trimEndDollars nn)
    rw [renameBase]
    rw [if_neg (by
      simp only [beq_iff_eq]
      exact hlast)]
  | true =>
    show renameBase (trimEndDollars nn ++ [36]) = upper (trimEndDollars nn)
    rw [renameBase]
    have hu : upper (trimEndDollars nn ++ [36])
        = upper (trimEndDollars nn) ++ [36] := by
      rw [upper_append]
      rfl
    rw [hu]
    rw [if_pos (by simp [List.getLast?_concat])]
    have hlen1 : (upper (trimEndDollars nn) ++ [36]).length - 1
        = (upper (trimEndDollars nn)).length := by
      rw [List.length_append]
      simp
    rw [hlen1]
    exact List.take_left _ _

theorem repl_checks {nn : Line}
    (h1d : nn = trimEndDollars nn ∨ nn = trimEndDollars nn ++ [36])
    (hnum2 : (parseU32 (trimEndDollars nn)).isSome = false)
    (hkw2 : rename_is_keyword (upper (trimEndDollars nn)) = false) (d : Bool) :
    (parseU32 (renameReplacement nn d)).isSome = false
    ∧ rename_is_keyword (upper (renameReplacement nn d)) = false := by
  rw [renameReplacement_trim h1d]
  cases d with
  | false => exact ⟨hnum2, hkw2⟩
  | true =>
    constructor
    · show (parseU32 (trimEndDollars nn ++ [36])).isSome = false
      rw [parseU32_append36]
      rfl
    · show rename_is_keyword (upper (trimEndDollars nn ++ [36])) = false
      rw [upper_append]
      exact rename_is_keyword_dollar (upper (trimEndDollars nn))

end Basica

namespace Basica

/-- C7 (amended): for any document and renameable cursor variable whose
token carries at most one trailing `$`, and a new name whose dollar-stripped
base is nonempty, made of word characters, not numeric, not a keyword, with
at most one trailing `$`, and fresh (occurring nowhere in the document,
case-insensitively): renaming the variable to the new name and then, at the
corresponding position, back to the original cursor spelling yields exactly
the direct self-rename of the variable to that spelling - a document equal
to the original up to casing, with every line's occurrence spans of the base
name preserved. -/
theorem C7_amended_rename_roundtrip (src : Doc) (p : Pos) (nn : Line)
    (lc : Line) (s0 e0 : Nat) (w : Line)
    (hl : src.get? p.line = some lc)
    (hw : get_word_at_position lc p.character = some (s0, e0, w))
    (hwd : w ≠ [36])
    (hnum : (parseU32 w).isSome = false)
    (hkw : rename_is_keyword (upper w) = false)
    (hb1l : (renameBase w).getLast? ≠ some 36)
    (hbn : trimEndDollars nn ≠ [])
    (hnnW : ∀ b ∈ trimEndDollars nn, isWordChar b = true)
    (h1d : nn = trimEndDollars nn ∨ nn = trimEndDollars nn ++ [36])
    (hnum2 : (parseU32 (trimEndDollars nn)).isSome = false)
    (hkw2 : rename_is_keyword (upper (trimEndDollars nn)) = false)
    (hfr : ∀ l ∈ src, containsSub (upper (trimEndDollars nn)) (upper l) = false) :
    ∃ E1 p2 E2,
      rename_symbol src p nn = .ok (some E1)
      ∧ rename_symbol (applyDocEdits src E1) p2 w = .ok (some E2)
      ∧ applyDocEdits (applyDocEdits src E1) E2
          = src.map (fun l =>
              applyLineEditsAux l 0 (occTriples (renameBase w) w (upper l)))
      ∧ (applyDocEdits (applyDocEdits src E1) E2).map upper = src.map upper
      ∧ (∀ i l2 l, (applyDocEdits (applyDocEdits src E1) E2).get? i = some l2 →
          src.get? i = some l →
          occList (renameBase w) (upper l2) = occList (renameBase w) (upper l)) := by
  have hlcmem : lc ∈ src := List.get?_mem hl
  obtain ⟨hoccw, hbw, hoe0⟩ := cursor_occ_upper hw hwd
  obtain ⟨hsl, hse, hel, hbytes, hleft, hright⟩ := get_word_full hw
  have hwnil : w ≠ [] := by
    intro h0
    have hlenw : w.length = e0 - s0 := by
      rw [hsl, List.length_take, List.length_drop]
      omega
    rw [h0] at hlenw
    simp at hlenw
    omega
  have hb1 : renameBase w ≠ [] := renameBase_ne_nil hwnil hwd
  have hwrepl := upper_renameReplacement_w hwnil hb1l
  have hocl_ne : occList (renameBase w) (upper lc) ≠ [] :=
    List.ne_nil_of_mem ((mem_occList_iff hb1).mpr hoccw)
  have hne1 : docOccEdits (renameBase w) nn src ≠ [] := by
    apply docOccEdits_ne_nil hl
    rw [occEdits]
    intro hc
    exact hocl_ne (List.map_eq_nil.mp hc)
  have hrs1 := rename_symbol_exact src p nn lc s0 e0 w hl hw hnum hkw hb1 hne1
  have hdoc1 : applyDocEdits src (docOccEdits (renameBase w) nn src)
      = src.map (fun l =>
          applyLineEditsAux l 0 (occTriples (renameBase w) nn (upper l))) :=
    applyDocEdits_docOccEdits (renameBase w) nn src
  have hline : ∀ l ∈ src,
      occList (upper (trimEndDollars nn))
          (upper (applyLineEditsAux l 0 (occTriples (renameBase w) nn (upper l))))
        = newStartsAbs 0 0 (occTriples (renameBase w) nn (upper l))
      ∧ applyLineEditsAux
          (applyLineEditsAux l 0 (occTriples (renameBase w) nn (upper l))) 0
          (occTriples (upper (trimEndDollars nn)) w
            (upper (applyLineEditsAux l 0 (occTriples (renameBase w) nn (upper l)))))
        = applyLineEditsAux l 0 (occTriples (renameBase w) w (upper l))
      ∧ upper (applyLineEditsAux l 0 (occTriples (renameBase w) w (upper l)))
        = upper l := by
    intro l hlm
    exact line_roundtrip_mixed (renameBase w) nn w l 0 hb1 hbw hb1l hbn hnnW h1d
      (hfr l hlm) hwrepl
  have hl2 : (src.map (fun l =>
      applyLineEditsAux l 0 (occTriples (renameBase w) nn (upper l)))).get? p.line
      = some (applyLineEditsAux lc 0 (occTriples (renameBase w) nn (upper lc))) := by
    rw [List.get?_map, hl]
    rfl
  obtain ⟨p2c, hw2⟩ := spliced_word_mixed hb1 hbw hbn hnnW h1d hoccw hoe0.symm hright
  obtain ⟨hnum2', hkw2'⟩ := repl_checks h1d hnum2 hkw2
    (occDollar (renameBase w) (upper lc) s0)
  have hbase2 : renameBase (renameReplacement nn
      (occDollar (renameBase w) (upper lc) s0)) ≠ [] := by
    rw [renameBase_repl hbn h1d]
    exact upper_ne_nil hbn
  have hX_ne : occTriples (renameBase w) nn (upper lc) ≠ [] := by
    rw [occTriples]
    intro hc
    exact hocl_ne (List.map_eq_nil.mp hc)
  have hne2 : docOccEdits (renameBase (renameReplacement nn
      (occDollar (renameBase w) (upper lc) s0))) w
      (src.map (fun l =>
        applyLineEditsAux l 0 (occTriples (renameBase w) nn (upper l)))) ≠ [] := by
    rw [renameBase_repl hbn h1d]
    apply docOccEdits_ne_nil hl2
    rw [occEdits]
    intro hc
    have := List.map_eq_nil.mp hc
    rw [(hline lc hlcmem).1] at this
    exact newStartsAbs_ne_nil hX_ne 0 0 this
  have hrs2 := rename_symbol_exact
    (src.map (fun l =>
      applyLineEditsAux l 0 (occTriples (renameBase w) nn (upper l))))
    ⟨p.line, p2c⟩ w
    (applyLineEditsAux lc 0 (occTriples (renameBase w) nn (upper lc)))
    p2c (p2c + (renameReplacement nn
      (occDollar (renameBase w) (upper lc) s0)).length)
    (renameReplacement nn (occDollar (renameBase w) (upper lc) s0))
    hl2 hw2 hnum2' hkw2' hbase2 hne2
  have hdoc2 : applyDocEdits
      (src.map (fun l =>
        applyLineEditsAux l 0 (occTriples (renameBase w) nn (upper l))))
      (docOccEdits (upper (trimEndDollars nn)) w
        (src.map (fun l =>
          applyLineEditsAux l 0 (occTriples (renameBase w) nn (upper l)))))
      = src.map (fun l =>
          applyLineEditsAux l 0 (occTriples (renameBase w) w (upper l))) := by
    rw [applyDocEdits_docOccEdits]
    rw [List.map_map]
    apply List.map_congr_left
    intro x hx
    simp only [Function.comp]
    exact (hline x hx).2.1
  refine ⟨docOccEdits (renameBase w) nn src, ⟨p.line, p2c⟩,
    docOccEdits (upper (trimEndDollars nn)) w
      (src.map (fun l =>
        applyLineEditsAux l 0 (occTriples (renameBase w) nn (upper l)))),
    hrs1, ?_, ?_, ?_, ?_⟩
  · rw [hdoc1]
    rw [hrs2]
    rw [renameBase_repl hbn h1d]
  · rw [hdoc1]
    exact hdoc2
  · rw [hdoc1, hdoc2]
    rw [List.map_map]
    apply List.map_congr_left
    intro x hx
    simp only [Function.comp]
    exact (hline x hx).2.2
  · intro i l2 l h2g h1g
    rw [hdoc1, hdoc2] at h2g
    rw [List.get?_map, h1g] at h2g
    simp only [Option.map_some'] at h2g
    injection h2g with h2g
    rw [← h2g]
    rw [(hline l (List.get?_mem h1g)).2.2]

end Basica

namespace Basica

/-- C7: the round trip of the original claim fails outside the amended
hypotheses, and each amended hypothesis is forced by one of these scenarios:
(i) a new name already occurring in the document merges the two variables
(`10 A = B`, rename `A` to `B`, then back: occurrence spans change);
(ii) a cursor token with two trailing dollars (`A$$`) loses one of them;
(iii) a new name with two trailing dollars (`B$$`) leaves a stray occurrence;
(iv) the all-dollar new name `$` erases the token, and at the corresponding
position no token is left to rename back;
(v) a new name with a non-word byte (`B C`) splits the token, and the round
trip leaves text that differs even up to casing;
(vi) a digits-only new name (`9`) produces a line-number token that the
reverse rename refuses;
(vii) a keyword new name (`GOTO`) produces a token the reverse rename
refuses. -/
theorem C7_counterexample :
    (rename_symbol [bytes "10 A = B"] ⟨0, 3⟩ (bytes "B")
        = .ok (some [⟨⟨0, 3, 0, 4⟩, bytes "B"⟩])
      ∧ applyDocEdits [bytes "10 A = B"] [⟨⟨0, 3, 0, 4⟩, bytes "B"⟩]
        = [bytes "10 B = B"]
      ∧ rename_symbol [bytes "10 B = B"] ⟨0, 3⟩ (bytes "A")
        = .ok (some [⟨⟨0, 3, 0, 4⟩, bytes "A"⟩, ⟨⟨0, 7, 0, 8⟩, bytes "A"⟩])
      ∧ applyDocEdits [bytes "10 B = B"]
          [⟨⟨0, 3, 0, 4⟩, bytes "A"⟩, ⟨⟨0, 7, 0, 8⟩, bytes "A"⟩]
        = [bytes "10 A = A"]
      ∧ occList (renameBase (bytes "A")) (upper (bytes "10 A = A"))
        ≠ occList (renameBase (bytes "A")) (upper (bytes "10 A = B")))
    ∧ (rename_symbol [bytes "10 A$$ = A$"] ⟨0, 3⟩ (bytes "B")
        = .ok (some [⟨⟨0, 3, 0, 6⟩, bytes "B$"⟩, ⟨⟨0, 9, 0, 11⟩, bytes "B"⟩])
      ∧ applyDocEdits [bytes "10 A$$ = A$"]
          [⟨⟨0, 3, 0, 6⟩, bytes "B$"⟩, ⟨⟨0, 9, 0, 11⟩, bytes "B"⟩]
        = [bytes "10 B$ = B"]
      ∧ rename_symbol [bytes "10 B$ = B"] ⟨0, 3⟩ (bytes "A$$")
        = .ok (some [⟨⟨0, 3, 0, 5⟩, bytes "A$$"⟩, ⟨⟨0, 8, 0, 9⟩, bytes "A"⟩])
      ∧ applyDocEdits [bytes "10 B$ = B"]
          [⟨⟨0, 3, 0, 5⟩, bytes "A$$"⟩, ⟨⟨0, 8, 0, 9⟩, bytes "A"⟩]
        = [bytes "10 A$$ = A"]
      ∧ [bytes "10 A$$ = A"] ≠ [bytes "10 A$$ = A$"]
      ∧ occList (renameBase (bytes "A$$")) (upper (bytes "10 A$$ = A"))
        ≠ occList (renameBase (bytes "A$$")) (upper (bytes "10 A$$ = A$")))
    ∧ (rename_symbol [bytes "10 a$ = a"] ⟨0, 3⟩ (bytes "B$$")
        = .ok (some [⟨⟨0, 3, 0, 5⟩, bytes "B$$"⟩, ⟨⟨0, 8, 0, 9⟩, bytes "B"⟩])
      ∧ applyDocEdits [bytes "10 a$ = a"]
          [⟨⟨0, 3, 0, 5⟩, bytes "B$$"⟩, ⟨⟨0, 8, 0, 9⟩, bytes "B"⟩]
        = [bytes "10 B$$ = B"]
      ∧ rename_symbol [bytes "10 B$$ = B"] ⟨0, 3⟩ (bytes "a$")
        = .ok (some [⟨⟨0, 3, 0, 6⟩, bytes "a$"⟩])
      ∧ applyDocEdits [bytes "10 B$$ = B"] [⟨⟨0, 3, 0, 6⟩, bytes "a$"⟩]
        = [bytes "10 a$ = B"]
      ∧ occList (renameBase (bytes "a$")) (upper (bytes "10 a$ = B"))
        ≠ occList (renameBase (bytes "a$")) (upper (bytes "10 a$ = a")))
    ∧ (rename_symbol [bytes "10 a = 1"] ⟨0, 3⟩ (bytes "$")
        = .ok (some [⟨⟨0, 3, 0, 4⟩, bytes ""⟩])
      ∧ applyDocEdits [bytes "10 a = 1"] [⟨⟨0, 3, 0, 4⟩, bytes ""⟩]
        = [bytes "10  = 1"]
      ∧ rename_symbol [bytes "10  = 1"] ⟨0, 3⟩ (bytes "a") = .ok none)
    ∧ (rename_symbol [bytes "10 a = 1"] ⟨0, 3⟩ (bytes "B C")
        = .ok (some [⟨⟨0, 3, 0, 4⟩, bytes "B C"⟩])
      ∧ applyDocEdits [bytes "10 a = 1"] [⟨⟨0, 3, 0, 4⟩, bytes "B C"⟩]
        = [bytes "10 B C = 1"]
      ∧ rename_symbol [bytes "10 B C = 1"] ⟨0, 3⟩ (bytes "a")
        = .ok (some [⟨⟨0, 3, 0, 4⟩, bytes "a"⟩])
      ∧ applyDocEdits [bytes "10 B C = 1"] [⟨⟨0, 3, 0, 4⟩, bytes "a"⟩]
        = [bytes "10 a C = 1"]
      ∧ [bytes "10 a C = 1"].map upper ≠ [bytes "10 a = 1"].map upper)
    ∧ (rename_symbol [bytes "10 a = 1"] ⟨0, 3⟩ (bytes "9")
        = .ok (some [⟨⟨0, 3, 0, 4⟩, bytes "9"⟩])
      ∧ applyDocEdits [bytes "10 a = 1"] [⟨⟨0, 3, 0, 4⟩, bytes "9"⟩]
        = [bytes "10 9 = 1"]
      ∧ rename_symbol [bytes "10 9 = 1"] ⟨0, 3⟩ (bytes "a") = .ok none)
    ∧ (rename_symbol [bytes "10 a = 1"] ⟨0, 3⟩ (bytes "GOTO")
        = .ok (some [⟨⟨0, 3, 0, 4⟩, bytes "GOTO"⟩])
      ∧ applyDocEdits [bytes "10 a = 1"] [⟨⟨0, 3, 0, 4⟩, bytes "GOTO"⟩]
        = [bytes "10 GOTO = 1"]
      ∧ rename_symbol [bytes "10 GOTO = 1"] ⟨0, 3⟩ (bytes "a") = .ok none) := by
  exact ⟨⟨rfl, rfl, rfl, rfl, by decide⟩,
    ⟨rfl, rfl, rfl, rfl, by decide, by decide⟩,
    ⟨rfl, rfl, rfl, rfl, by decide⟩,
    ⟨rfl, rfl, rfl⟩,
    ⟨rfl, rfl, rfl, rfl, by decide⟩,
    ⟨rfl, rfl, rfl⟩,
    ⟨rfl, rfl, rfl⟩⟩

/-- C7 (amended): witness at a mixed-case document: renaming the cursor
variable `a` of `10 let a = 1\n20 print A` to the fresh name `X2` and then,
at the corresponding position, `X2` back to `a` yields exactly the direct
recasing rename, equal to the original document up to casing and with the
original occurrence spans. -/
theorem C7_witness :
    ∃ E1 p2 E2,
      rename_symbol [bytes "10 let a = 1", bytes "20 print A"] ⟨0, 7⟩
          (bytes "X2") = .ok (some E1)
      ∧ rename_symbol
          (applyDocEdits [bytes "10 let a = 1", bytes "20 print A"] E1) p2
          (bytes "a") = .ok (some E2)
      ∧ applyDocEdits
          (applyDocEdits [bytes "10 let a = 1", bytes "20 print A"] E1) E2
        = [bytes "10 let a = 1", bytes "20 print A"].map (fun l =>
            applyLineEditsAux l 0
              (occTriples (renameBase (bytes "a")) (bytes "a") (upper l)))
      ∧ (applyDocEdits
          (applyDocEdits [bytes "10 let a = 1", bytes "20 print A"] E1)
          E2).map upper
        = [bytes "10 let a = 1", bytes "20 print A"].map upper
      ∧ (∀ i l2 l,
          (applyDocEdits
            (applyDocEdits [bytes "10 let a = 1", bytes "20 print A"] E1)
            E2).get? i = some l2 →
          [bytes "10 let a = 1", bytes "20 print A"].get? i = some l →
          occList (renameBase (bytes "a")) (upper l2)
            = occList (renameBase (bytes "a")) (upper l)) :=
  C7_amended_rename_roundtrip [bytes "10 let a = 1", bytes "20 print A"]
    ⟨0, 7⟩ (bytes "X2") (bytes "10 let a = 1") 7 8 (bytes "a")
    (by decide) (by decide) (by decide) (by decide) (by decide) (by decide)
    (by decide) (by decide) (by decide) (by decide) (by decide) (by decide)

end Basica
